import Mathlib

/-!
# readdirFast.cc : paged output buffer, wire encoders and directory traversal

A shallow embedding of `src/readdirFast.cc`.

* Bytes are natural numbers (every byte the encoders produce is `< 256`).
* A UTF-16 code unit (`wchar_t`, two bytes on the target) is a natural number;
  a wide string is a list of code units without its terminator.
* `ULONG` / `uint32_t` fields are natural numbers, reduced `% 2^32` where the
  code stores into such a field; `LARGE_INTEGER` values are integers, wrapped
  into the signed 64-bit range where the code computes with them.
-/

namespace ReaddirFast

/-! ## PagedBinaryStream -/

/-- The stream of `struct PagedBinaryStream`.  `pData` holds the bytes already
written into the current page, i.e. the range `[pData.get(), pPos)`; the unwritten
rest of the page is not represented.  `fullBuffers` is the vector of pages that
were retired, oldest first. -/
structure PagedBinaryStream where
  pData : List Nat
  fullBuffers : List (List Nat)
deriving DecidableEq, Repr

namespace PagedBinaryStream

/-- The constant `static const size_t pageSize = 0x10000`. -/
def pageSize : Nat := 0x10000

/-- The constructor: one fresh page, `pPos = pData.get()`, no full page. -/
def new : PagedBinaryStream := { pData := [], fullBuffers := [] }

/-- The offset `pPos - pData.get()` of the write position in the current page. -/
def pPos (s : PagedBinaryStream) : Nat := s.pData.length

/-- The `do { ... } while (len > 0)` loop of `write`; `pSrc` is the part of the
source still to copy (so `len = pSrc.length`).  The first argument bounds the
number of iterations; `write` passes `len + 1`, one more than the loop can take. -/
def writeLoop : Nat → PagedBinaryStream → List Nat → PagedBinaryStream
  | 0, s, _ => s
  | fuel + 1, s, pSrc =>
    -- if (pPos >= pEnd) { fullBuffers.push_back(std::move(pData)); pData = new page; }
    let s1 : PagedBinaryStream :=
      if s.pPos ≥ pageSize then { pData := [], fullBuffers := s.fullBuffers ++ [s.pData] } else s
    let availableBytes := pageSize - s1.pPos
    let copiedBytes := if pSrc.length > availableBytes then availableBytes else pSrc.length
    -- memcpy(pPos, pSrc, copiedBytes); pPos += copiedBytes;
    let s2 : PagedBinaryStream := { s1 with pData := s1.pData ++ pSrc.take copiedBytes }
    -- pSrc += copiedBytes; len -= copiedBytes;
    let rest := pSrc.drop copiedBytes
    if rest.length > 0 then writeLoop fuel s2 rest else s2

/-- The method `write(pSrcVoid, len)`; the source bytes are the list `pSrc`. -/
def write (s : PagedBinaryStream) (pSrc : List Nat) : PagedBinaryStream :=
  writeLoop (pSrc.length + 1) s pSrc

/-- The method `len()`. -/
def len (s : PagedBinaryStream) : Nat :=
  s.fullBuffers.length * pageSize + s.pPos

/-- The method `copyAndReset(dest)`: the bytes stored into `dest`.  Every full
page contributes `pageSize` bytes, the current page the bytes up to `pPos`. -/
def copyAndReset (s : PagedBinaryStream) : List Nat :=
  (s.fullBuffers.flatMap fun pBuf => pBuf.take pageSize) ++ s.pData.take s.pPos

/-- Representation invariant: the current page is not overfull and every retired
page is exactly full. -/
def Inv (s : PagedBinaryStream) : Prop :=
  s.pData.length ≤ pageSize ∧ ∀ pBuf ∈ s.fullBuffers, pBuf.length = pageSize

end PagedBinaryStream

/-! ## Wire encoders -/

/-- The `w` low-order bytes of `v`, least significant first: the bytes `write`
reads from the address of a `w`-byte integer object on the (little-endian) target. -/
def leBytes : Nat → Nat → List Nat
  | 0, _ => []
  | w + 1, v => v % 256 :: leBytes w (v / 256)

/-- The bytes of an array of `wchar_t`: two bytes per code unit. -/
def wcharBytes (ws : List Nat) : List Nat :=
  ws.flatMap (leBytes 2)

/-- Wrap an integer into the range of `long long` (two's complement, 64 bits). -/
def wrapInt64 (v : Int) : Int :=
  (v + 2 ^ 63) % 2 ^ 64 - 2 ^ 63

/-- Position of the highest set bit of `m` (0 for `m ≤ 1`), by at most `fuel` halvings. -/
def floorLog2 : Nat → Nat → Nat
  | 0, _ => 0
  | fuel + 1, m => if m ≤ 1 then 0 else floorLog2 fuel (m / 2) + 1

/-- The conversion `(double)v` of a `long long`: the IEEE-754 binary64 bit pattern
of `v` rounded to nearest, ties to even. -/
def doubleBits (v : Int) : Nat :=
  if v = 0 then 0
  else
    let sign := if v < 0 then 2 ^ 63 else 0
    let m := v.natAbs
    let e := floorLog2 64 m
    let q :=
      if e ≤ 52 then m * 2 ^ (52 - e)
      else
        let shift := e - 52
        let q0 := m / 2 ^ shift
        let r := m % 2 ^ shift
        let half := 2 ^ (shift - 1)
        if r > half ∨ (r = half ∧ q0 % 2 = 1) then q0 + 1 else q0
    sign + (e + 1023) * 2 ^ 52 + (q - 2 ^ 52)

/-- The eight bytes `write(&d, sizeof(d))` reads from a `double d = (double)v`. -/
def doubleBytes (v : Int) : List Nat :=
  leBytes 8 (doubleBits v)

/-- The function `filetimeToUnixTimestampInMs`: subtract the epoch offset, then the
truncating division of C++ by 10000. -/
def filetimeToUnixTimestampInMs (value : Int) : Int :=
  (wrapInt64 (value - 116444736000000000)).tdiv 10000

/-- The array `wszDirPrefix = L"\\\\?\\"`: the four code units `\\?\`. -/
def wszDirPrefix : List Nat := [0x5C, 0x5C, 0x3F, 0x5C]

/-- The object `wszDirPrefix` with its terminator occupies `sizeof(wszDirPrefix)` = 10 bytes. -/
def sizeofDirPrefix : Nat := 2 * (wszDirPrefix.length + 1)

/-- The constant `nbytesDirPrefix = sizeof(wszDirPrefix) - 2`. -/
def nbytesDirPrefix : Nat := sizeofDirPrefix - 2

/-- The constant `cchDirPrefix = (sizeof(wszDirPrefix) - 1) / 2`. -/
def cchDirPrefix : Nat := (sizeofDirPrefix - 1) / 2

/-- The test `0 == memcmp(wsz, wszDirPrefix, nbytesDirPrefix)` on a terminated wide
string: the first `nbytesDirPrefix / 2` code units of `wsz` are those of the prefix
(a shorter string differs from the prefix at its terminator at the latest). -/
def hasDirPrefix (wsz : List Nat) : Bool :=
  (wszDirPrefix.take (nbytesDirPrefix / 2)).isPrefixOf wsz

/-- The struct `FILE_DIRECTORY_INFORMATION`.  `ULONG` fields are natural numbers,
`LARGE_INTEGER` fields are the integer `QuadPart`; `FileName` lists the code units
stored from the address of the `FileName` member onwards. -/
structure FILE_DIRECTORY_INFORMATION where
  NextEntryOffset : Nat
  FileIndex : Nat
  CreationTime : Int
  LastAccessTime : Int
  LastWriteTime : Int
  ChangeTime : Int
  EndOfFile : Int
  AllocationSize : Int
  FileAttributes : Nat
  FileNameLength : Nat
  FileName : List Nat
deriving DecidableEq, Repr

/-- A raw entry as the operating system lays it out: every field is in the range
of its C type and `FileNameLength` is the byte length of the name. -/
def FILE_DIRECTORY_INFORMATION.WellFormed (file : FILE_DIRECTORY_INFORMATION) : Prop :=
  file.NextEntryOffset < 2 ^ 32 ∧ file.FileIndex < 2 ^ 32 ∧
  file.FileAttributes < 2 ^ 32 ∧ file.FileNameLength < 2 ^ 32 ∧
  file.FileNameLength = 2 * file.FileName.length ∧
  (∀ c ∈ file.FileName, c < 2 ^ 16) ∧
  (-2 ^ 63 ≤ file.CreationTime ∧ file.CreationTime < 2 ^ 63) ∧
  (-2 ^ 63 ≤ file.LastAccessTime ∧ file.LastAccessTime < 2 ^ 63) ∧
  (-2 ^ 63 ≤ file.LastWriteTime ∧ file.LastWriteTime < 2 ^ 63) ∧
  (-2 ^ 63 ≤ file.ChangeTime ∧ file.ChangeTime < 2 ^ 63) ∧
  (-2 ^ 63 ≤ file.EndOfFile ∧ file.EndOfFile < 2 ^ 63) ∧
  (-2 ^ 63 ≤ file.AllocationSize ∧ file.AllocationSize < 2 ^ 63)

instance (file : FILE_DIRECTORY_INFORMATION) : Decidable file.WellFormed := by
  unfold FILE_DIRECTORY_INFORMATION.WellFormed
  infer_instance

/-- The constant `FILE_ATTRIBUTE_SPECIAL_FULLPATH_MASK`. -/
def FILE_ATTRIBUTE_SPECIAL_FULLPATH_MASK : Nat := 0xFFFFFFFF

/-- The integer that `writeFileToStream` converts to the `double length`:
`file->EndOfFile.QuadPart - 1`, computed in `long long`. -/
def encodedLength (file : FILE_DIRECTORY_INFORMATION) : Int :=
  wrapInt64 (file.EndOfFile - 1)

/-- The function `writeFileToStream`. -/
def writeFileToStream (file : FILE_DIRECTORY_INFORMATION) (stream : PagedBinaryStream) :
    PagedBinaryStream :=
  -- file name length in bytes (not characters)
  let stream := stream.write (leBytes 4 file.FileNameLength)
  -- file name (not null terminated)
  let stream := stream.write ((wcharBytes file.FileName).take file.FileNameLength)
  -- attributes
  let attributes := file.FileAttributes % 2 ^ 32
  let stream := stream.write (leBytes 4 attributes)
  -- length
  let stream := stream.write (doubleBytes (encodedLength file))
  -- CreationTime
  let stream := stream.write (doubleBytes (filetimeToUnixTimestampInMs file.CreationTime))
  -- LastWriteTime
  stream.write (doubleBytes (filetimeToUnixTimestampInMs file.LastWriteTime))

/-- The string that `writeFullPathToStream` writes: `fullPath` without the
`\\?\` prefix when it has it (`wszFullPath += cchDirPrefix`). -/
def strippedPath (fullPath : List Nat) : List Nat :=
  if hasDirPrefix fullPath then fullPath.drop cchDirPrefix else fullPath

/-- The function `writeFullPathToStream`. -/
def writeFullPathToStream (fullPath : List Nat) (stream : PagedBinaryStream) :
    PagedBinaryStream :=
  let cchFullPath := fullPath.length
  let wszFullPath := fullPath
  -- remove \\?\ prefix if needed
  let (wszFullPath, cchFullPath) :=
    if hasDirPrefix wszFullPath then (wszFullPath.drop cchDirPrefix, cchFullPath - cchDirPrefix)
    else (wszFullPath, cchFullPath)
  -- file name length in bytes (not characters)
  let fullPathLength := (cchFullPath * 2) % 2 ^ 32
  let stream := stream.write (leBytes 4 fullPathLength)
  -- file name (not null terminated)
  let stream := stream.write ((wcharBytes wszFullPath).take (cchFullPath * 2))
  -- attributes
  let attributes := FILE_ATTRIBUTE_SPECIAL_FULLPATH_MASK
  stream.write (leBytes 4 attributes)

/-! ## normalizeDir -/

/-- The loop `while (cchDir > 1 && (wszDir[cchDir - 1] == L'\\' || wszDir[cchDir - 1] == L'/'))
cchDir -= 1;` started at the second argument. -/
def trimTrailing (wszDir : List Nat) : Nat → Nat
  | 0 => 0
  | cchDir + 1 =>
    if cchDir + 1 > 1 ∧ (wszDir.getD cchDir 0 = 0x5C ∨ wszDir.getD cchDir 0 = 0x2F) then
      trimTrailing wszDir cchDir
    else cchDir + 1

/-- The function `normalizeDir`; `wszDir` lists the code units before the terminator,
so `wcslen(wszDir)` is its length. -/
def normalizeDir (wszDir : List Nat) : List Nat :=
  -- trim trailing slashes
  let cchDir := trimTrailing wszDir wszDir.length
  -- add prefix if necessary
  let dirStr :=
    if hasDirPrefix wszDir then wszDir.take cchDir
    else wszDirPrefix ++ wszDir.take cchDir
  -- change any / to \ to normalize, from index cchDirPrefix on
  dirStr.take cchDirPrefix ++ (dirStr.drop cchDirPrefix).map fun c => if c = 0x2F then 0x5C else c

/-! ## The operating system -/

/-- The constant `STATUS_NO_MORE_FILES = 0x80000006` as the (signed) `NTSTATUS`. -/
def STATUS_NO_MORE_FILES : Int := 0x80000006 - 2 ^ 32

/-- The constant `STATUS_NO_SUCH_FILE = 0xC000000F` as the (signed) `NTSTATUS`. -/
def STATUS_NO_SUCH_FILE : Int := 0xC000000F - 2 ^ 32

/-- The macro `NT_SUCCESS(Status)`. -/
def NT_SUCCESS (status : Int) : Bool := decide (status ≥ 0)

/-- The constant `FILE_ATTRIBUTE_DIRECTORY`. -/
def FILE_ATTRIBUTE_DIRECTORY : Nat := 0x10

/-- What one call of `NtQueryDirectoryFileEx` reports: the returned status, the
value it leaves in `statusBlock.Information` (the number of bytes stored) and,
when that is not zero, the chain of entries it stored at the start of the buffer. -/
structure QueryResult where
  status : Int
  Information : Nat
  entries : List FILE_DIRECTORY_INFORMATION
deriving DecidableEq, Repr

/-- The operating system as the traversal sees it.  `CreateFileW dir` is `none`
when the open fails (a null or invalid handle); otherwise it is the handle: the
results of the successive `NtQueryDirectoryFileEx` calls on it, after which every
further call reports `STATUS_NO_MORE_FILES` and stores nothing.
`WideCharToMultiByte` is the UTF-8 conversion of the same name. -/
structure OS where
  CreateFileW : List Nat → Option (List QueryResult)
  WideCharToMultiByte : List Nat → String

/-- The function `utf8_encode`. -/
def utf8_encode (os : OS) (wstr : List Nat) : String :=
  if wstr.isEmpty then "" else os.WideCharToMultiByte wstr

/-- One call of `NtQueryDirectoryFileEx` on a handle: its result and the handle
afterwards. -/
def NtQueryDirectoryFileEx : List QueryResult → QueryResult × List QueryResult
  | [] => ({ status := STATUS_NO_MORE_FILES, Information := 0, entries := [] }, [])
  | r :: handle => (r, handle)

/-- The scratch `buffer` after a call: untouched when no byte was stored. -/
def storeResult (buffer : List FILE_DIRECTORY_INFORMATION) (r : QueryResult) :
    List FILE_DIRECTORY_INFORMATION :=
  if r.Information = 0 then buffer else r.entries

/-! ## The traversal -/

/-- The variables the listing loop of one directory updates. -/
structure ListVars where
  bWroteFullPath : Bool
  dirs : List (List Nat)
  stream : PagedBinaryStream
deriving DecidableEq, Repr

/-- The test `(file->FileAttributes & FILE_ATTRIBUTE_DIRECTORY) && ((CchFileName == 1 &&
file->FileName[0] == L'.') || (CchFileName == 2 && file->FileName[0] == L'.' &&
file->FileName[1] == L'.'))`. -/
def isDotEntry (file : FILE_DIRECTORY_INFORMATION) : Bool :=
  let CchFileName := file.FileNameLength / 2
  decide (file.FileAttributes &&& FILE_ATTRIBUTE_DIRECTORY ≠ 0) &&
    ((decide (CchFileName = 1) && decide (file.FileName.getD 0 0 = 0x2E))
      || (decide (CchFileName = 2) && decide (file.FileName.getD 0 0 = 0x2E)
          && decide (file.FileName.getD 1 0 = 0x2E)))

/-- The string `nextDir`: `dir`, a backslash, the `CchFileName` code units of the name. -/
def nextDir (dir : List Nat) (file : FILE_DIRECTORY_INFORMATION) : List Nat :=
  dir ++ [0x5C] ++ file.FileName.take (file.FileNameLength / 2)

/-- The part of the listing loop that handles the entry `file` points to: the
marker on the first entry, then skip, queue and encode. -/
def handleEntry (recurse : Bool) (dir : List Nat) (file : FILE_DIRECTORY_INFORMATION)
    (v : ListVars) : ListVars :=
  let v : ListVars :=
    if !v.bWroteFullPath then
      { v with bWroteFullPath := true, stream := writeFullPathToStream dir v.stream }
    else v
  if isDotEntry file then
    -- ignore
    v
  else
    let v : ListVars :=
      if decide (file.FileAttributes &&& FILE_ATTRIBUTE_DIRECTORY ≠ 0) && recurse then
        if recurse then { v with dirs := nextDir dir file :: v.dirs } else v
      else v
    { v with stream := writeFileToStream file v.stream }

/-- The iterations of `while (true)` that stay in the current buffer; the first
argument is the chain from `file` on.  The walk ends at the entry whose
`NextEntryOffset` is 0 (a chain that ends without such an entry is not well-formed). -/
def walkBuffer (recurse : Bool) (dir : List Nat) :
    List FILE_DIRECTORY_INFORMATION → ListVars → ListVars
  | [], v => v
  | file :: next, v =>
    let v := handleEntry recurse dir file v
    if file.NextEntryOffset ≠ 0 then walkBuffer recurse dir next v else v

/-- The loop `while (true)` of one directory, entered with `file = buffer`: walk
the buffer, call `NtQueryDirectoryFileEx` again, stop on `STATUS_NO_MORE_FILES` or
a failure status, otherwise restart at the start of the buffer.  The result is the
final buffer and variables. -/
def listLoop (recurse : Bool) (dir : List Nat) :
    List QueryResult → List FILE_DIRECTORY_INFORMATION → ListVars →
      List FILE_DIRECTORY_INFORMATION × ListVars
  | [], buffer, v =>
    -- the call reports STATUS_NO_MORE_FILES
    (buffer, walkBuffer recurse dir buffer v)
  | r :: handle, buffer, v =>
    let v := walkBuffer recurse dir buffer v
    let buffer := storeResult buffer r
    if r.status = STATUS_NO_MORE_FILES then
      -- we're done!
      (buffer, v)
    else if !NT_SUCCESS r.status then (buffer, v)
    else listLoop recurse dir handle buffer v

/-- The variables of `direnum_NtQueryDirectory_toStream`.  `dirs` is the vector used
as a stack, its `back()` first; `buffer` is the scratch buffer, as the entries laid
out in it from its start. -/
structure State where
  dirs : List (List Nat)
  dirCount : Nat
  buffer : List FILE_DIRECTORY_INFORMATION
  stream : PagedBinaryStream
deriving DecidableEq, Repr

/-- The loop `while (!dirs.empty())`; the first argument bounds the number of
iterations, and `none` means the bound was reached.  Otherwise the result is the
returned error message (empty when there is no error) and the final variables. -/
def mainLoop (os : OS) (recurse : Bool) : Nat → State → Option (String × State)
  | 0, _ => none
  | fuel + 1, st =>
    match st.dirs with
    | [] => some ("", st)
    | dir :: dirs =>
      let st := { st with dirs := dirs }
      match os.CreateFileW dir with
      | none =>
        -- ensure this opens OK
        if st.dirCount = 0 then
          -- only fail on the first / root directory, otherwise just skip and ignore
          some ("failed to open directory: " ++ utf8_encode os dir, st)
        else mainLoop os recurse fuel st
      | some dirHandle =>
        let st := { st with dirCount := (st.dirCount + 1) % 2 ^ 32 }
        let (r, dirHandle) := NtQueryDirectoryFileEx dirHandle
        let st := { st with buffer := storeResult st.buffer r }
        let bytesWritten := r.Information
        if bytesWritten = 0 ∨ r.status = STATUS_NO_SUCH_FILE then mainLoop os recurse fuel st
        else
          let (buffer, v) :=
            listLoop recurse dir dirHandle st.buffer
              { bWroteFullPath := false, dirs := st.dirs, stream := st.stream }
          mainLoop os recurse fuel { st with buffer := buffer, dirs := v.dirs, stream := v.stream }

/-- The function `direnum_NtQueryDirectory_toStream` run for at most `fuel - 1`
iterations of its outer loop: the returned error message and the stream. -/
def direnum_NtQueryDirectory_toStream (os : OS) (fuel : Nat) (rootDir : List Nat)
    (stream : PagedBinaryStream) (recurse : Bool) : Option (String × PagedBinaryStream) :=
  (mainLoop os recurse fuel
    { dirs := [normalizeDir rootDir], dirCount := 0, buffer := [], stream := stream }).map
    fun (message, st) => (message, st.stream)

/-! ## Records: what is fed to the encoders and what a consumer reads back -/

/-- One call of an encoder: a directory marker (`writeFullPathToStream` with the
full path) or a file entry (`writeFileToStream` with the raw entry). -/
inductive Item where
  | dir (fullPath : List Nat)
  | file (file : FILE_DIRECTORY_INFORMATION)
deriving DecidableEq, Repr

/-- Run the encoder the item stands for. -/
def Item.writeToStream (stream : PagedBinaryStream) : Item → PagedBinaryStream
  | .dir fullPath => writeFullPathToStream fullPath stream
  | .file entry => writeFileToStream entry stream

/-- Feed a sequence of items to the encoders, in order. -/
def feed (stream : PagedBinaryStream) (items : List Item) : PagedBinaryStream :=
  items.foldl Item.writeToStream stream

/-- A decoded record: its kind, the name or path bytes, the attributes field and,
for a file record, the three 8-byte fields as they stand in the buffer. -/
inductive Record where
  | marker (path : List Nat) (attributes : Nat)
  | file (name : List Nat) (attributes : Nat) (size creationTime lastWriteTime : List Nat)
deriving DecidableEq, Repr

/-- The record an item stands for: for a marker the bytes of the path without the
long-path prefix, for a file entry the name bytes, the attributes and the three
doubles the encoder computes. -/
def Item.record : Item → Record
  | .dir fullPath => .marker (wcharBytes (strippedPath fullPath)) FILE_ATTRIBUTE_SPECIAL_FULLPATH_MASK
  | .file entry =>
    .file ((wcharBytes entry.FileName).take entry.FileNameLength) entry.FileAttributes
      (doubleBytes (encodedLength entry))
      (doubleBytes (filetimeToUnixTimestampInMs entry.CreationTime))
      (doubleBytes (filetimeToUnixTimestampInMs entry.LastWriteTime))

/-- The bytes of the record of an item, as laid out on the wire. -/
def Item.bytes : Item → List Nat
  | .dir fullPath =>
    leBytes 4 (2 * (strippedPath fullPath).length) ++ wcharBytes (strippedPath fullPath)
      ++ leBytes 4 FILE_ATTRIBUTE_SPECIAL_FULLPATH_MASK
  | .file entry =>
    leBytes 4 entry.FileNameLength ++ (wcharBytes entry.FileName).take entry.FileNameLength
      ++ leBytes 4 entry.FileAttributes
      ++ doubleBytes (encodedLength entry)
      ++ doubleBytes (filetimeToUnixTimestampInMs entry.CreationTime)
      ++ doubleBytes (filetimeToUnixTimestampInMs entry.LastWriteTime)

/-- An item whose length and attributes fields hold what was fed: the byte length
fits 32 bits, a file entry has its `FileNameLength` bytes of name and 32-bit
attributes other than the marker sentinel. -/
def Item.Encodable : Item → Prop
  | .dir fullPath => 2 * (strippedPath fullPath).length < 2 ^ 32
  | .file entry =>
    entry.FileNameLength < 2 ^ 32 ∧ entry.FileNameLength ≤ 2 * entry.FileName.length ∧
    entry.FileAttributes < 2 ^ 32 ∧ entry.FileAttributes ≠ 0xFFFFFFFF

instance (it : Item) : Decidable it.Encodable := by
  cases it <;> (unfold Item.Encodable; infer_instance)

/-- Modelled from the spec: the consumer's read of a little-endian `u32`
(the decoder is not part of `src/`). -/
def readU32 : List Nat → Option (Nat × List Nat)
  | b0 :: b1 :: b2 :: b3 :: rest => some (b0 + 256 * b1 + 65536 * b2 + 16777216 * b3, rest)
  | _ => none

/-- Modelled from the spec: the consumer's decoder for one record, which is not
part of `src/`: "u32 length, length bytes, u32 attributes, and 24 more bytes iff
attributes != 0xFFFFFFFF".  The result is the record and the unread bytes. -/
def decodeRecord (bytes : List Nat) : Option (Record × List Nat) :=
  match readU32 bytes with
  | none => none
  | some (length, r1) =>
    if r1.length < length then none
    else
      match readU32 (r1.drop length) with
      | none => none
      | some (attributes, r2) =>
        if attributes = 0xFFFFFFFF then some (.marker (r1.take length) attributes, r2)
        else if r2.length < 24 then none
        else
          some (.file (r1.take length) attributes (r2.take 8) ((r2.drop 8).take 8)
            ((r2.drop 16).take 8), r2.drop 24)

/-- Modelled from the spec: the consumer reads records sequentially until the
buffer is exhausted (not part of `src/`).  A record takes at least 8 bytes, so
`bytes.length` rounds are enough; `none` reports a truncated buffer. -/
def decodeLoop : Nat → List Nat → Option (List Record)
  | _, [] => some []
  | 0, _ :: _ => none
  | fuel + 1, b :: bs =>
    match decodeRecord (b :: bs) with
    | none => none
    | some (r, rest) =>
      match decodeLoop fuel rest with
      | none => none
      | some rs => some (r :: rs)

/-- Modelled from the spec: the consumer's decoder for a whole buffer (not part
of `src/`). -/
def decode (bytes : List Nat) : Option (List Record) :=
  decodeLoop bytes.length bytes

/-! ## Summaries of the traversal, used to state and prove its properties -/

/-- The entries a walk of the buffer visits: the chain up to and including the
first entry whose `NextEntryOffset` is 0. -/
def walked : List FILE_DIRECTORY_INFORMATION → List FILE_DIRECTORY_INFORMATION
  | [] => []
  | file :: next => file :: (if file.NextEntryOffset ≠ 0 then walked next else [])

/-- The entries the listing loop of one directory visits, in order, for the
remaining results of the handle and the current buffer. -/
def listed : List QueryResult → List FILE_DIRECTORY_INFORMATION → List FILE_DIRECTORY_INFORMATION
  | [], buffer => walked buffer
  | r :: handle, buffer =>
    walked buffer ++
      (if r.status = STATUS_NO_MORE_FILES then []
       else if !NT_SUCCESS r.status then []
       else listed handle (storeResult buffer r))

/-- What the traversal sees of one directory: `none` when the open fails, otherwise
the entries it visits (none when the first query stores nothing or reports
`STATUS_NO_SUCH_FILE`). -/
def listing (os : OS) (dir : List Nat) : Option (List FILE_DIRECTORY_INFORMATION) :=
  match os.CreateFileW dir with
  | none => none
  | some dirHandle =>
    let (r, dirHandle) := NtQueryDirectoryFileEx dirHandle
    if r.Information = 0 ∨ r.status = STATUS_NO_SUCH_FILE then some []
    else some (listed dirHandle r.entries)

/-- The visited entries that are not skipped as `.` or `..`. -/
def kept (visited : List FILE_DIRECTORY_INFORMATION) : List FILE_DIRECTORY_INFORMATION :=
  visited.filter fun file => !isDotEntry file

/-- The encoder calls made for a directory whose visited entries are `visited`:
the marker, if any entry was visited, then the entries that are not skipped. -/
def dirItems (dir : List Nat) (visited : List FILE_DIRECTORY_INFORMATION) : List Item :=
  if visited = [] then [] else Item.dir dir :: (kept visited).map Item.file

/-- The directories pushed while listing `dir`, in the order of the pushes. -/
def pushed (recurse : Bool) (dir : List Nat) (visited : List FILE_DIRECTORY_INFORMATION) :
    List (List Nat) :=
  ((kept visited).filter fun file =>
    decide (file.FileAttributes &&& FILE_ATTRIBUTE_DIRECTORY ≠ 0) && recurse).map (nextDir dir)

/-- The outer loop in terms of `listing`: the stack, `dirCount` and the stream. -/
def absLoop (os : OS) (recurse : Bool) :
    Nat → List (List Nat) → Nat → PagedBinaryStream → Option (String × PagedBinaryStream)
  | 0, _, _, _ => none
  | _ + 1, [], _, stream => some ("", stream)
  | fuel + 1, dir :: dirs, dirCount, stream =>
    match listing os dir with
    | none =>
      if dirCount = 0 then some ("failed to open directory: " ++ utf8_encode os dir, stream)
      else absLoop os recurse fuel dirs dirCount stream
    | some visited =>
      absLoop os recurse fuel ((pushed recurse dir visited).reverse ++ dirs)
        ((dirCount + 1) % 2 ^ 32) (feed stream (dirItems dir visited))

/-- The encoder calls of the outer loop started with the stack `dirs`, when no open
failure is reported as an error; `none` when the bound on the iterations is reached. -/
def traceLoop (os : OS) (recurse : Bool) : Nat → List (List Nat) → Option (List Item)
  | 0, _ => none
  | _ + 1, [] => some []
  | fuel + 1, dir :: dirs =>
    match listing os dir with
    | none => traceLoop os recurse fuel dirs
    | some visited =>
      (traceLoop os recurse fuel ((pushed recurse dir visited).reverse ++ dirs)).map
        fun items => dirItems dir visited ++ items

/-- The whole call in terms of `listing` and `traceLoop`. -/
def direnumSummary (os : OS) (fuel : Nat) (rootDir : List Nat) (stream : PagedBinaryStream)
    (recurse : Bool) : Option (String × PagedBinaryStream) :=
  match fuel with
  | 0 => none
  | fuel + 1 =>
    match listing os (normalizeDir rootDir) with
    | none =>
      some ("failed to open directory: " ++ utf8_encode os (normalizeDir rootDir), stream)
    | some visited =>
      (traceLoop os recurse fuel (pushed recurse (normalizeDir rootDir) visited).reverse).map
        fun items => ("", feed stream (dirItems (normalizeDir rootDir) visited ++ items))

/-- The encoder calls of a sequence of groups, a group being a directory path with
the entries encoded under its marker. -/
def groupItems (groups : List (List Nat × List FILE_DIRECTORY_INFORMATION)) : List Item :=
  groups.flatMap fun g => Item.dir g.1 :: g.2.map Item.file

/-- The operating system `os` with the outcome of `CreateFileW` on `dir` replaced. -/
def OS.withDir (os : OS) (dir : List Nat) (handle : Option (List QueryResult)) : OS :=
  { os with CreateFileW := fun d => if d = dir then handle else os.CreateFileW d }

/-- A handle that yields no entries: its first query stores nothing, or no query
on it ever stores an entry other than `.` and `..`. -/
def yieldsNoEntries (handle : List QueryResult) : Prop :=
  (NtQueryDirectoryFileEx handle).1.Information = 0
    ∨ ∀ r ∈ handle, ∀ file ∈ r.entries, isDotEntry file = true

instance (handle : List QueryResult) : Decidable (yieldsNoEntries handle) := by
  unfold yieldsNoEntries
  infer_instance

/-- The item is not the marker of `dir`. -/
def notMarkerOf (dir : List Nat) (it : Item) : Bool :=
  decide (it ≠ Item.dir dir)

/-! ## Finite directory trees -/

/-- The test `file->FileAttributes & FILE_ATTRIBUTE_DIRECTORY`. -/
def isDirectory (file : FILE_DIRECTORY_INFORMATION) : Bool :=
  decide (file.FileAttributes &&& FILE_ATTRIBUTE_DIRECTORY ≠ 0)

/-- All entries the queries on a handle store, in order. -/
def allEntries (handle : List QueryResult) : List FILE_DIRECTORY_INFORMATION :=
  handle.flatMap fun r => r.entries

/-- The entry is one of the directories named `.` and `..`. -/
def isDotDir (file : FILE_DIRECTORY_INFORMATION) : Bool :=
  isDirectory file && (file.FileName == [0x2E] || file.FileName == [0x2E, 0x2E])

/-- The entries of a directory other than the directories `.` and `..`, in the
order of enumeration. -/
def realEntries (handle : List QueryResult) : List FILE_DIRECTORY_INFORMATION :=
  (allEntries handle).filter fun file => !isDotDir file

/-- The path of an entry of `dir`: the parent path, a backslash, the name. -/
def childPath (dir : List Nat) (file : FILE_DIRECTORY_INFORMATION) : List Nat :=
  dir ++ [0x5C] ++ file.FileName

/-- The subdirectories of `dir` the operating system reports: the paths of its
entries with the directory attribute, other than `.` and `..`. -/
def subdirs (dir : List Nat) (handle : List QueryResult) : List (List Nat) :=
  ((realEntries handle).filter isDirectory).map (childPath dir)

/-- The tree below `dir` is finite, of depth at most `d`: at depth 0 the directory
does not open, at depth `d + 1` each of its subdirectories has depth at most `d`. -/
def OS.depthAtMost (os : OS) : Nat → List Nat → Bool
  | 0, dir => (os.CreateFileW dir).isNone
  | d + 1, dir =>
    match os.CreateFileW dir with
    | none => true
    | some handle => (subdirs dir handle).all (os.depthAtMost d)

/-- The number of iterations of the outer loop spent on `dir` and everything pushed
below it, for a tree of depth at most `d`. -/
def subtreeFuel (os : OS) (recurse : Bool) : Nat → List Nat → Nat
  | 0, _ => 1
  | d + 1, dir =>
    match listing os dir with
    | none => 1
    | some visited => 1 + ((pushed recurse dir visited).map (subtreeFuel os recurse d)).sum

/-- The encoder calls made for `dir` and everything pushed below it, for a tree of
depth at most `d`: the directory itself, then the pushed directories, last pushed
first. -/
def subtreeItems (os : OS) (recurse : Bool) : Nat → List Nat → List Item
  | 0, _ => []
  | d + 1, dir =>
    match listing os dir with
    | none => []
    | some visited =>
      dirItems dir visited ++ (pushed recurse dir visited).reverse.flatMap (subtreeItems os recurse d)

/-- Enough fuel for a whole call on a tree of depth at most `d`: the iterations of
the outer loop and the final test of the loop condition. -/
def traversalFuel (os : OS) (recurse : Bool) (d : Nat) (rootDir : List Nat) : Nat :=
  subtreeFuel os recurse d (normalizeDir rootDir) + 1

/-- Every directory that opens has a path shorter than `2^31` code units, and every
entry the operating system stores is well formed. -/
def OS.WellFormed (os : OS) : Prop :=
  ∀ dir handle, os.CreateFileW dir = some handle →
    2 * dir.length < 2 ^ 32 ∧ ∀ r ∈ handle, ∀ file ∈ r.entries, file.WellFormed

/-- The chain of entries a query stores is not empty and properly linked: the
last entry has `NextEntryOffset` 0 and no other entry has. -/
def chainOK : List FILE_DIRECTORY_INFORMATION → Bool
  | [] => false
  | [file] => decide (file.NextEntryOffset = 0)
  | file :: next :: rest => decide (file.NextEntryOffset ≠ 0) && chainOK (next :: rest)

/-- A query that succeeds and stores at least one entry. -/
def QueryResult.healthy (r : QueryResult) : Bool :=
  NT_SUCCESS r.status && decide (r.Information ≠ 0) && chainOK r.entries

/-- The tree below `dir` has depth at most `d`, and in it every directory opens, its
first query and every later query up to the end of the listing succeed, and every
query that succeeds stores at least one entry, in a properly linked chain. -/
def OS.healthy (os : OS) : Nat → List Nat → Bool
  | 0, _ => false
  | d + 1, dir =>
    match os.CreateFileW dir with
    | none => false
    | some handle =>
      !handle.isEmpty && handle.all QueryResult.healthy && (subdirs dir handle).all (os.healthy d)

/-- The listing the claim describes for the tree below `dir`, of depth at most `d`:
one group for every directory reachable from `dir`, holding the directory's entries
other than `.` and `..` in enumeration order; a directory is followed by the
subtrees of its subdirectories, the last enumerated first. -/
def expectedGroups (os : OS) :
    Nat → List Nat → List (List Nat × List FILE_DIRECTORY_INFORMATION)
  | 0, _ => []
  | d + 1, dir =>
    match os.CreateFileW dir with
    | none => []
    | some handle =>
      (dir, realEntries handle) :: (subdirs dir handle).reverse.flatMap (expectedGroups os d)

/-- Modelled from the spec: the consumer's grouping of decoded records, every file
record going under the most recent marker (not part of `src/`).  The result is the
file records that precede every marker, and the groups. -/
def splitGroups : List Record → List Record × List (List Nat × List Record)
  | [] => ([], [])
  | .marker path _ :: rest => ([], (path, (splitGroups rest).1) :: (splitGroups rest).2)
  | .file name attributes size creationTime lastWriteTime :: rest =>
    (.file name attributes size creationTime lastWriteTime :: (splitGroups rest).1,
      (splitGroups rest).2)

/-! ## Separators -/

/-- The code unit is a path separator, `\` or `/`. -/
def isSeparator (c : Nat) : Bool :=
  c == 0x5C || c == 0x2F

/-! ## The order of the markers -/

/-- The paths of the markers among a sequence of encoder calls, in order. -/
def markerPaths (items : List Item) : List (List Nat) :=
  items.filterMap fun it =>
    match it with
    | .dir fullPath => some fullPath
    | .file _ => none

/-- The path bytes of the markers among a sequence of decoded records, in order. -/
def recordMarkers (records : List Record) : List (List Nat) :=
  records.filterMap fun r =>
    match r with
    | .marker path _ => some path
    | .file _ _ _ _ _ => none

/-- The pre-order depth-first traversal of the tree below `dir`, of depth at most
`d`, in which the subdirectories of a directory are visited in the reverse of the
order of their enumeration: the directory, then the whole subtree of its last
subdirectory, then that of the one before, and so on. -/
def preorderReversed (os : OS) : Nat → List Nat → List (List Nat)
  | 0, _ => []
  | d + 1, dir =>
    match os.CreateFileW dir with
    | none => []
    | some handle => dir :: (subdirs dir handle).reverse.flatMap (preorderReversed os d)

/-- The tree the traversal finds below `dir` has depth at most `d`, and in it every
directory opens and its listing visits at least one entry.  The subdirectories of a
directory are those its listing finds: the visited entries with the directory
attribute that are not skipped. -/
def OS.yields (os : OS) : Nat → List Nat → Bool
  | 0, _ => false
  | d + 1, dir =>
    match listing os dir with
    | none => false
    | some visited => !visited.isEmpty && (pushed true dir visited).all (os.yields d)

/-! ## UTF-8, for the error message -/

/-- The UTF-8 encoding of one Unicode scalar value, as a list of bytes. -/
def utf8OfScalar (c : Nat) : List Nat :=
  if c < 0x80 then [c]
  else if c < 0x800 then [0xC0 + c / 0x40, 0x80 + c % 0x40]
  else if c < 0x10000 then [0xE0 + c / 0x1000, 0x80 + c / 0x40 % 0x40, 0x80 + c % 0x40]
  else [0xF0 + c / 0x40000 % 8, 0x80 + c / 0x1000 % 0x40, 0x80 + c / 0x40 % 0x40,
    0x80 + c % 0x40]

/-- The Unicode scalar values a sequence of UTF-16 code units stands for, read
after the high surrogate `pending`, if any: a high surrogate followed by a low
surrogate is one supplementary character, a surrogate on its own is replaced by
U+FFFD. -/
def scalarsAfter : List Nat → Option Nat → List Nat
  | [], none => []
  | [], some _ => [0xFFFD]
  | u :: rest, pending =>
    let unpaired := match pending with
      | none => []
      | some _ => [0xFFFD]
    match pending, decide (0xDC00 ≤ u ∧ u < 0xE000) with
    | some hi, true => (0x10000 + (hi - 0xD800) * 0x400 + (u - 0xDC00)) :: scalarsAfter rest none
    | none, true => 0xFFFD :: scalarsAfter rest none
    | _, false =>
      if 0xD800 ≤ u ∧ u < 0xDC00 then unpaired ++ scalarsAfter rest (some u)
      else unpaired ++ u :: scalarsAfter rest none

/-- The UTF-8 of a UTF-16 string, as a list of bytes: what the claim about the error
message calls the UTF-8 of the path. -/
def utf8OfUtf16 (wstr : List Nat) : List Nat :=
  (scalarsAfter wstr none).flatMap utf8OfScalar

/-- The bytes a `std::string` holds when its text is `s`: the UTF-8 of its
characters. -/
def stringBytes (s : String) : List Nat :=
  s.data.flatMap fun c => utf8OfScalar c.toNat

/-! ## Sample inputs -/

/-- The code units of an ASCII string. -/
def wstr (s : String) : List Nat :=
  s.toList.map Char.toNat

/-- A raw entry with the given name, attributes and size; the timestamps are
2024-01-01T00:00:00Z and one second later. -/
def sampleEntry (name : String) (attributes : Nat) (endOfFile : Int) (next : Nat) :
    FILE_DIRECTORY_INFORMATION :=
  { NextEntryOffset := next, FileIndex := 0,
    CreationTime := 133485408000000000, LastAccessTime := 133485408000000000,
    LastWriteTime := 133485408010000000, ChangeTime := 133485408010000000,
    EndOfFile := endOfFile, AllocationSize := 4096,
    FileAttributes := attributes, FileNameLength := 2 * name.length,
    FileName := wstr name }

/-- Set the `NextEntryOffset` members of a list of entries so that they form one
chain: the aligned size of the entry, and 0 in the last one. -/
def linkChain : List FILE_DIRECTORY_INFORMATION → List FILE_DIRECTORY_INFORMATION
  | [] => []
  | [file] => [{ file with NextEntryOffset := 0 }]
  | file :: next :: rest =>
    { file with NextEntryOffset := (64 + file.FileNameLength + 7) / 8 * 8 }
      :: linkChain (next :: rest)

/-- A successful query that stores the given entries as one chain. -/
def sampleBatch (entries : List FILE_DIRECTORY_INFORMATION) : QueryResult :=
  { status := 0, Information := (entries.map fun file => (64 + file.FileNameLength + 7) / 8 * 8).sum,
    entries := linkChain entries }

/-- An operating system given by a finite table of the directories that open. -/
def OS.ofTable (table : List (List Nat × List QueryResult)) : OS :=
  { CreateFileW := fun dir => table.lookup dir,
    WideCharToMultiByte := fun wstr => String.mk (wstr.map Char.ofNat) }

/-- A small tree: `C:\t` holds `a.txt`, the directory `sub` (listed in two batches)
and the directory `bad`, which does not open. -/
def sampleTable : List (List Nat × List QueryResult) :=
  [ (wstr "\\\\?\\C:\\t",
      [sampleBatch [sampleEntry "." 0x10 0 0, sampleEntry ".." 0x10 0 0,
        sampleEntry "a.txt" 0x20 5 0, sampleEntry "sub" 0x10 0 0, sampleEntry "bad" 0x10 0 0]]),
    (wstr "\\\\?\\C:\\t\\sub",
      [sampleBatch [sampleEntry "." 0x10 0 0, sampleEntry ".." 0x10 0 0],
       sampleBatch [sampleEntry "b.txt" 0x20 7 0]]) ]

/-- The operating system of the small tree. -/
def sampleOS : OS :=
  OS.ofTable sampleTable

/-- A tree in which every directory opens: `C:\t` holds `a.txt` and the directories
`sub` (listed in two batches) and `new`, which holds nothing but `.` and `..`. -/
def healthyTable : List (List Nat × List QueryResult) :=
  [ (wstr "\\\\?\\C:\\t",
      [sampleBatch [sampleEntry "." 0x10 0 0, sampleEntry ".." 0x10 0 0,
        sampleEntry "a.txt" 0x20 5 0, sampleEntry "sub" 0x10 0 0, sampleEntry "new" 0x10 0 0]]),
    (wstr "\\\\?\\C:\\t\\sub",
      [sampleBatch [sampleEntry "." 0x10 0 0, sampleEntry ".." 0x10 0 0],
       sampleBatch [sampleEntry "b.txt" 0x20 7 0]]),
    (wstr "\\\\?\\C:\\t\\new",
      [sampleBatch [sampleEntry "." 0x10 0 0, sampleEntry ".." 0x10 0 0]]) ]

/-- The operating system of the tree in which every directory opens. -/
def healthyOS : OS :=
  OS.ofTable healthyTable

/-- A root directory that holds nothing but `.` and `..`. -/
def dotOnlyTable : List (List Nat × List QueryResult) :=
  [ (wstr "\\\\?\\C:\\t",
      [sampleBatch [sampleEntry "." 0x10 0 0, sampleEntry ".." 0x10 0 0]]) ]

/-- The operating system of the root that holds nothing but `.` and `..`. -/
def dotOnlyOS : OS :=
  OS.ofTable dotOnlyTable

/-- A root whose listing is `a.txt`, then a query that succeeds and stores nothing. -/
def staleTable : List (List Nat × List QueryResult) :=
  [ (wstr "\\\\?\\C:\\t",
      [sampleBatch [sampleEntry "a.txt" 0x20 5 0],
       { status := 0, Information := 0, entries := [] }]) ]

/-- The operating system of the root with a query that stores nothing. -/
def staleOS : OS :=
  OS.ofTable staleTable

/-- A root whose listing is `a.txt` and the directory `sub`, then a query that fails
with `STATUS_UNSUCCESSFUL` (0xC0000001) before `b.txt` is reported; `sub` is empty. -/
def failingTable : List (List Nat × List QueryResult) :=
  [ (wstr "\\\\?\\C:\\t",
      [sampleBatch [sampleEntry "a.txt" 0x20 5 0, sampleEntry "sub" 0x10 0 0],
       { status := 0xC0000001 - 2 ^ 32, Information := 0, entries := [] },
       sampleBatch [sampleEntry "b.txt" 0x20 7 0]]),
    (wstr "\\\\?\\C:\\t\\sub",
      [sampleBatch [sampleEntry "." 0x10 0 0, sampleEntry ".." 0x10 0 0]]) ]

/-- The operating system of the root with a failing query. -/
def failingOS : OS :=
  OS.ofTable failingTable

/-- A tree in which every directory opens and yields an entry, and the second query
on the root fails: `C:\t` holds `a.txt` and the directory `s1` in its first batch, and
the directory `s2` in a batch the listing never reaches. -/
def hideTable : List (List Nat × List QueryResult) :=
  [ (wstr "\\\\?\\C:\\t",
      [sampleBatch [sampleEntry "a.txt" 0x20 5 0, sampleEntry "s1" 0x10 0 0],
       { status := 0xC0000001 - 2 ^ 32, Information := 0, entries := [] },
       sampleBatch [sampleEntry "s2" 0x10 0 0]]),
    (wstr "\\\\?\\C:\\t\\s1",
      [sampleBatch [sampleEntry "." 0x10 0 0, sampleEntry ".." 0x10 0 0]]),
    (wstr "\\\\?\\C:\\t\\s2",
      [sampleBatch [sampleEntry "." 0x10 0 0, sampleEntry ".." 0x10 0 0]]) ]

/-- The operating system of the tree with a hidden subdirectory. -/
def hideOS : OS :=
  OS.ofTable hideTable

/-! ## Proofs: PagedBinaryStream -/

namespace PagedBinaryStream

theorem pageSize_pos : 0 < pageSize := by decide

theorem inv_new : Inv new := by
  simp [Inv, new]

theorem copyAndReset_of_inv {s : PagedBinaryStream} (h : Inv s) :
    s.copyAndReset = s.fullBuffers.flatten ++ s.pData := by
  obtain ⟨_, h2⟩ := h
  have key : ∀ l : List (List Nat), (∀ b ∈ l, b.length = pageSize) →
      (l.flatMap fun pBuf => pBuf.take pageSize) = l.flatten := by
    intro l
    induction l with
    | nil => intro _; rfl
    | cons b t ih =>
      intro hb
      have hb1 : b.length = pageSize := hb b (List.mem_cons_self _ _)
      have ht := ih (fun x hx => hb x (List.mem_cons_of_mem _ hx))
      simp only [List.flatMap_cons, List.flatten_cons, ht]
      rw [List.take_of_length_le (le_of_eq hb1)]
  simp only [copyAndReset, pPos, key _ h2, List.take_length]

/-- One run of the copy loop keeps the invariant and appends the source. -/
theorem writeLoop_spec (fuel : Nat) (s : PagedBinaryStream) (pSrc : List Nat)
    (hfuel : pSrc.length < fuel) (h : Inv s) :
    Inv (writeLoop fuel s pSrc) ∧
      (writeLoop fuel s pSrc).fullBuffers.flatten ++ (writeLoop fuel s pSrc).pData
        = s.fullBuffers.flatten ++ s.pData ++ pSrc := by
  induction fuel generalizing s pSrc with
  | zero => omega
  | succ n ih =>
    obtain ⟨h1, h2⟩ := h
    have hps := pageSize_pos
    simp only [writeLoop, pPos]
    by_cases hfull : s.pData.length ≥ pageSize
    · have hlen : s.pData.length = pageSize := le_antisymm h1 hfull
      simp only [hfull, if_true, List.length_nil, Nat.sub_zero, List.nil_append]
      have hinv1 : ∀ pBuf ∈ s.fullBuffers ++ [s.pData], pBuf.length = pageSize := by
        intro b hb
        rcases List.mem_append.mp hb with hb | hb
        · exact h2 b hb
        · simp at hb; rw [hb]; exact hlen
      by_cases hbig : pSrc.length > pageSize
      · simp only [hbig, if_true]
        have hrest : (pSrc.drop pageSize).length > 0 := by
          simp only [List.length_drop]; omega
        simp only [hrest, if_true]
        have hinv2 : Inv { pData := pSrc.take pageSize, fullBuffers := s.fullBuffers ++ [s.pData] } := by
          refine ⟨?_, hinv1⟩
          simp only [List.length_take]; omega
        have := ih { pData := pSrc.take pageSize, fullBuffers := s.fullBuffers ++ [s.pData] }
          (pSrc.drop pageSize) (by simp only [List.length_drop]; omega) hinv2
        refine ⟨this.1, ?_⟩
        rw [this.2]
        simp only [List.flatten_append, List.flatten_cons, List.flatten_nil, List.append_nil,
          List.append_assoc, List.take_append_drop]
      · simp only [hbig, if_false, List.take_length, List.drop_length, List.length_nil,
          gt_iff_lt, lt_self_iff_false]
        refine ⟨⟨?_, hinv1⟩, ?_⟩
        · show pSrc.length ≤ pageSize
          omega
        · simp only [List.flatten_append, List.flatten_cons, List.flatten_nil, List.append_nil,
            List.append_assoc]
    · simp only [hfull, if_false]
      by_cases hbig : pSrc.length > pageSize - s.pData.length
      · simp only [hbig, if_true]
        have hrest : (pSrc.drop (pageSize - s.pData.length)).length > 0 := by
          simp only [List.length_drop]; omega
        simp only [hrest, if_true]
        have hinv2 : Inv { s with pData := s.pData ++ pSrc.take (pageSize - s.pData.length) } := by
          refine ⟨?_, h2⟩
          simp only [List.length_append, List.length_take]; omega
        have := ih { s with pData := s.pData ++ pSrc.take (pageSize - s.pData.length) }
          (pSrc.drop (pageSize - s.pData.length)) (by simp only [List.length_drop]; omega) hinv2
        refine ⟨this.1, ?_⟩
        rw [this.2]
        simp only [List.append_assoc, List.take_append_drop]
      · simp only [hbig, if_false, List.take_length, List.drop_length, List.length_nil,
          gt_iff_lt, lt_self_iff_false]
        refine ⟨⟨?_, h2⟩, ?_⟩
        · show (s.pData ++ pSrc).length ≤ pageSize
          simp only [List.length_append]; omega
        · simp only [List.append_assoc]

theorem inv_write {s : PagedBinaryStream} (h : Inv s) (pSrc : List Nat) : Inv (s.write pSrc) :=
  (writeLoop_spec _ s pSrc (Nat.lt_succ_self _) h).1

theorem copyAndReset_write {s : PagedBinaryStream} (h : Inv s) (pSrc : List Nat) :
    (s.write pSrc).copyAndReset = s.copyAndReset ++ pSrc := by
  rw [copyAndReset_of_inv (inv_write h pSrc), copyAndReset_of_inv h]
  exact (writeLoop_spec _ s pSrc (Nat.lt_succ_self _) h).2

theorem len_eq_length {s : PagedBinaryStream} (h : Inv s) :
    s.len = s.copyAndReset.length := by
  rw [copyAndReset_of_inv h]
  obtain ⟨_, h2⟩ := h
  have key : ∀ l : List (List Nat), (∀ b ∈ l, b.length = pageSize) →
      l.flatten.length = l.length * pageSize := by
    intro l
    induction l with
    | nil => intro _; simp
    | cons b t ih =>
      intro hb
      have hb1 : b.length = pageSize := hb b (List.mem_cons_self _ _)
      have ht := ih (fun x hx => hb x (List.mem_cons_of_mem _ hx))
      simp only [List.flatten_cons, List.length_append, List.length_cons, ht, hb1]
      ring
  simp only [len, pPos, List.length_append, key _ h2]

theorem inv_foldl_write (s : PagedBinaryStream) (h : Inv s) (bs : List (List Nat)) :
    Inv (bs.foldl write s) := by
  induction bs generalizing s with
  | nil => exact h
  | cons b t ih => exact ih _ (inv_write h b)

theorem copyAndReset_foldl_write (s : PagedBinaryStream) (h : Inv s) (bs : List (List Nat)) :
    (bs.foldl write s).copyAndReset = s.copyAndReset ++ bs.flatten := by
  induction bs generalizing s with
  | nil => simp
  | cons b t ih =>
    simp only [List.foldl_cons, List.flatten_cons]
    rw [ih _ (inv_write h b), copyAndReset_write h, List.append_assoc]

end PagedBinaryStream

/-! ## Proofs: wire encoders -/

theorem drop_append_of_length {α : Type} (a l : List α) (n : Nat) (h : a.length = n) :
    List.drop n (a ++ l) = l := by
  subst h; exact List.drop_left _ _

theorem take_append_of_length {α : Type} (a l : List α) (n : Nat) (h : a.length = n) :
    List.take n (a ++ l) = a := by
  subst h; exact List.take_left _ _

theorem leBytes_length (w v : Nat) : (leBytes w v).length = w := by
  induction w generalizing v with
  | zero => rfl
  | succ n ih => simp [leBytes, ih]

theorem leBytes_mod (w v : Nat) : leBytes w (v % 256 ^ w) = leBytes w v := by
  induction w generalizing v with
  | zero => rfl
  | succ n ih =>
    simp only [leBytes]
    have h1 : v % 256 ^ (n + 1) % 256 = v % 256 := by
      rw [pow_succ']
      exact Nat.mod_mul_right_mod v 256 (256 ^ n)
    have h2 : v % 256 ^ (n + 1) / 256 = v / 256 % 256 ^ n := by
      rw [pow_succ', Nat.mod_mul_right_div_self]
    rw [h1, h2, ih]

theorem leBytes_four_mod (v : Nat) : leBytes 4 (v % 2 ^ 32) = leBytes 4 v := by
  have := leBytes_mod 4 v
  norm_num at this ⊢
  exact this

theorem readU32_leBytes (v : Nat) (rest : List Nat) :
    readU32 (leBytes 4 v ++ rest) = some (v % 2 ^ 32, rest) := by
  simp only [leBytes, List.cons_append, List.nil_append, readU32, Option.some.injEq,
    Prod.mk.injEq, and_true]
  omega

theorem wcharBytes_length (ws : List Nat) : (wcharBytes ws).length = 2 * ws.length := by
  induction ws with
  | nil => rfl
  | cons c t ih =>
    simp only [wcharBytes, List.flatMap_cons, List.length_append, leBytes_length,
      List.length_cons] at ih ⊢
    omega

theorem doubleBytes_length (v : Int) : (doubleBytes v).length = 8 :=
  leBytes_length 8 _

theorem hasDirPrefix_iff (wsz : List Nat) :
    hasDirPrefix wsz = true ↔ [0x5C, 0x5C, 0x3F, 0x5C] <+: wsz := by
  simp only [hasDirPrefix, List.isPrefixOf_iff_prefix]
  rfl

theorem strippedPath_eq (fullPath : List Nat) :
    strippedPath fullPath
      = if [0x5C, 0x5C, 0x3F, 0x5C] <+: fullPath then fullPath.drop 4 else fullPath := by
  unfold strippedPath
  by_cases h : hasDirPrefix fullPath = true
  · rw [if_pos h, if_pos ((hasDirPrefix_iff _).mp h)]; rfl
  · rw [if_neg h, if_neg (fun h2 => h ((hasDirPrefix_iff _).mpr h2))]

theorem writeFullPathToStream_eq (fullPath : List Nat) (stream : PagedBinaryStream) :
    writeFullPathToStream fullPath stream
      = ((stream.write (leBytes 4 (2 * (strippedPath fullPath).length))).write
          (wcharBytes (strippedPath fullPath))).write (leBytes 4 0xFFFFFFFF) := by
  unfold writeFullPathToStream strippedPath
  by_cases h : hasDirPrefix fullPath = true
  · simp only [h, if_true, leBytes_four_mod, FILE_ATTRIBUTE_SPECIAL_FULLPATH_MASK]
    have hl : (fullPath.length - cchDirPrefix) * 2 = (wcharBytes (fullPath.drop cchDirPrefix)).length := by
      rw [wcharBytes_length, List.length_drop]; omega
    rw [hl, List.take_length, ← hl, Nat.mul_comm, List.length_drop]
  · simp only [h, Bool.false_eq_true, if_false, leBytes_four_mod,
      FILE_ATTRIBUTE_SPECIAL_FULLPATH_MASK]
    have hl : fullPath.length * 2 = (wcharBytes fullPath).length := by
      rw [wcharBytes_length]; omega
    rw [hl, List.take_length, ← hl, Nat.mul_comm]

theorem inv_writeToStream {stream : PagedBinaryStream} (h : stream.Inv) (it : Item) :
    (it.writeToStream stream).Inv := by
  cases it with
  | dir fullPath =>
    simp only [Item.writeToStream, writeFullPathToStream_eq]
    exact PagedBinaryStream.inv_write (PagedBinaryStream.inv_write
      (PagedBinaryStream.inv_write h _) _) _
  | file file =>
    simp only [Item.writeToStream, writeFileToStream]
    exact PagedBinaryStream.inv_write (PagedBinaryStream.inv_write (PagedBinaryStream.inv_write
      (PagedBinaryStream.inv_write (PagedBinaryStream.inv_write
        (PagedBinaryStream.inv_write h _) _) _) _) _) _

theorem copyAndReset_writeToStream {stream : PagedBinaryStream} (h : stream.Inv) (it : Item) :
    (it.writeToStream stream).copyAndReset = stream.copyAndReset ++ it.bytes := by
  cases it with
  | dir fullPath =>
    simp only [Item.writeToStream, writeFullPathToStream_eq, Item.bytes,
      FILE_ATTRIBUTE_SPECIAL_FULLPATH_MASK]
    rw [PagedBinaryStream.copyAndReset_write (PagedBinaryStream.inv_write
        (PagedBinaryStream.inv_write h _) _),
      PagedBinaryStream.copyAndReset_write (PagedBinaryStream.inv_write h _),
      PagedBinaryStream.copyAndReset_write h]
    simp only [List.append_assoc]
  | file file =>
    have h1 := PagedBinaryStream.inv_write h (leBytes 4 file.FileNameLength)
    have h2 := PagedBinaryStream.inv_write h1 ((wcharBytes file.FileName).take file.FileNameLength)
    have h3 := PagedBinaryStream.inv_write h2 (leBytes 4 (file.FileAttributes % 2 ^ 32))
    have h4 := PagedBinaryStream.inv_write h3 (doubleBytes (encodedLength file))
    have h5 := PagedBinaryStream.inv_write h4
      (doubleBytes (filetimeToUnixTimestampInMs file.CreationTime))
    simp only [Item.writeToStream, writeFileToStream, Item.bytes]
    rw [PagedBinaryStream.copyAndReset_write h5, PagedBinaryStream.copyAndReset_write h4,
      PagedBinaryStream.copyAndReset_write h3, PagedBinaryStream.copyAndReset_write h2,
      PagedBinaryStream.copyAndReset_write h1, PagedBinaryStream.copyAndReset_write h,
      leBytes_four_mod]
    simp only [List.append_assoc]

theorem inv_feed {stream : PagedBinaryStream} (h : stream.Inv) (items : List Item) :
    (feed stream items).Inv := by
  induction items generalizing stream with
  | nil => exact h
  | cons it t ih => exact ih (inv_writeToStream h it)

theorem copyAndReset_feed {stream : PagedBinaryStream} (h : stream.Inv) (items : List Item) :
    (feed stream items).copyAndReset = stream.copyAndReset ++ items.flatMap Item.bytes := by
  induction items generalizing stream with
  | nil => simp [feed]
  | cons it t ih =>
    have := ih (inv_writeToStream h it)
    simp only [feed, List.foldl_cons, List.flatMap_cons] at this ⊢
    rw [this, copyAndReset_writeToStream h, List.append_assoc]

theorem feed_append (stream : PagedBinaryStream) (xs ys : List Item) :
    feed stream (xs ++ ys) = feed (feed stream xs) ys := by
  simp [feed, List.foldl_append]

theorem copyAndReset_new : PagedBinaryStream.new.copyAndReset = [] := rfl

theorem Item.bytes_length_ge (it : Item) : 8 ≤ it.bytes.length := by
  cases it <;> simp only [Item.bytes, List.length_append, leBytes_length, doubleBytes_length] <;>
    omega

theorem decodeRecord_bytes (it : Item) (h : it.Encodable) (rest : List Nat) :
    decodeRecord (it.bytes ++ rest) = some (it.record, rest) := by
  cases it with
  | dir fullPath =>
    simp only [Item.Encodable] at h
    simp only [Item.bytes, Item.record, decodeRecord, List.append_assoc, readU32_leBytes,
      Nat.mod_eq_of_lt h]
    have hl : (wcharBytes (strippedPath fullPath)).length = 2 * (strippedPath fullPath).length :=
      wcharBytes_length _
    rw [if_neg (by simp only [List.length_append, hl]; omega)]
    rw [← hl, List.drop_left, List.take_left, readU32_leBytes]
    simp [FILE_ATTRIBUTE_SPECIAL_FULLPATH_MASK]
  | file file =>
    obtain ⟨h1, h2, h3, h4⟩ := h
    have hl : ((wcharBytes file.FileName).take file.FileNameLength).length = file.FileNameLength := by
      rw [List.length_take, wcharBytes_length]; omega
    simp only [Item.bytes, Item.record, decodeRecord, List.append_assoc, readU32_leBytes,
      Nat.mod_eq_of_lt h1, Nat.mod_eq_of_lt h3]
    rw [if_neg (by simp only [List.length_append, hl]; omega)]
    have e1 : ∀ l : List Nat,
        List.drop file.FileNameLength ((wcharBytes file.FileName).take file.FileNameLength ++ l) = l :=
      fun l => drop_append_of_length _ l _ hl
    have e2 : ∀ l : List Nat,
        List.take file.FileNameLength ((wcharBytes file.FileName).take file.FileNameLength ++ l)
          = (wcharBytes file.FileName).take file.FileNameLength :=
      fun l => take_append_of_length _ l _ hl
    rw [e1, e2, readU32_leBytes, Nat.mod_eq_of_lt h3]
    simp only [if_neg h4]
    have d1 := doubleBytes_length (encodedLength file)
    have d2 := doubleBytes_length (filetimeToUnixTimestampInMs file.CreationTime)
    have d3 := doubleBytes_length (filetimeToUnixTimestampInMs file.LastWriteTime)
    rw [if_neg (by simp only [List.length_append, d1, d2, d3]; omega)]
    have t1 : ∀ (a l : List Nat), a.length = 8 → List.take 8 (a ++ l) = a := by
      intro a l ha; rw [← ha]; exact List.take_left _ _
    have t2 : ∀ (a l : List Nat), a.length = 8 → List.drop 8 (a ++ l) = l := by
      intro a l ha; rw [← ha]; exact List.drop_left _ _
    have t3 : ∀ (a b l : List Nat), a.length = 8 → b.length = 8 →
        List.drop 16 (a ++ (b ++ l)) = l := by
      intro a b l ha hb
      have : (a ++ b).length = 16 := by simp [ha, hb]
      rw [← List.append_assoc, ← this]; exact List.drop_left _ _
    have t4 : ∀ (a b c l : List Nat), a.length = 8 → b.length = 8 → c.length = 8 →
        List.drop 24 (a ++ (b ++ (c ++ l))) = l := by
      intro a b c l ha hb hc
      have : (a ++ b ++ c).length = 24 := by simp [ha, hb, hc]
      rw [← List.append_assoc, ← List.append_assoc, ← this]; exact List.drop_left _ _
    rw [t1 _ _ d1, t2 _ _ d1, t1 _ _ d2, t3 _ _ _ d1 d2, t1 _ _ d3, t4 _ _ _ _ d1 d2 d3]

theorem decodeLoop_bytes (items : List Item) (h : ∀ it ∈ items, it.Encodable) (fuel : Nat)
    (hfuel : items.length ≤ fuel) :
    decodeLoop fuel (items.flatMap Item.bytes) = some (items.map Item.record) := by
  induction items generalizing fuel with
  | nil => cases fuel <;> rfl
  | cons it t ih =>
    have hit := h it (List.mem_cons_self _ _)
    have ht := fun x hx => h x (List.mem_cons_of_mem _ hx)
    obtain ⟨n, rfl⟩ : ∃ n, fuel = n + 1 := ⟨fuel - 1, by simp at hfuel; omega⟩
    have hne : ∃ b bs, it.bytes ++ t.flatMap Item.bytes = b :: bs := by
      have := Item.bytes_length_ge it
      cases hb : it.bytes with
      | nil => rw [hb] at this; simp at this
      | cons b bs => exact ⟨b, bs ++ t.flatMap Item.bytes, rfl⟩
    obtain ⟨b, bs, hb⟩ := hne
    simp only [List.flatMap_cons, List.map_cons]
    rw [hb]
    simp only [decodeLoop]
    rw [← hb, decodeRecord_bytes it hit]
    simp only [ih ht n (by simp at hfuel; omega)]

theorem flatMap_bytes_length_ge (items : List Item) :
    items.length ≤ (items.flatMap Item.bytes).length := by
  induction items with
  | nil => simp
  | cons it t ih =>
    have := Item.bytes_length_ge it
    simp only [List.flatMap_cons, List.length_append, List.length_cons]
    omega

theorem decode_bytes (items : List Item) (h : ∀ it ∈ items, it.Encodable) :
    decode (items.flatMap Item.bytes) = some (items.map Item.record) :=
  decodeLoop_bytes items h _ (flatMap_bytes_length_ge items)

/-! ## Proofs: the traversal in terms of its summaries -/

/-- The entries of a directory are handled one after the other. -/
theorem walkBuffer_eq_foldl (recurse : Bool) (dir : List Nat)
    (buffer : List FILE_DIRECTORY_INFORMATION) (v : ListVars) :
    walkBuffer recurse dir buffer v
      = (walked buffer).foldl (fun v file => handleEntry recurse dir file v) v := by
  induction buffer generalizing v with
  | nil => rfl
  | cons file next ih =>
    simp only [walkBuffer, walked]
    by_cases h : file.NextEntryOffset ≠ 0
    · rw [if_pos h, if_pos h, List.foldl_cons, ih]
    · rw [if_neg h, if_neg h, List.foldl_cons, List.foldl_nil]

theorem listLoop_eq_foldl (recurse : Bool) (dir : List Nat) (handle : List QueryResult)
    (buffer : List FILE_DIRECTORY_INFORMATION) (v : ListVars) :
    (listLoop recurse dir handle buffer v).2
      = (listed handle buffer).foldl (fun v file => handleEntry recurse dir file v) v := by
  induction handle generalizing buffer v with
  | nil => simp only [listLoop, listed, walkBuffer_eq_foldl]
  | cons r handle ih =>
    simp only [listLoop, listed]
    by_cases h1 : r.status = STATUS_NO_MORE_FILES
    · rw [if_pos h1, if_pos h1, List.append_nil, walkBuffer_eq_foldl]
    · by_cases h2 : (!NT_SUCCESS r.status) = true
      · rw [if_neg h1, if_neg h1, if_pos h2, if_pos h2, List.append_nil, walkBuffer_eq_foldl]
      · rw [if_neg h1, if_neg h1, if_neg h2, if_neg h2, ih, List.foldl_append,
          walkBuffer_eq_foldl]

/-- Handling entries once the marker is written: the kept entries are encoded and
the directories among them pushed. -/
theorem foldl_handleEntry_wrote (recurse : Bool) (dir : List Nat)
    (visited : List FILE_DIRECTORY_INFORMATION) (v : ListVars) (hv : v.bWroteFullPath = true) :
    visited.foldl (fun v file => handleEntry recurse dir file v) v
      = { bWroteFullPath := true,
          dirs := (pushed recurse dir visited).reverse ++ v.dirs,
          stream := feed v.stream ((kept visited).map Item.file) } := by
  induction visited generalizing v with
  | nil =>
    cases v
    simp only at hv
    simp [pushed, kept, feed, hv]
  | cons file rest ih =>
    simp only [List.foldl_cons]
    have hstep : handleEntry recurse dir file v
        = if isDotEntry file then v
          else { bWroteFullPath := true,
                 dirs := (if decide (file.FileAttributes &&& FILE_ATTRIBUTE_DIRECTORY ≠ 0) && recurse
                          then nextDir dir file :: v.dirs else v.dirs),
                 stream := writeFileToStream file v.stream } := by
      cases v
      simp only at hv
      subst hv
      simp only [handleEntry, Bool.not_true, Bool.false_eq_true, if_false]
      by_cases hd : isDotEntry file = true
      · rw [if_pos hd, if_pos hd]
      · rw [if_neg hd, if_neg hd]
        by_cases hr : (decide (file.FileAttributes &&& FILE_ATTRIBUTE_DIRECTORY ≠ 0) && recurse) = true
        · have hrec : recurse = true := by
            simp only [Bool.and_eq_true] at hr; exact hr.2
          rw [if_pos hr, if_pos hrec, if_pos hr]
        · rw [if_neg hr, if_neg hr]
    by_cases hd : isDotEntry file = true
    · rw [hstep, if_pos hd, ih v hv]
      simp only [pushed, kept, List.filter_cons, hd, Bool.not_true, Bool.false_eq_true, if_false]
    · rw [hstep, if_neg hd, ih _ rfl]
      have hd2 : (!isDotEntry file) = true := by simpa using hd
      by_cases hr : (decide (file.FileAttributes &&& FILE_ATTRIBUTE_DIRECTORY ≠ 0) && recurse) = true
      · simp only [pushed, kept, List.filter_cons, hd2, if_true, hr, List.map_cons,
          List.reverse_cons, List.append_assoc, List.singleton_append, feed, List.foldl_cons,
          Item.writeToStream]
      · simp only [pushed, kept, List.filter_cons, hd2, if_true, hr, if_false, List.map_cons,
          feed, List.foldl_cons, Item.writeToStream, Bool.false_eq_true]

/-- Handling the entries of a directory from the start: the marker comes first. -/
theorem foldl_handleEntry_start (recurse : Bool) (dir : List Nat)
    (visited : List FILE_DIRECTORY_INFORMATION) (dirs : List (List Nat))
    (stream : PagedBinaryStream) :
    let v := visited.foldl (fun v file => handleEntry recurse dir file v)
      { bWroteFullPath := false, dirs := dirs, stream := stream }
    v.dirs = (pushed recurse dir visited).reverse ++ dirs
      ∧ v.stream = feed stream (dirItems dir visited) := by
  cases visited with
  | nil => simp [pushed, kept, dirItems, feed]
  | cons file rest =>
    intro v
    have h1 : handleEntry recurse dir file { bWroteFullPath := false, dirs := dirs, stream := stream }
        = handleEntry recurse dir file
            { bWroteFullPath := true, dirs := dirs, stream := writeFullPathToStream dir stream } := by
      unfold handleEntry
      rfl
    have h2 : v = (file :: rest).foldl (fun v file => handleEntry recurse dir file v)
        { bWroteFullPath := true, dirs := dirs, stream := writeFullPathToStream dir stream } := by
      show List.foldl _ _ (file :: rest) = List.foldl _ _ (file :: rest)
      rw [List.foldl_cons, List.foldl_cons, h1]
    rw [h2, foldl_handleEntry_wrote recurse dir (file :: rest) _ rfl]
    constructor
    · rfl
    · rw [dirItems, if_neg (List.cons_ne_nil _ _)]
      simp only [feed, List.foldl_cons, Item.writeToStream]

/-- The outer loop run on the summaries gives the message and stream of `mainLoop`. -/
theorem mainLoop_eq_absLoop (os : OS) (recurse : Bool) (fuel : Nat) (st : State) :
    (mainLoop os recurse fuel st).map (fun (message, st) => (message, st.stream))
      = absLoop os recurse fuel st.dirs st.dirCount st.stream := by
  induction fuel generalizing st with
  | zero => rfl
  | succ n ih =>
    obtain ⟨dirs, dirCount, buffer, stream⟩ := st
    cases dirs with
    | nil => rfl
    | cons dir dirs =>
      simp only [mainLoop, absLoop, listing]
      cases hopen : os.CreateFileW dir with
      | none =>
        simp only
        by_cases h0 : dirCount = 0
        · simp only [h0, if_true, Option.map_some']
        · simp only [h0, if_false, ih]
      | some dirHandle =>
        simp only
        by_cases hskip : (NtQueryDirectoryFileEx dirHandle).1.Information = 0
            ∨ (NtQueryDirectoryFileEx dirHandle).1.status = STATUS_NO_SUCH_FILE
        · simp only [hskip, if_true, ih, pushed, kept, dirItems, feed, List.filter_nil,
            List.map_nil, List.reverse_nil, List.nil_append, List.foldl_nil]
        · simp only [hskip, if_false, ih]
          have hinfo : (NtQueryDirectoryFileEx dirHandle).1.Information ≠ 0 :=
            fun h => hskip (Or.inl h)
          have hbuf : storeResult buffer (NtQueryDirectoryFileEx dirHandle).1
              = (NtQueryDirectoryFileEx dirHandle).1.entries := by
            simp only [storeResult, hinfo, if_false]
          have := foldl_handleEntry_start recurse dir
            (listed (NtQueryDirectoryFileEx dirHandle).2 (NtQueryDirectoryFileEx dirHandle).1.entries)
            dirs stream
          simp only [← listLoop_eq_foldl] at this
          rw [hbuf, this.1, this.2]

/-- Once a directory has been opened and fewer than `2^32` iterations remain,
`dirCount` is never 0 again: the loop reports no error and its stream is the
initial one fed with the trace. -/
theorem absLoop_eq_traceLoop (os : OS) (recurse : Bool) (fuel : Nat) (dirs : List (List Nat))
    (dirCount : Nat) (stream : PagedBinaryStream)
    (h1 : 1 ≤ dirCount) (h2 : dirCount + fuel ≤ 2 ^ 32) :
    absLoop os recurse fuel dirs dirCount stream
      = (traceLoop os recurse fuel dirs).map fun items => ("", feed stream items) := by
  induction fuel generalizing dirs dirCount stream with
  | zero => rfl
  | succ n ih =>
    cases dirs with
    | nil => rfl
    | cons dir dirs =>
      simp only [absLoop, traceLoop]
      cases hl : listing os dir with
      | none =>
        simp only
        rw [if_neg (by omega), ih dirs dirCount stream h1 (by omega)]
      | some visited =>
        simp only
        cases n with
        | zero => rfl
        | succ m =>
          have hc : (dirCount + 1) % 2 ^ 32 = dirCount + 1 := Nat.mod_eq_of_lt (by omega)
          rw [hc, ih _ (dirCount + 1) _ (by omega) (by omega), Option.map_map]
          congr 1
          funext items
          simp only [Function.comp, feed_append]

/-- A call that runs fewer than `2^32` iterations of the outer loop is described
by `direnumSummary`. -/
theorem direnum_eq_summary (os : OS) (fuel : Nat) (rootDir : List Nat)
    (stream : PagedBinaryStream) (recurse : Bool) (hfuel : fuel ≤ 2 ^ 32) :
    direnum_NtQueryDirectory_toStream os fuel rootDir stream recurse
      = direnumSummary os fuel rootDir stream recurse := by
  unfold direnum_NtQueryDirectory_toStream
  rw [mainLoop_eq_absLoop]
  cases fuel with
  | zero => rfl
  | succ n =>
    simp only [absLoop, direnumSummary]
    cases hl : listing os (normalizeDir rootDir) with
    | none => simp only [if_true]
    | some visited =>
      simp only [List.append_nil]
      cases n with
      | zero => rfl
      | succ m =>
        rw [absLoop_eq_traceLoop os recurse (m + 1) _ _ _ (by norm_num) (by norm_num; omega)]
        congr 1
        funext items
        simp only [feed_append]

/-! ## Proofs: properties of the trace -/

theorem listing_eq_none_iff (os : OS) (dir : List Nat) :
    listing os dir = none ↔ os.CreateFileW dir = none := by
  unfold listing
  cases os.CreateFileW dir with
  | none => simp
  | some h =>
    simp only [reduceCtorEq, iff_false]
    split <;> simp

theorem walked_subset (buffer : List FILE_DIRECTORY_INFORMATION) :
    ∀ file ∈ walked buffer, file ∈ buffer := by
  induction buffer with
  | nil => simp [walked]
  | cons f next ih =>
    intro file hfile
    simp only [walked, List.mem_cons] at hfile
    rcases hfile with h | h
    · exact h ▸ List.mem_cons_self _ _
    · by_cases hn : f.NextEntryOffset ≠ 0
      · rw [if_pos hn] at h
        exact List.mem_cons_of_mem _ (ih file h)
      · rw [if_neg hn] at h
        simp at h

/-- Every visited entry was in the buffer or was stored by a later query. -/
theorem listed_subset (handle : List QueryResult) (buffer : List FILE_DIRECTORY_INFORMATION) :
    ∀ file ∈ listed handle buffer, file ∈ buffer ∨ ∃ r ∈ handle, file ∈ r.entries := by
  induction handle generalizing buffer with
  | nil =>
    intro file hfile
    exact Or.inl (walked_subset _ file hfile)
  | cons r handle ih =>
    intro file hfile
    simp only [listed, List.mem_append] at hfile
    rcases hfile with h | h
    · exact Or.inl (walked_subset _ file h)
    · by_cases h1 : r.status = STATUS_NO_MORE_FILES
      · rw [if_pos h1] at h; simp at h
      · rw [if_neg h1] at h
        by_cases h2 : (!NT_SUCCESS r.status) = true
        · rw [if_pos h2] at h; simp at h
        · rw [if_neg h2] at h
          rcases ih _ file h with h3 | ⟨r', hr', h3⟩
          · unfold storeResult at h3
            by_cases hi : r.Information = 0
            · rw [if_pos hi] at h3; exact Or.inl h3
            · rw [if_neg hi] at h3
              exact Or.inr ⟨r, List.mem_cons_self _ _, h3⟩
          · exact Or.inr ⟨r', List.mem_cons_of_mem _ hr', h3⟩

/-- A listing comes from a directory that opens, and every visited entry is one
that some query on its handle stored. -/
theorem listing_some (os : OS) (dir : List Nat) (visited : List FILE_DIRECTORY_INFORMATION)
    (h : listing os dir = some visited) :
    ∃ handle, os.CreateFileW dir = some handle
      ∧ ∀ file ∈ visited, ∃ r ∈ handle, file ∈ r.entries := by
  unfold listing at h
  cases hopen : os.CreateFileW dir with
  | none => rw [hopen] at h; simp at h
  | some handle =>
    refine ⟨handle, rfl, ?_⟩
    rw [hopen] at h
    simp only at h
    cases handle with
    | nil =>
      simp only [NtQueryDirectoryFileEx, true_or, if_true, Option.some.injEq] at h
      subst h
      simp
    | cons r rest =>
      simp only [NtQueryDirectoryFileEx] at h
      by_cases hs : r.Information = 0 ∨ r.status = STATUS_NO_SUCH_FILE
      · rw [if_pos hs] at h
        simp only [Option.some.injEq] at h
        subst h
        simp
      · rw [if_neg hs] at h
        simp only [Option.some.injEq] at h
        subst h
        intro file hfile
        rcases listed_subset rest r.entries file hfile with h1 | ⟨r', hr', h1⟩
        · exact ⟨r, List.mem_cons_self _ _, h1⟩
        · exact ⟨r', List.mem_cons_of_mem _ hr', h1⟩

theorem kept_subset (visited : List FILE_DIRECTORY_INFORMATION) :
    ∀ file ∈ kept visited, file ∈ visited := by
  intro file h
  exact (List.mem_filter.mp h).1

theorem mem_pushed {recurse : Bool} {dir : List Nat} {visited : List FILE_DIRECTORY_INFORMATION}
    {d : List Nat} (h : d ∈ pushed recurse dir visited) :
    ∃ file ∈ kept visited, file.FileAttributes &&& FILE_ATTRIBUTE_DIRECTORY ≠ 0
      ∧ recurse = true ∧ d = nextDir dir file := by
  simp only [pushed, List.mem_map, List.mem_filter, Bool.and_eq_true, decide_eq_true_eq] at h
  obtain ⟨file, ⟨hk, hd, hr⟩, rfl⟩ := h
  exact ⟨file, hk, hd, hr, rfl⟩

theorem dirItems_eq_groupItems (dir : List Nat) (visited : List FILE_DIRECTORY_INFORMATION) :
    dirItems dir visited = groupItems (if visited = [] then [] else [(dir, kept visited)]) := by
  unfold dirItems groupItems
  by_cases h : visited = []
  · simp [h]
  · simp [h]

theorem groupItems_append (g1 g2 : List (List Nat × List FILE_DIRECTORY_INFORMATION)) :
    groupItems (g1 ++ g2) = groupItems g1 ++ groupItems g2 := by
  simp [groupItems]

/-- The trace is a sequence of groups.  Every group belongs to a directory that
opened, holds entries the operating system reported for that directory, none of
them skipped, and its directory was on the initial stack or was pushed for an entry
of another group. -/
theorem traceLoop_groups (os : OS) (recurse : Bool) (fuel : Nat) (dirs : List (List Nat))
    (items : List Item) (h : traceLoop os recurse fuel dirs = some items) :
    ∃ groups : List (List Nat × List FILE_DIRECTORY_INFORMATION),
      items = groupItems groups ∧
      ∀ g ∈ groups,
        (∃ handle, os.CreateFileW g.1 = some handle
          ∧ ∀ file ∈ g.2, isDotEntry file = false ∧ ∃ r ∈ handle, file ∈ r.entries)
        ∧ (g.1 ∈ dirs ∨ ∃ g' ∈ groups, ∃ file ∈ g'.2,
            file.FileAttributes &&& FILE_ATTRIBUTE_DIRECTORY ≠ 0 ∧ recurse = true
              ∧ g.1 = nextDir g'.1 file) := by
  induction fuel generalizing dirs items with
  | zero => simp [traceLoop] at h
  | succ n ih =>
    cases dirs with
    | nil =>
      simp only [traceLoop, Option.some.injEq] at h
      subst h
      exact ⟨[], rfl, by simp⟩
    | cons dir dirs =>
      simp only [traceLoop] at h
      cases hl : listing os dir with
      | none =>
        rw [hl] at h
        simp only at h
        obtain ⟨groups, hg1, hg2⟩ := ih dirs items h
        refine ⟨groups, hg1, fun g hg => ⟨(hg2 g hg).1, ?_⟩⟩
        rcases (hg2 g hg).2 with h1 | h1
        · exact Or.inl (List.mem_cons_of_mem _ h1)
        · exact Or.inr h1
      | some visited =>
        rw [hl] at h
        simp only [Option.map_eq_some'] at h
        obtain ⟨items', hitems', rfl⟩ := h
        obtain ⟨groups, hg1, hg2⟩ := ih _ items' hitems'
        obtain ⟨handle, hopen, hvis⟩ := listing_some os dir visited hl
        refine ⟨(if visited = [] then [] else [(dir, kept visited)]) ++ groups, ?_, ?_⟩
        · rw [groupItems_append, ← dirItems_eq_groupItems, hg1]
        · intro g hg
          rcases List.mem_append.mp hg with hg | hg
          · by_cases hv : visited = []
            · rw [if_pos hv] at hg; simp at hg
            · rw [if_neg hv] at hg
              simp only [List.mem_singleton] at hg
              subst hg
              refine ⟨⟨handle, hopen, fun file hfile => ⟨?_, hvis file (kept_subset _ file hfile)⟩⟩,
                Or.inl (List.mem_cons_self _ _)⟩
              have := (List.mem_filter.mp hfile).2
              simpa using this
          · refine ⟨(hg2 g hg).1, ?_⟩
            rcases (hg2 g hg).2 with h1 | ⟨g', hg', file, hfile, hd, hr, hn⟩
            · rcases List.mem_append.mp h1 with h2 | h2
              · obtain ⟨file, hk, hd, hr, hn⟩ := mem_pushed (List.mem_reverse.mp h2)
                have hv : visited ≠ [] := by
                  intro hv
                  rw [hv] at hk
                  simp [kept] at hk
                refine Or.inr ⟨(dir, kept visited), ?_, file, hk, hd, hr, hn⟩
                rw [if_neg hv]
                exact List.mem_append_left _ (List.mem_singleton_self _)
              · exact Or.inl (List.mem_cons_of_mem _ h2)
            · exact Or.inr ⟨g', List.mem_append_right _ hg', file, hfile, hd, hr, hn⟩

/-- More fuel does not change a result. -/
theorem traceLoop_mono (os : OS) (recurse : Bool) (fuel k : Nat) (dirs : List (List Nat))
    (items : List Item) (h : traceLoop os recurse fuel dirs = some items) :
    traceLoop os recurse (fuel + k) dirs = some items := by
  induction fuel generalizing dirs items with
  | zero => simp [traceLoop] at h
  | succ n ih =>
    rw [Nat.add_right_comm]
    cases dirs with
    | nil => exact h
    | cons dir dirs =>
      simp only [traceLoop] at h ⊢
      cases hl : listing os dir with
      | none =>
        rw [hl] at h
        exact ih dirs items h
      | some visited =>
        rw [hl] at h
        simp only [Option.map_eq_some'] at h ⊢
        obtain ⟨items', hitems', rfl⟩ := h
        exact ⟨items', ih _ items' hitems', rfl⟩

theorem message_ne_empty (s : String) : "failed to open directory: " ++ s ≠ "" := by
  intro h
  have := congrArg String.length h
  simp only [String.length_append] at this
  have h2 : "failed to open directory: ".length = 26 := by decide
  rw [h2] at this
  have h3 : "".length = 0 := rfl
  omega

/-! ## Proofs: a directory that does not open against one that yields no entries -/

theorem listing_withDir_ne (os : OS) (D dir : List Nat) (handle : Option (List QueryResult))
    (h : dir ≠ D) : listing (os.withDir D handle) dir = listing os dir := by
  simp only [listing, OS.withDir, if_neg h]

theorem listing_withDir_empty (os : OS) (D : List Nat) (handle : List QueryResult)
    (hempty : (NtQueryDirectoryFileEx handle).1.Information = 0) :
    listing (os.withDir D (some handle)) D = some [] := by
  simp only [listing, OS.withDir, if_true, hempty, true_or]

theorem traceLoop_withDir (os : OS) (recurse : Bool) (D : List Nat) (handle : List QueryResult)
    (hfail : os.CreateFileW D = none)
    (hempty : (NtQueryDirectoryFileEx handle).1.Information = 0)
    (fuel : Nat) (dirs : List (List Nat)) :
    traceLoop (os.withDir D (some handle)) recurse fuel dirs = traceLoop os recurse fuel dirs := by
  induction fuel generalizing dirs with
  | zero => rfl
  | succ n ih =>
    cases dirs with
    | nil => rfl
    | cons dir dirs =>
      simp only [traceLoop]
      by_cases hd : dir = D
      · subst hd
        rw [listing_withDir_empty os dir handle hempty, (listing_eq_none_iff os dir).mpr hfail]
        simp only [pushed, kept, dirItems, List.filter_nil, List.map_nil, List.reverse_nil,
          List.nil_append, if_true, ih]
        cases traceLoop os recurse n dirs <;> rfl
      · rw [listing_withDir_ne os D dir _ hd]
        cases listing os dir with
        | none => exact ih dirs
        | some visited => simp only [ih]

theorem direnumSummary_withDir (os : OS) (recurse : Bool) (D : List Nat)
    (handle : List QueryResult) (hfail : os.CreateFileW D = none)
    (hempty : (NtQueryDirectoryFileEx handle).1.Information = 0)
    (fuel : Nat) (rootDir : List Nat) (stream : PagedBinaryStream)
    (hD : D ≠ normalizeDir rootDir) :
    direnumSummary (os.withDir D (some handle)) fuel rootDir stream recurse
      = direnumSummary os fuel rootDir stream recurse := by
  cases fuel with
  | zero => rfl
  | succ n =>
    simp only [direnumSummary]
    rw [listing_withDir_ne os D _ _ (Ne.symm hD)]
    cases listing os (normalizeDir rootDir) with
    | none => rfl
    | some visited => simp only [traceLoop_withDir os recurse D handle hfail hempty]

theorem listing_withDir_self (os : OS) (D : List Nat) (handle : List QueryResult)
    (hyield : yieldsNoEntries handle) :
    ∃ visited, listing (os.withDir D (some handle)) D = some visited ∧ kept visited = [] := by
  cases hl : listing (os.withDir D (some handle)) D with
  | none =>
    have := (listing_eq_none_iff _ _).mp hl
    simp [OS.withDir] at this
  | some visited =>
    refine ⟨visited, rfl, ?_⟩
    rcases hyield with h | h
    · rw [listing_withDir_empty os D handle h] at hl
      simp only [Option.some.injEq] at hl
      subst hl
      rfl
    · obtain ⟨handle', hopen, hvis⟩ := listing_some _ D visited hl
      have : handle' = handle := by
        simp only [OS.withDir, if_true, Option.some.injEq] at hopen
        exact hopen.symm
      subst this
      unfold kept
      rw [List.filter_eq_nil_iff]
      intro file hfile
      obtain ⟨r, hr, hfr⟩ := hvis file hfile
      simp [h r hr file hfr]

theorem filter_dirItems (D dir : List Nat) (visited : List FILE_DIRECTORY_INFORMATION)
    (h : dir ≠ D) : (dirItems dir visited).filter (notMarkerOf D) = dirItems dir visited := by
  rw [List.filter_eq_self]
  intro it hit
  unfold dirItems at hit
  by_cases hv : visited = []
  · rw [if_pos hv] at hit; simp at hit
  · rw [if_neg hv] at hit
    simp only [List.mem_cons, List.mem_map] at hit
    rcases hit with rfl | ⟨file, _, rfl⟩
    · simp [notMarkerOf, h]
    · simp [notMarkerOf]

theorem filter_dirItems_self (D : List Nat) (visited : List FILE_DIRECTORY_INFORMATION)
    (h : kept visited = []) : (dirItems D visited).filter (notMarkerOf D) = [] := by
  unfold dirItems
  by_cases hv : visited = []
  · rw [if_pos hv]; rfl
  · rw [if_neg hv, h]
    simp [notMarkerOf]

/-- The trace with `D` unopenable is the trace with `D` yielding no entries, less
the markers of `D`. -/
theorem traceLoop_withDir_filter (os : OS) (recurse : Bool) (D : List Nat)
    (handle : List QueryResult) (hfail : os.CreateFileW D = none)
    (hyield : yieldsNoEntries handle) (fuel : Nat) (dirs : List (List Nat)) :
    traceLoop os recurse fuel dirs
      = (traceLoop (os.withDir D (some handle)) recurse fuel dirs).map
          fun items => items.filter (notMarkerOf D) := by
  induction fuel generalizing dirs with
  | zero => rfl
  | succ n ih =>
    cases dirs with
    | nil => rfl
    | cons dir dirs =>
      simp only [traceLoop]
      by_cases hd : dir = D
      · subst hd
        obtain ⟨visited, hl, hk⟩ := listing_withDir_self os dir handle hyield
        rw [hl, (listing_eq_none_iff os dir).mpr hfail]
        simp only [pushed, hk, List.filter_nil, List.map_nil, List.reverse_nil, List.nil_append,
          ih dirs, Option.map_map]
        congr 1
        funext items
        simp only [Function.comp, List.filter_append, filter_dirItems_self dir visited hk,
          List.nil_append]
      · rw [listing_withDir_ne os D dir _ hd]
        cases listing os dir with
        | none => exact ih dirs
        | some visited =>
          simp only [ih, Option.map_map]
          congr 1
          funext items
          simp only [Function.comp, List.filter_append, filter_dirItems D dir visited hd]

/-- The items of a whole call: the message and the encoder calls. -/
theorem direnumSummary_withDir_filter (os : OS) (recurse : Bool) (D : List Nat)
    (handle : List QueryResult) (hfail : os.CreateFileW D = none)
    (hyield : yieldsNoEntries handle) (fuel : Nat) (rootDir : List Nat)
    (stream : PagedBinaryStream) (hD : D ≠ normalizeDir rootDir) :
    ∃ r : Option (String × List Item),
      direnumSummary (os.withDir D (some handle)) fuel rootDir stream recurse
        = r.map (fun x => (x.1, feed stream x.2))
      ∧ direnumSummary os fuel rootDir stream recurse
        = r.map (fun x => (x.1, feed stream (x.2.filter (notMarkerOf D)))) := by
  cases fuel with
  | zero => exact ⟨none, rfl, rfl⟩
  | succ n =>
    simp only [direnumSummary]
    rw [listing_withDir_ne os D _ _ (Ne.symm hD)]
    cases listing os (normalizeDir rootDir) with
    | none =>
      exact ⟨some ("failed to open directory: " ++ utf8_encode os (normalizeDir rootDir), []),
        rfl, rfl⟩
    | some visited =>
      refine ⟨(traceLoop (os.withDir D (some handle)) recurse n
          (pushed recurse (normalizeDir rootDir) visited).reverse).map
          (fun items => ("", dirItems (normalizeDir rootDir) visited ++ items)), ?_, ?_⟩
      · simp only [Option.map_map]
        rfl
      · simp only [traceLoop_withDir_filter os recurse D handle hfail hyield, Option.map_map]
        congr 1
        funext items
        simp only [Function.comp, List.filter_append,
          filter_dirItems D _ visited (Ne.symm hD)]

/-- The result of a call, when there is one: an error exactly when the root does
not open, and otherwise the stream fed with a sequence of groups as in
`traceLoop_groups`, the stack being the root alone. -/
theorem direnumSummary_result (os : OS) (fuel : Nat) (rootDir : List Nat)
    (stream : PagedBinaryStream) (recurse : Bool) (message : String) (out : PagedBinaryStream)
    (h : direnumSummary os fuel rootDir stream recurse = some (message, out)) :
    (os.CreateFileW (normalizeDir rootDir) = none
      ∧ message = "failed to open directory: " ++ utf8_encode os (normalizeDir rootDir)
      ∧ out = stream)
    ∨ (os.CreateFileW (normalizeDir rootDir) ≠ none ∧ message = ""
      ∧ ∃ groups : List (List Nat × List FILE_DIRECTORY_INFORMATION),
        out = feed stream (groupItems groups) ∧
        ∀ g ∈ groups,
          (∃ handle, os.CreateFileW g.1 = some handle
            ∧ ∀ file ∈ g.2, isDotEntry file = false ∧ ∃ r ∈ handle, file ∈ r.entries)
          ∧ (g.1 = normalizeDir rootDir ∨ ∃ g' ∈ groups, ∃ file ∈ g'.2,
              file.FileAttributes &&& FILE_ATTRIBUTE_DIRECTORY ≠ 0 ∧ recurse = true
                ∧ g.1 = nextDir g'.1 file)) := by
  cases fuel with
  | zero => simp [direnumSummary] at h
  | succ n =>
    simp only [direnumSummary] at h
    cases hl : listing os (normalizeDir rootDir) with
    | none =>
      rw [hl] at h
      simp only [Option.some.injEq, Prod.mk.injEq] at h
      exact Or.inl ⟨(listing_eq_none_iff _ _).mp hl, h.1.symm, h.2.symm⟩
    | some visited =>
      rw [hl] at h
      simp only [Option.map_eq_some', Prod.mk.injEq] at h
      obtain ⟨items, hitems, hm, hout⟩ := h
      have hopen : os.CreateFileW (normalizeDir rootDir) ≠ none := by
        intro hn
        rw [(listing_eq_none_iff _ _).mpr hn] at hl
        simp at hl
      -- the whole run is the trace from the stack holding the root alone
      have htrace : traceLoop os recurse (n + 1) [normalizeDir rootDir]
          = some (dirItems (normalizeDir rootDir) visited ++ items) := by
        simp only [traceLoop, hl, List.append_nil, hitems, Option.map_some']
      obtain ⟨groups, hg1, hg2⟩ := traceLoop_groups os recurse (n + 1) _ _ htrace
      refine Or.inr ⟨hopen, hm.symm, groups, ?_, ?_⟩
      · rw [← hout, hg1]
      · intro g hg
        refine ⟨(hg2 g hg).1, ?_⟩
        rcases (hg2 g hg).2 with h1 | h1
        · exact Or.inl (List.mem_singleton.mp h1)
        · exact Or.inr h1

/-! ## Proofs: termination on finite trees -/

theorem mem_allEntries {handle : List QueryResult} {file : FILE_DIRECTORY_INFORMATION} :
    file ∈ allEntries handle ↔ ∃ r ∈ handle, file ∈ r.entries := by
  simp [allEntries, List.mem_flatMap]

theorem isDotEntry_eq_isDotDir (file : FILE_DIRECTORY_INFORMATION) (h : file.WellFormed) :
    isDotEntry file = isDotDir file := by
  obtain ⟨_, _, _, _, h5, _⟩ := h
  unfold isDotEntry isDotDir isDirectory
  cases hname : file.FileName with
  | nil =>
    rw [hname] at h5
    simp only [List.length_nil] at h5
    simp [h5]
  | cons a t =>
    cases t with
    | nil =>
      rw [hname] at h5
      simp only [List.length_cons, List.length_nil] at h5
      simp [h5, beq_eq_decide]
    | cons b t =>
      cases t with
      | nil =>
        rw [hname] at h5
        simp only [List.length_cons, List.length_nil] at h5
        simp [h5, beq_eq_decide]
      | cons c t =>
        rw [hname] at h5
        simp only [List.length_cons] at h5
        have h1 : ¬ file.FileNameLength / 2 = 1 := by omega
        have h2 : ¬ file.FileNameLength / 2 = 2 := by omega
        simp [h1, h2]

theorem nextDir_eq_childPath (dir : List Nat) (file : FILE_DIRECTORY_INFORMATION)
    (h : file.WellFormed) : nextDir dir file = childPath dir file := by
  obtain ⟨_, _, _, _, h5, _⟩ := h
  unfold nextDir childPath
  rw [List.take_of_length_le (by omega)]

/-- Every pushed directory is one of the subdirectories the operating system reports. -/
theorem pushed_subset_subdirs (os : OS) (hwf : os.WellFormed) (recurse : Bool) (dir : List Nat)
    (visited : List FILE_DIRECTORY_INFORMATION) (handle : List QueryResult)
    (hl : listing os dir = some visited) (hopen : os.CreateFileW dir = some handle) :
    ∀ c ∈ pushed recurse dir visited, c ∈ subdirs dir handle := by
  intro c hc
  obtain ⟨file, hk, hd, _, rfl⟩ := mem_pushed hc
  obtain ⟨handle', hopen', hvis⟩ := listing_some os dir visited hl
  rw [hopen] at hopen'
  simp only [Option.some.injEq] at hopen'
  subst hopen'
  have hk' := List.mem_filter.mp hk
  obtain ⟨r, hr, hfr⟩ := hvis file hk'.1
  have hfwf : file.WellFormed := (hwf dir handle hopen).2 r hr file hfr
  refine List.mem_map.mpr ⟨file, List.mem_filter.mpr ⟨List.mem_filter.mpr
    ⟨mem_allEntries.mpr ⟨r, hr, hfr⟩, ?_⟩, ?_⟩, (nextDir_eq_childPath dir file hfwf).symm⟩
  · rw [← isDotEntry_eq_isDotDir file hfwf]
    exact hk'.2
  · simp only [isDirectory, decide_eq_true_eq]
    exact hd

/-- From the statement for one directory to the statement for a stack segment. -/
theorem traceLoop_segment (os : OS) (recurse : Bool) (d : Nat)
    (single : ∀ dir, os.depthAtMost d dir = true → ∀ fuel rest,
      traceLoop os recurse (fuel + subtreeFuel os recurse d dir) (dir :: rest)
        = (traceLoop os recurse fuel rest).map fun items => subtreeItems os recurse d dir ++ items)
    (cs : List (List Nat)) (hcs : ∀ c ∈ cs, os.depthAtMost d c = true)
    (fuel : Nat) (rest : List (List Nat)) :
    traceLoop os recurse (fuel + (cs.map (subtreeFuel os recurse d)).sum) (cs ++ rest)
      = (traceLoop os recurse fuel rest).map
          fun items => cs.flatMap (subtreeItems os recurse d) ++ items := by
  induction cs generalizing fuel with
  | nil =>
    simp only [List.map_nil, List.sum_nil, Nat.add_zero, List.nil_append, List.flatMap_nil]
    cases traceLoop os recurse fuel rest <;> rfl
  | cons c cs ih =>
    have hc := hcs c (List.mem_cons_self _ _)
    have hrest := fun x hx => hcs x (List.mem_cons_of_mem _ hx)
    have e : fuel + ((c :: cs).map (subtreeFuel os recurse d)).sum
        = (fuel + (cs.map (subtreeFuel os recurse d)).sum) + subtreeFuel os recurse d c := by
      simp only [List.map_cons, List.sum_cons]; omega
    rw [e, List.cons_append, single c hc, ih hrest, Option.map_map]
    congr 1
    funext items
    simp only [Function.comp, List.flatMap_cons, List.append_assoc]

/-- The depth-first property of the stack: a directory on top of the stack and
everything pushed below it are processed before the rest of the stack is touched. -/
theorem traceLoop_subtree (os : OS) (hwf : os.WellFormed) (recurse : Bool) (d : Nat) :
    ∀ dir, os.depthAtMost d dir = true → ∀ fuel rest,
      traceLoop os recurse (fuel + subtreeFuel os recurse d dir) (dir :: rest)
        = (traceLoop os recurse fuel rest).map
            fun items => subtreeItems os recurse d dir ++ items := by
  induction d with
  | zero =>
    intro dir hdir fuel rest
    simp only [OS.depthAtMost, Option.isNone_iff_eq_none] at hdir
    simp only [subtreeFuel, subtreeItems, traceLoop, (listing_eq_none_iff os dir).mpr hdir,
      List.nil_append]
    cases traceLoop os recurse fuel rest <;> rfl
  | succ d ih =>
    intro dir hdir fuel rest
    cases hl : listing os dir with
    | none =>
      simp only [subtreeFuel, subtreeItems, traceLoop, hl, List.nil_append]
      cases traceLoop os recurse fuel rest <;> rfl
    | some visited =>
      obtain ⟨handle, hopen, _⟩ := listing_some os dir visited hl
      simp only [OS.depthAtMost, hopen, List.all_eq_true] at hdir
      have hchildren : ∀ c ∈ (pushed recurse dir visited).reverse, os.depthAtMost d c = true :=
        fun c hc => hdir c (pushed_subset_subdirs os hwf recurse dir visited handle hl hopen c
          (List.mem_reverse.mp hc))
      have hseg := traceLoop_segment os recurse d ih _ hchildren fuel rest
      rw [List.map_reverse, List.sum_reverse] at hseg
      have e : fuel + subtreeFuel os recurse (d + 1) dir
          = (fuel + ((pushed recurse dir visited).map (subtreeFuel os recurse d)).sum) + 1 := by
        simp only [subtreeFuel, hl]; omega
      rw [e]
      simp only [traceLoop, hl, hseg, Option.map_map, subtreeItems]
      congr 1
      funext items
      simp only [Function.comp, List.append_assoc]

/-- When the root opens, the call is the trace from the stack holding the root alone. -/
theorem direnumSummary_eq_trace (os : OS) (fuel : Nat) (rootDir : List Nat)
    (stream : PagedBinaryStream) (recurse : Bool)
    (hopen : os.CreateFileW (normalizeDir rootDir) ≠ none) :
    direnumSummary os fuel rootDir stream recurse
      = (traceLoop os recurse fuel [normalizeDir rootDir]).map
          fun items => ("", feed stream items) := by
  cases fuel with
  | zero => rfl
  | succ n =>
    simp only [direnumSummary, traceLoop]
    cases hl : listing os (normalizeDir rootDir) with
    | none => exact absurd ((listing_eq_none_iff _ _).mp hl) hopen
    | some visited =>
      simp only [List.append_nil, Option.map_map]
      rfl

/-- On a finite tree a call with enough fuel, and fewer than `2^32` iterations,
returns: the error when the root does not open, otherwise the stream fed with the
items of the tree. -/
theorem direnum_finite (os : OS) (hwf : os.WellFormed) (fuel d : Nat) (rootDir : List Nat)
    (stream : PagedBinaryStream) (recurse : Bool)
    (hdepth : os.depthAtMost d (normalizeDir rootDir) = true)
    (henough : traversalFuel os recurse d rootDir ≤ fuel) (hfuel : fuel ≤ 2 ^ 32) :
    direnum_NtQueryDirectory_toStream os fuel rootDir stream recurse
      = some (if os.CreateFileW (normalizeDir rootDir) = none then
          ("failed to open directory: " ++ utf8_encode os (normalizeDir rootDir), stream)
        else ("", feed stream (subtreeItems os recurse d (normalizeDir rootDir)))) := by
  rw [direnum_eq_summary os fuel rootDir stream recurse hfuel]
  unfold traversalFuel at henough
  by_cases hopen : os.CreateFileW (normalizeDir rootDir) = none
  · rw [if_pos hopen]
    obtain ⟨n, rfl⟩ : ∃ n, fuel = n + 1 := ⟨fuel - 1, by omega⟩
    simp only [direnumSummary, (listing_eq_none_iff _ _).mpr hopen]
  · rw [if_neg hopen, direnumSummary_eq_trace os fuel rootDir stream recurse hopen]
    obtain ⟨k, rfl⟩ : ∃ k, fuel = (k + 1) + subtreeFuel os recurse d (normalizeDir rootDir) :=
      ⟨fuel - subtreeFuel os recurse d (normalizeDir rootDir) - 1, by omega⟩
    rw [traceLoop_subtree os hwf recurse d _ hdepth (k + 1) []]
    simp only [traceLoop, Option.map_some', List.append_nil]

/-! ## Proofs: the output decodes -/

theorem strippedPath_length_le (fullPath : List Nat) :
    (strippedPath fullPath).length ≤ fullPath.length := by
  unfold strippedPath
  split
  · simp only [List.length_drop]; omega
  · exact Nat.le_refl _

theorem encodable_of_wellFormed (file : FILE_DIRECTORY_INFORMATION) (h : file.WellFormed)
    (hattr : file.FileAttributes ≠ 0xFFFFFFFF) : (Item.file file).Encodable := by
  obtain ⟨_, _, h3, h4, h5, _⟩ := h
  exact ⟨h4, by omega, h3, hattr⟩

/-- The items of groups of well-formed entries under paths that open are encodable. -/
theorem groupItems_encodable (os : OS) (hwf : os.WellFormed)
    (hattr : ∀ dir handle, os.CreateFileW dir = some handle →
      ∀ r ∈ handle, ∀ file ∈ r.entries, file.FileAttributes ≠ 0xFFFFFFFF)
    (groups : List (List Nat × List FILE_DIRECTORY_INFORMATION))
    (hg : ∀ g ∈ groups, ∃ handle, os.CreateFileW g.1 = some handle
      ∧ ∀ file ∈ g.2, ∃ r ∈ handle, file ∈ r.entries) :
    ∀ it ∈ groupItems groups, it.Encodable := by
  intro it hit
  simp only [groupItems, List.mem_flatMap, List.mem_cons, List.mem_map] at hit
  obtain ⟨g, hgm, hit⟩ := hit
  obtain ⟨handle, hopen, hfiles⟩ := hg g hgm
  rcases hit with rfl | ⟨file, hfile, rfl⟩
  · have := (hwf g.1 handle hopen).1
    have := strippedPath_length_le g.1
    show 2 * (strippedPath g.1).length < 2 ^ 32
    omega
  · obtain ⟨r, hr, hfr⟩ := hfiles file hfile
    exact encodable_of_wellFormed file ((hwf g.1 handle hopen).2 r hr file hfr)
      (hattr g.1 handle hopen r hr file hfr)

theorem OS.ofTable_forall (table : List (List Nat × List QueryResult))
    (P : List Nat → List QueryResult → Prop) (h : ∀ e ∈ table, P e.1 e.2) :
    ∀ dir handle, (OS.ofTable table).CreateFileW dir = some handle → P dir handle := by
  intro dir handle hopen
  simp only [OS.ofTable] at hopen
  induction table with
  | nil => simp [List.lookup] at hopen
  | cons e t ih =>
    obtain ⟨k, v⟩ := e
    simp only [List.lookup] at hopen
    by_cases hk : dir = k
    · subst hk
      simp only [beq_self_eq_true, Option.some.injEq] at hopen
      subst hopen
      exact h (dir, v) (List.mem_cons_self _ _)
    · have hb : (dir == k) = false := by simpa using hk
      simp only [hb] at hopen
      exact ih (fun e he => h e (List.mem_cons_of_mem _ he)) hopen

/-! ## Proofs: the listing of a healthy tree -/

theorem walked_of_chainOK (buffer : List FILE_DIRECTORY_INFORMATION) (h : chainOK buffer = true) :
    walked buffer = buffer := by
  induction buffer with
  | nil => rfl
  | cons file next ih =>
    cases next with
    | nil =>
      simp only [chainOK, decide_eq_true_eq] at h
      simp only [walked, h, ne_eq, not_true_eq_false, if_false]
    | cons f2 rest =>
      simp only [chainOK, Bool.and_eq_true, decide_eq_true_eq] at h
      simp only [walked] at ih ⊢
      rw [if_pos h.1, ih h.2]

theorem chainOK_ne_nil (buffer : List FILE_DIRECTORY_INFORMATION) (h : chainOK buffer = true) :
    buffer ≠ [] := by
  intro hb
  rw [hb] at h
  simp [chainOK] at h

theorem healthy_status {r : QueryResult} (h : r.healthy = true) :
    r.status ≠ STATUS_NO_MORE_FILES ∧ r.status ≠ STATUS_NO_SUCH_FILE
      ∧ NT_SUCCESS r.status = true ∧ r.Information ≠ 0 ∧ chainOK r.entries = true := by
  simp only [QueryResult.healthy, Bool.and_eq_true, decide_eq_true_eq] at h
  obtain ⟨⟨h1, h2⟩, h3⟩ := h
  have hs : r.status ≥ 0 := by simpa [NT_SUCCESS] using h1
  have c1 : STATUS_NO_MORE_FILES < 0 := by decide
  have c2 : STATUS_NO_SUCH_FILE < 0 := by decide
  exact ⟨by omega, by omega, h1, h2, h3⟩

theorem listed_healthy (handle : List QueryResult) (buffer : List FILE_DIRECTORY_INFORMATION)
    (hb : chainOK buffer = true) (hh : ∀ r ∈ handle, r.healthy = true) :
    listed handle buffer = buffer ++ allEntries handle := by
  induction handle generalizing buffer with
  | nil => simp [listed, allEntries, walked_of_chainOK buffer hb]
  | cons r rest ih =>
    obtain ⟨h1, _, h3, h4, h5⟩ := healthy_status (hh r (List.mem_cons_self _ _))
    simp only [listed, walked_of_chainOK buffer hb]
    rw [if_neg h1, if_neg (by simp [h3])]
    have hst : storeResult buffer r = r.entries := by simp [storeResult, h4]
    rw [hst, ih r.entries h5 (fun x hx => hh x (List.mem_cons_of_mem _ hx))]
    simp [allEntries]

theorem listing_healthy (os : OS) (dir : List Nat) (handle : List QueryResult)
    (hopen : os.CreateFileW dir = some handle) (hne : handle.isEmpty = false)
    (hh : ∀ r ∈ handle, r.healthy = true) :
    listing os dir = some (allEntries handle) ∧ allEntries handle ≠ [] := by
  cases handle with
  | nil => simp at hne
  | cons r rest =>
    obtain ⟨_, h2, _, h4, h5⟩ := healthy_status (hh r (List.mem_cons_self _ _))
    constructor
    · simp only [listing, hopen, NtQueryDirectoryFileEx]
      rw [if_neg (by simp [h4, h2]),
        listed_healthy rest r.entries h5 (fun x hx => hh x (List.mem_cons_of_mem _ hx))]
      simp [allEntries]
    · intro hall
      have : r.entries = [] := by
        simp only [allEntries, List.flatMap_cons, List.append_eq_nil] at hall
        exact hall.1
      exact chainOK_ne_nil _ h5 this

theorem kept_eq_filter_isDotDir (visited : List FILE_DIRECTORY_INFORMATION)
    (hwf : ∀ file ∈ visited, file.WellFormed) :
    kept visited = visited.filter fun file => !isDotDir file := by
  unfold kept
  apply List.filter_congr
  intro file hfile
  rw [isDotEntry_eq_isDotDir file (hwf file hfile)]

theorem pushed_eq_subdirs (dir : List Nat) (handle : List QueryResult)
    (hwf : ∀ file ∈ allEntries handle, file.WellFormed) :
    pushed true dir (allEntries handle) = subdirs dir handle := by
  unfold pushed subdirs realEntries
  rw [kept_eq_filter_isDotDir _ hwf]
  have e : (fun file : FILE_DIRECTORY_INFORMATION =>
      decide (file.FileAttributes &&& FILE_ATTRIBUTE_DIRECTORY ≠ 0) && true) = isDirectory := by
    funext file
    simp [isDirectory]
  rw [e]
  apply List.map_congr_left
  intro file hfile
  exact nextDir_eq_childPath dir file
    (hwf file (List.mem_filter.mp (List.mem_filter.mp hfile).1).1)

theorem groupItems_cons (g : List Nat × List FILE_DIRECTORY_INFORMATION)
    (gs : List (List Nat × List FILE_DIRECTORY_INFORMATION)) :
    groupItems (g :: gs) = Item.dir g.1 :: g.2.map Item.file ++ groupItems gs := by
  simp [groupItems]

theorem groupItems_flatMap (cs : List (List Nat))
    (f : List Nat → List (List Nat × List FILE_DIRECTORY_INFORMATION)) :
    groupItems (cs.flatMap f) = cs.flatMap fun c => groupItems (f c) := by
  induction cs with
  | nil => rfl
  | cons c cs ih => simp only [List.flatMap_cons, groupItems_append, ih]

theorem entries_wellFormed (os : OS) (hwf : os.WellFormed) (dir : List Nat)
    (handle : List QueryResult) (hopen : os.CreateFileW dir = some handle) :
    ∀ file ∈ allEntries handle, file.WellFormed := by
  intro file hfile
  obtain ⟨r, hr, hfr⟩ := mem_allEntries.mp hfile
  exact (hwf dir handle hopen).2 r hr file hfr

/-- On a healthy tree the items of the traversal are those of the expected groups. -/
theorem subtreeItems_healthy (os : OS) (hwf : os.WellFormed) (d : Nat) :
    ∀ dir, os.healthy d dir = true →
      subtreeItems os true d dir = groupItems (expectedGroups os d dir) := by
  induction d with
  | zero =>
    intro dir h
    simp [OS.healthy] at h
  | succ d ih =>
    intro dir h
    cases hopen : os.CreateFileW dir with
    | none => simp [OS.healthy, hopen] at h
    | some handle =>
      simp only [OS.healthy, hopen, Bool.and_eq_true, Bool.not_eq_true', List.all_eq_true] at h
      obtain ⟨⟨hne, hh⟩, hchildren⟩ := h
      obtain ⟨hl, hall⟩ := listing_healthy os dir handle hopen hne hh
      have hewf := entries_wellFormed os hwf dir handle hopen
      simp only [subtreeItems, hl, expectedGroups, hopen, groupItems_cons, groupItems_flatMap,
        pushed_eq_subdirs dir handle hewf, dirItems, if_neg hall,
        kept_eq_filter_isDotDir _ hewf, realEntries, List.cons_append]
      congr 1
      congr 1
      apply List.flatMap_congr
      intro c hc
      exact ih c (hchildren c (List.mem_reverse.mp hc))

theorem healthy_depthAtMost (os : OS) (d : Nat) :
    ∀ dir, os.healthy d dir = true → os.depthAtMost d dir = true := by
  induction d with
  | zero =>
    intro dir h
    simp [OS.healthy] at h
  | succ d ih =>
    intro dir h
    cases hopen : os.CreateFileW dir with
    | none => simp [OS.healthy, hopen] at h
    | some handle =>
      simp only [OS.healthy, hopen, Bool.and_eq_true, List.all_eq_true] at h
      simp only [OS.depthAtMost, hopen, List.all_eq_true]
      exact fun c hc => ih c (h.2 c hc)

theorem healthy_opens (os : OS) (d : Nat) (dir : List Nat) (h : os.healthy d dir = true) :
    os.CreateFileW dir ≠ none := by
  cases d with
  | zero => simp [OS.healthy] at h
  | succ d =>
    intro hopen
    simp [OS.healthy, hopen] at h

/-- Every expected group belongs to a directory that opens and holds entries the
operating system stored for it. -/
theorem expectedGroups_sound (os : OS) (d : Nat) :
    ∀ dir, ∀ g ∈ expectedGroups os d dir, ∃ handle, os.CreateFileW g.1 = some handle
      ∧ g.2 = realEntries handle := by
  induction d with
  | zero =>
    intro dir g hg
    simp [expectedGroups] at hg
  | succ d ih =>
    intro dir g hg
    cases hopen : os.CreateFileW dir with
    | none => simp [expectedGroups, hopen] at hg
    | some handle =>
      simp only [expectedGroups, hopen, List.mem_cons, List.mem_flatMap] at hg
      rcases hg with rfl | ⟨c, _, hgc⟩
      · exact ⟨handle, hopen, rfl⟩
      · exact ih c g hgc

theorem splitGroups_file_cons (file : FILE_DIRECTORY_INFORMATION) (rest : List Record) :
    splitGroups ((Item.file file).record :: rest)
      = ((Item.file file).record :: (splitGroups rest).1, (splitGroups rest).2) := rfl

theorem splitGroups_dir_cons (fullPath : List Nat) (rest : List Record) :
    splitGroups ((Item.dir fullPath).record :: rest)
      = ([], (wcharBytes (strippedPath fullPath), (splitGroups rest).1) :: (splitGroups rest).2) :=
  rfl

theorem splitGroups_files (files : List FILE_DIRECTORY_INFORMATION) (rest : List Record) :
    splitGroups ((files.map Item.file).map Item.record ++ rest)
      = ((files.map Item.file).map Item.record ++ (splitGroups rest).1, (splitGroups rest).2) := by
  induction files with
  | nil => rfl
  | cons f fs ih =>
    simp only [List.map_cons, List.cons_append]
    rw [splitGroups_file_cons, ih]

/-- Grouping the records of a sequence of groups gives the groups back. -/
theorem splitGroups_groupItems (groups : List (List Nat × List FILE_DIRECTORY_INFORMATION)) :
    splitGroups ((groupItems groups).map Item.record)
      = ([], groups.map fun g =>
          (wcharBytes (strippedPath g.1), (g.2.map Item.file).map Item.record)) := by
  induction groups with
  | nil => rfl
  | cons g gs ih =>
    rw [groupItems_cons]
    simp only [List.cons_append, List.map_cons, List.map_append]
    rw [splitGroups_dir_cons, splitGroups_files, ih]
    simp only [List.append_nil]

/-! ## Proofs: normalizeDir -/

theorem trimTrailing_le (wszDir : List Nat) (n : Nat) : trimTrailing wszDir n ≤ n := by
  induction n with
  | zero => simp [trimTrailing]
  | succ n ih =>
    simp only [trimTrailing]
    split
    · omega
    · exact Nat.le_refl _

/-- When a code unit other than a separator is present, the trimming loop removes
exactly the trailing separators. -/
theorem take_trimTrailing (p : List Nat) (n : Nat) (hn : n ≤ p.length)
    (h : ∃ c ∈ p.take n, isSeparator c = false) :
    p.take (trimTrailing p n) = (p.take n).rdropWhile isSeparator := by
  induction n with
  | zero => simp at h
  | succ n ih =>
    have hlt : n < p.length := by omega
    have htake : p.take (n + 1) = p.take n ++ [p[n]] := by
      rw [List.take_succ, List.getElem?_eq_getElem hlt]; rfl
    have hget : p.getD n 0 = p[n] := by
      simp [List.getD, List.getElem?_eq_getElem hlt]
    simp only [trimTrailing, hget]
    by_cases hsep : p[n] = 0x5C ∨ p[n] = 0x2F
    · have hs : isSeparator p[n] = true := by
        simp only [isSeparator, Bool.or_eq_true, beq_iff_eq]; exact hsep
      rw [htake, List.rdropWhile_concat_pos _ _ _ hs]
      have hex : ∃ c ∈ p.take n, isSeparator c = false := by
        obtain ⟨c, hc, hcs⟩ := h
        rw [htake, List.mem_append] at hc
        rcases hc with hc | hc
        · exact ⟨c, hc, hcs⟩
        · simp only [List.mem_singleton] at hc
          rw [hc, hs] at hcs
          simp at hcs
      have hpos : n + 1 > 1 := by
        obtain ⟨c, hc, _⟩ := hex
        cases n with
        | zero => simp at hc
        | succ m => omega
      rw [if_pos ⟨hpos, hsep⟩]
      exact ih (by omega) hex
    · have hs : ¬ isSeparator p[n] = true := by
        simp only [isSeparator, Bool.or_eq_true, beq_iff_eq]; exact hsep
      rw [if_neg (fun hc => hsep hc.2), htake, List.rdropWhile_concat_neg _ _ _ hs]

theorem isSeparator_eq_false_iff (c : Nat) : isSeparator c = false ↔ c ≠ 0x5C ∧ c ≠ 0x2F := by
  simp [isSeparator]

/-- The result of `normalizeDir` on a path that holds a code unit other than a
separator, in terms of the path without its trailing separators. -/
theorem normalizeDir_eq (p : List Nat) (h : ∃ c ∈ p, c ≠ 0x5C ∧ c ≠ 0x2F) :
    normalizeDir p
      = if [0x5C, 0x5C, 0x3F, 0x5C] <+: p then
          (p.rdropWhile isSeparator).take 4
            ++ ((p.rdropWhile isSeparator).drop 4).map fun c => if c = 0x2F then 0x5C else c
        else
          [0x5C, 0x5C, 0x3F, 0x5C]
            ++ (p.rdropWhile isSeparator).map fun c => if c = 0x2F then 0x5C else c := by
  have htrim : p.take (trimTrailing p p.length) = p.rdropWhile isSeparator := by
    have := take_trimTrailing p p.length (Nat.le_refl _) (by
      obtain ⟨c, hc, hcs⟩ := h
      exact ⟨c, by simpa using hc, (isSeparator_eq_false_iff c).mpr hcs⟩)
    simpa using this
  have h4 : cchDirPrefix = 4 := by decide
  unfold normalizeDir
  simp only [htrim, h4]
  by_cases hp : hasDirPrefix p = true
  · rw [if_pos hp, if_pos ((hasDirPrefix_iff p).mp hp)]
  · rw [if_neg hp, if_neg (fun h2 => hp ((hasDirPrefix_iff p).mpr h2))]
    rfl

/-! ## Proofs: timestamps and the attributes field -/

theorem wrapInt64_of_range (x : Int) (h1 : -2 ^ 63 ≤ x) (h2 : x < 2 ^ 63) : wrapInt64 x = x := by
  unfold wrapInt64
  have : (x + 2 ^ 63) % 2 ^ 64 = x + 2 ^ 63 := Int.emod_eq_of_lt (by omega) (by omega)
  rw [this]; omega

/-- The truncating quotient by 10000 lies within one unit of the exact quotient, on
the side of zero. -/
theorem tdiv_bounds (a : Int) :
    (0 ≤ a → 10000 * a.tdiv 10000 ≤ a ∧ a < 10000 * (a.tdiv 10000 + 1))
      ∧ (a ≤ 0 → a ≤ 10000 * a.tdiv 10000 ∧ 10000 * (a.tdiv 10000 - 1) < a) := by
  have pos : ∀ b : Int, 0 ≤ b → 10000 * b.tdiv 10000 ≤ b ∧ b < 10000 * (b.tdiv 10000 + 1) := by
    intro b hb
    have h1 := Int.tdiv_add_tmod b 10000
    have h2 := Int.tmod_nonneg 10000 hb
    have h3 := Int.tmod_lt_of_pos b (show (0 : Int) < 10000 by decide)
    omega
  refine ⟨pos a, fun h => ?_⟩
  have hq : a.tdiv 10000 = -((-a).tdiv 10000) := by
    rw [Int.neg_tdiv]; omega
  have := pos (-a) (by omega)
  omega

theorem leBytes_four_eq_sentinel (a : Nat) (h : a < 2 ^ 32) :
    leBytes 4 a = [0xFF, 0xFF, 0xFF, 0xFF] ↔ a = 0xFFFFFFFF := by
  simp only [leBytes, List.cons.injEq, and_true]
  omega

/-- The four bytes of the attributes field in the bytes a file entry appends. -/
theorem attributes_field (file : FILE_DIRECTORY_INFORMATION) (stream : PagedBinaryStream)
    (hinv : stream.Inv) (hname : file.FileNameLength ≤ 2 * file.FileName.length) :
    ((writeFileToStream file stream).copyAndReset.drop
        (stream.copyAndReset.length + (4 + file.FileNameLength))).take 4
      = leBytes 4 file.FileAttributes := by
  have hcopy := copyAndReset_writeToStream hinv (Item.file file)
  simp only [Item.writeToStream, Item.bytes] at hcopy
  have hl : (leBytes 4 file.FileNameLength
      ++ (wcharBytes file.FileName).take file.FileNameLength).length
        = 4 + file.FileNameLength := by
    rw [List.length_append, leBytes_length, List.length_take, wcharBytes_length]; omega
  rw [hcopy, ← List.drop_drop, List.drop_left]
  simp only [List.append_assoc]
  rw [← List.append_assoc (leBytes 4 file.FileNameLength),
    drop_append_of_length _ _ _ hl,
    take_append_of_length _ _ _ (leBytes_length 4 _)]

/-! ## Proofs: a call that pushes nothing -/

theorem pushed_false (dir : List Nat) (visited : List FILE_DIRECTORY_INFORMATION) :
    pushed false dir visited = [] := by
  simp [pushed]

theorem pushed_of_kept_nil (recurse : Bool) (dir : List Nat)
    (visited : List FILE_DIRECTORY_INFORMATION) (h : kept visited = []) :
    pushed recurse dir visited = [] := by
  simp [pushed, h]

/-- A call whose root listing pushes nothing makes the encoder calls of the root
and returns after one iteration. -/
theorem direnumSummary_no_push (os : OS) (fuel : Nat) (rootDir : List Nat)
    (stream : PagedBinaryStream) (recurse : Bool) (visited : List FILE_DIRECTORY_INFORMATION)
    (hl : listing os (normalizeDir rootDir) = some visited)
    (hp : pushed recurse (normalizeDir rootDir) visited = []) (hfuel : 2 ≤ fuel) :
    direnumSummary os fuel rootDir stream recurse
      = some ("", feed stream (dirItems (normalizeDir rootDir) visited)) := by
  obtain ⟨n, rfl⟩ : ∃ n, fuel = n + 1 + 1 := ⟨fuel - 2, by omega⟩
  simp only [direnumSummary, hl, hp, List.reverse_nil, traceLoop, Option.map_some',
    List.append_nil]

theorem walked_ne_nil (buffer : List FILE_DIRECTORY_INFORMATION) (h : buffer ≠ []) :
    walked buffer ≠ [] := by
  cases buffer with
  | nil => exact absurd rfl h
  | cons file next => simp [walked]

theorem listed_ne_nil (handle : List QueryResult) (buffer : List FILE_DIRECTORY_INFORMATION)
    (h : buffer ≠ []) : listed handle buffer ≠ [] := by
  cases handle with
  | nil => exact walked_ne_nil buffer h
  | cons r handle =>
    simp only [listed, ne_eq, List.append_eq_nil, not_and]
    intro hw
    exact absurd hw (walked_ne_nil buffer h)

theorem kept_eq_nil_of_dots (visited : List FILE_DIRECTORY_INFORMATION)
    (h : ∀ file ∈ visited, isDotEntry file = true) : kept visited = [] := by
  unfold kept
  rw [List.filter_eq_nil_iff]
  intro file hfile
  simp [h file hfile]

/-- The listing of a directory whose first query stores a chain. -/
theorem listing_of_stored (os : OS) (dir : List Nat) (r : QueryResult)
    (handle : List QueryResult) (hopen : os.CreateFileW dir = some (r :: handle))
    (hinfo : r.Information ≠ 0) (hstatus : r.status ≠ STATUS_NO_SUCH_FILE) :
    listing os dir = some (listed handle r.entries) := by
  simp only [listing, hopen, NtQueryDirectoryFileEx]
  rw [if_neg (by simp [hinfo, hstatus])]

/-- The listing loop of a directory that yields only `.` and `..` writes the
marker and nothing else, and pushes nothing. -/
theorem listLoop_dots (recurse : Bool) (dir : List Nat) (handle : List QueryResult)
    (buffer : List FILE_DIRECTORY_INFORMATION) (dirs : List (List Nat))
    (stream : PagedBinaryStream) (hb : buffer ≠ [])
    (hbd : ∀ file ∈ buffer, isDotEntry file = true)
    (hhd : ∀ q ∈ handle, ∀ file ∈ q.entries, isDotEntry file = true) :
    (listLoop recurse dir handle buffer
        { bWroteFullPath := false, dirs := dirs, stream := stream }).2.dirs = dirs
      ∧ (listLoop recurse dir handle buffer
        { bWroteFullPath := false, dirs := dirs, stream := stream }).2.stream
          = writeFullPathToStream dir stream := by
  have hk : kept (listed handle buffer) = [] := by
    apply kept_eq_nil_of_dots
    intro file hfile
    rcases listed_subset handle buffer file hfile with h | ⟨q, hq, h⟩
    · exact hbd file h
    · exact hhd q hq file h
  have := foldl_handleEntry_start recurse dir (listed handle buffer) dirs stream
  simp only [← listLoop_eq_foldl] at this
  obtain ⟨h1, h2⟩ := this
  constructor
  · rw [h1, pushed_of_kept_nil recurse dir _ hk, List.reverse_nil, List.nil_append]
  · rw [h2, dirItems, if_neg (listed_ne_nil handle buffer hb), hk]
    simp only [List.map_nil, feed, List.foldl_cons, List.foldl_nil, Item.writeToStream]

theorem len_writeFullPathToStream (fullPath : List Nat) (stream : PagedBinaryStream)
    (hinv : stream.Inv) :
    (writeFullPathToStream fullPath stream).len
      = stream.len + (8 + 2 * (strippedPath fullPath).length) := by
  have hi := inv_writeToStream hinv (Item.dir fullPath)
  have hc := copyAndReset_writeToStream hinv (Item.dir fullPath)
  simp only [Item.writeToStream] at hi hc
  rw [PagedBinaryStream.len_eq_length hi, PagedBinaryStream.len_eq_length hinv, hc]
  simp only [Item.bytes, List.length_append, leBytes_length, wcharBytes_length]
  omega

/-! ## Proofs: a listing cut short by a failing query -/

theorem kept_append (a b : List FILE_DIRECTORY_INFORMATION) :
    kept (a ++ b) = kept a ++ kept b := by
  simp [kept]

/-- One iteration of the outer loop on a directory that opens, in terms of what the
listing visits. -/
theorem mainLoop_step (os : OS) (recurse : Bool) (fuel : Nat) (st : State) (D : List Nat)
    (rest : List (List Nat)) (visited : List FILE_DIRECTORY_INFORMATION)
    (hdirs : st.dirs = D :: rest) (hl : listing os D = some visited) :
    (mainLoop os recurse (fuel + 1) st).map (fun x => (x.1, x.2.stream))
      = (mainLoop os recurse fuel
          { dirs := (pushed recurse D visited).reverse ++ rest,
            dirCount := (st.dirCount + 1) % 2 ^ 32,
            buffer := st.buffer,
            stream := feed st.stream (dirItems D visited) }).map
          (fun x => (x.1, x.2.stream)) := by
  have e1 := mainLoop_eq_absLoop os recurse (fuel + 1) st
  have e2 := mainLoop_eq_absLoop os recurse fuel
    { dirs := (pushed recurse D visited).reverse ++ rest,
      dirCount := (st.dirCount + 1) % 2 ^ 32,
      buffer := st.buffer,
      stream := feed st.stream (dirItems D visited) }
  simp only at e1 e2
  rw [e1, e2, hdirs]
  simp only [absLoop, hl]

/-! ## Proofs: the order of the markers -/

theorem markerPaths_append (a b : List Item) :
    markerPaths (a ++ b) = markerPaths a ++ markerPaths b := by
  simp [markerPaths, List.filterMap_append]

theorem markerPaths_files (files : List FILE_DIRECTORY_INFORMATION) :
    markerPaths (files.map Item.file) = [] := by
  induction files with
  | nil => rfl
  | cons f fs ih =>
    simp only [List.map_cons, markerPaths, List.filterMap_cons] at ih ⊢
    exact ih

theorem markerPaths_groupItems (groups : List (List Nat × List FILE_DIRECTORY_INFORMATION)) :
    markerPaths (groupItems groups) = groups.map Prod.fst := by
  induction groups with
  | nil => rfl
  | cons g gs ih =>
    rw [groupItems_cons, List.map_cons, ← ih]
    have h1 : markerPaths (Item.dir g.1 :: (g.2.map Item.file ++ groupItems gs))
        = g.1 :: markerPaths (g.2.map Item.file ++ groupItems gs) := by
      simp only [markerPaths, List.filterMap_cons]
    rw [List.cons_append, h1, markerPaths_append, markerPaths_files, List.nil_append]

theorem expectedGroups_map_fst (os : OS) (d : Nat) :
    ∀ dir, (expectedGroups os d dir).map Prod.fst = preorderReversed os d dir := by
  induction d with
  | zero => intro dir; rfl
  | succ d ih =>
    intro dir
    simp only [expectedGroups, preorderReversed]
    cases os.CreateFileW dir with
    | none => rfl
    | some handle =>
      simp only [List.map_cons, List.map_flatMap, ih]

theorem recordMarkers_map_record (items : List Item) :
    recordMarkers (items.map Item.record)
      = (markerPaths items).map fun fullPath => wcharBytes (strippedPath fullPath) := by
  induction items with
  | nil => rfl
  | cons it rest ih =>
    cases it with
    | dir fullPath =>
      simp only [List.map_cons, recordMarkers, markerPaths, Item.record,
        List.filterMap_cons] at ih ⊢
      rw [ih]
    | file f =>
      simp only [List.map_cons, recordMarkers, markerPaths, Item.record,
        List.filterMap_cons] at ih ⊢
      exact ih

/-! ## Proofs: every marker but the first is under an earlier one -/

/-- The groups of a trace are in the order of discovery: the directory of a group
was on the initial stack or was pushed for an entry of an earlier group.  A property
of paths that holds on the stack and passes to pushed directories holds for every
group. -/
theorem traceLoop_ordered (os : OS) (recurse : Bool) (Q : List Nat → Prop)
    (hstep : ∀ dir file, Q dir → Q (nextDir dir file)) (fuel : Nat) (dirs : List (List Nat))
    (items : List Item) (h : traceLoop os recurse fuel dirs = some items)
    (hQ : ∀ d ∈ dirs, Q d) :
    ∃ groups : List (List Nat × List FILE_DIRECTORY_INFORMATION),
      items = groupItems groups ∧ (∀ g ∈ groups, Q g.1) ∧
      ∀ pre g post, groups = pre ++ g :: post →
        g.1 ∈ dirs ∨ ∃ g' ∈ pre, ∃ file ∈ g'.2,
          isDirectory file = true ∧ g.1 = nextDir g'.1 file := by
  induction fuel generalizing dirs items with
  | zero => simp [traceLoop] at h
  | succ n ih =>
    cases dirs with
    | nil =>
      simp only [traceLoop, Option.some.injEq] at h
      subst h
      refine ⟨[], rfl, by simp, ?_⟩
      intro pre g post hsplit
      simp at hsplit
    | cons dir dirs =>
      simp only [traceLoop] at h
      cases hl : listing os dir with
      | none =>
        rw [hl] at h
        simp only at h
        obtain ⟨groups, hg1, hg2, hg3⟩ :=
          ih dirs items h (fun d hd => hQ d (List.mem_cons_of_mem _ hd))
        refine ⟨groups, hg1, hg2, fun pre g post hsplit => ?_⟩
        rcases hg3 pre g post hsplit with h1 | h1
        · exact Or.inl (List.mem_cons_of_mem _ h1)
        · exact Or.inr h1
      | some visited =>
        rw [hl] at h
        simp only [Option.map_eq_some'] at h
        obtain ⟨items', hitems', rfl⟩ := h
        have hQdir : Q dir := hQ dir (List.mem_cons_self _ _)
        have hQ' : ∀ d ∈ (pushed recurse dir visited).reverse ++ dirs, Q d := by
          intro d hd
          rcases List.mem_append.mp hd with h1 | h1
          · obtain ⟨file, _, _, _, rfl⟩ := mem_pushed (List.mem_reverse.mp h1)
            exact hstep dir file hQdir
          · exact hQ d (List.mem_cons_of_mem _ h1)
        obtain ⟨groups, hg1, hg2, hg3⟩ := ih _ items' hitems' hQ'
        -- a later group justified by the new stack
        have later : ∀ pre g post, groups = pre ++ g :: post →
            (g.1 ∈ pushed recurse dir visited ∨ g.1 ∈ dirs) ∨ ∃ g' ∈ pre, ∃ file ∈ g'.2,
              isDirectory file = true ∧ g.1 = nextDir g'.1 file := by
          intro pre g post hsplit
          rcases hg3 pre g post hsplit with h1 | h1
          · rcases List.mem_append.mp h1 with h2 | h2
            · exact Or.inl (Or.inl (List.mem_reverse.mp h2))
            · exact Or.inl (Or.inr h2)
          · exact Or.inr h1
        by_cases hv : visited = []
        · refine ⟨groups, ?_, hg2, fun pre g post hsplit => ?_⟩
          · rw [dirItems, if_pos hv, List.nil_append, hg1]
          · rcases later pre g post hsplit with (h1 | h1) | h1
            · rw [hv] at h1
              simp [pushed, kept] at h1
            · exact Or.inl (List.mem_cons_of_mem _ h1)
            · exact Or.inr h1
        · refine ⟨(dir, kept visited) :: groups, ?_, ?_, fun pre g post hsplit => ?_⟩
          · rw [groupItems_cons, dirItems, if_neg hv, hg1]
          · intro g hg
            rcases List.mem_cons.mp hg with rfl | hg
            · exact hQdir
            · exact hg2 g hg
          · cases pre with
            | nil =>
              simp only [List.nil_append, List.cons.injEq] at hsplit
              rw [← hsplit.1]
              exact Or.inl (List.mem_cons_self _ _)
            | cons g0 pre' =>
              simp only [List.cons_append, List.cons.injEq] at hsplit
              obtain ⟨hg0, hrest⟩ := hsplit
              rcases later pre' g post hrest with (h1 | h1) | ⟨g', hg', h1⟩
              · obtain ⟨file, hk, hd, _, hn⟩ := mem_pushed h1
                refine Or.inr ⟨g0, List.mem_cons_self _ _, file, ?_, ?_, ?_⟩
                · rw [← hg0]; exact hk
                · simp only [isDirectory, decide_eq_true_eq]; exact hd
                · rw [← hg0]; exact hn
              · exact Or.inl (List.mem_cons_of_mem _ h1)
              · exact Or.inr ⟨g', List.mem_cons_of_mem _ hg', h1⟩

theorem prefix_nextDir (dir : List Nat) (file : FILE_DIRECTORY_INFORMATION)
    (h : [0x5C, 0x5C, 0x3F, 0x5C] <+: dir) : [0x5C, 0x5C, 0x3F, 0x5C] <+: nextDir dir file := by
  obtain ⟨t, rfl⟩ := h
  exact ⟨t ++ [0x5C] ++ file.FileName.take (file.FileNameLength / 2), by simp [nextDir]⟩

theorem strippedPath_append (dir rest : List Nat) (h : [0x5C, 0x5C, 0x3F, 0x5C] <+: dir) :
    strippedPath (dir ++ rest) = strippedPath dir ++ rest := by
  have h2 : [0x5C, 0x5C, 0x3F, 0x5C] <+: dir ++ rest := by
    obtain ⟨t, rfl⟩ := h
    exact ⟨t ++ rest, by simp⟩
  rw [strippedPath_eq, strippedPath_eq, if_pos h, if_pos h2]
  obtain ⟨t, rfl⟩ := h
  simp

/-- The groups of a whole call, in the order of discovery: the first is the root's,
every other one is under an earlier one. -/
theorem direnumSummary_ordered (os : OS) (fuel : Nat) (rootDir : List Nat)
    (stream : PagedBinaryStream) (recurse : Bool) (message : String) (out : PagedBinaryStream)
    (Q : List Nat → Prop) (hstep : ∀ dir file, Q dir → Q (nextDir dir file))
    (hQ : Q (normalizeDir rootDir))
    (h : direnumSummary os fuel rootDir stream recurse = some (message, out)) :
    ∃ groups : List (List Nat × List FILE_DIRECTORY_INFORMATION),
      out = feed stream (groupItems groups) ∧ (∀ g ∈ groups, Q g.1) ∧
      ∀ pre g post, groups = pre ++ g :: post →
        (pre = [] ∧ g.1 = normalizeDir rootDir)
        ∨ ∃ g' ∈ pre, ∃ file ∈ g'.2, isDirectory file = true ∧ g.1 = nextDir g'.1 file := by
  cases fuel with
  | zero => simp [direnumSummary] at h
  | succ n =>
    simp only [direnumSummary] at h
    cases hl : listing os (normalizeDir rootDir) with
    | none =>
      rw [hl] at h
      simp only [Option.some.injEq, Prod.mk.injEq] at h
      refine ⟨[], by rw [← h.2]; rfl, by simp, ?_⟩
      intro pre g post hsplit
      simp at hsplit
    | some visited =>
      rw [hl] at h
      simp only [Option.map_eq_some', Prod.mk.injEq] at h
      obtain ⟨items, hitems, _, hout⟩ := h
      have hQ' : ∀ d ∈ (pushed recurse (normalizeDir rootDir) visited).reverse, Q d := by
        intro d hd
        obtain ⟨file, _, _, _, rfl⟩ := mem_pushed (List.mem_reverse.mp hd)
        exact hstep _ file hQ
      obtain ⟨groups, hg1, hg2, hg3⟩ := traceLoop_ordered os recurse Q hstep n _ items hitems hQ'
      by_cases hv : visited = []
      · refine ⟨groups, ?_, hg2, fun pre g post hsplit => ?_⟩
        · rw [← hout, dirItems, if_pos hv, List.nil_append, hg1]
        · rcases hg3 pre g post hsplit with h1 | h1
          · rw [hv] at h1
            simp [pushed, kept] at h1
          · exact Or.inr h1
      · refine ⟨(normalizeDir rootDir, kept visited) :: groups, ?_, ?_,
          fun pre g post hsplit => ?_⟩
        · rw [← hout, groupItems_cons, dirItems, if_neg hv, hg1]
        · intro g hg
          rcases List.mem_cons.mp hg with rfl | hg
          · exact hQ
          · exact hg2 g hg
        · cases pre with
          | nil =>
            simp only [List.nil_append, List.cons.injEq] at hsplit
            rw [← hsplit.1]
            exact Or.inl ⟨rfl, rfl⟩
          | cons g0 pre' =>
            simp only [List.cons_append, List.cons.injEq] at hsplit
            obtain ⟨hg0, hrest⟩ := hsplit
            rcases hg3 pre' g post hrest with h1 | ⟨g', hg', h1⟩
            · obtain ⟨file, hk, hd, _, hn⟩ := mem_pushed (List.mem_reverse.mp h1)
              refine Or.inr ⟨g0, List.mem_cons_self _ _, file, ?_, ?_, ?_⟩
              · rw [← hg0]; exact hk
              · simp only [isDirectory, decide_eq_true_eq]; exact hd
              · rw [← hg0]; exact hn
            · exact Or.inr ⟨g', List.mem_cons_of_mem _ hg', h1⟩

theorem handleEntry_false_dirs (dir : List Nat) (file : FILE_DIRECTORY_INFORMATION)
    (v : ListVars) : (handleEntry false dir file v).dirs = v.dirs := by
  unfold handleEntry
  by_cases hw : (!v.bWroteFullPath) = true <;> by_cases hd : isDotEntry file = true <;>
    simp [hw, hd]

theorem listLoop_false_dirs (dir : List Nat) (handle : List QueryResult)
    (buffer : List FILE_DIRECTORY_INFORMATION) (v : ListVars) :
    (listLoop false dir handle buffer v).2.dirs = v.dirs := by
  rw [listLoop_eq_foldl]
  generalize listed handle buffer = visited
  induction visited generalizing v with
  | nil => rfl
  | cons file rest ih => rw [List.foldl_cons, ih, handleEntry_false_dirs]

/-! ## Proofs: the markers follow the stack -/

theorem traceLoop_segment_of (os : OS) (recurse : Bool) (d : Nat) (P : List Nat → Prop)
    (single : ∀ dir, P dir → ∀ fuel rest,
      traceLoop os recurse (fuel + subtreeFuel os recurse d dir) (dir :: rest)
        = (traceLoop os recurse fuel rest).map fun items => subtreeItems os recurse d dir ++ items)
    (cs : List (List Nat)) (hcs : ∀ c ∈ cs, P c)
    (fuel : Nat) (rest : List (List Nat)) :
    traceLoop os recurse (fuel + (cs.map (subtreeFuel os recurse d)).sum) (cs ++ rest)
      = (traceLoop os recurse fuel rest).map
          fun items => cs.flatMap (subtreeItems os recurse d) ++ items := by
  induction cs generalizing fuel with
  | nil =>
    simp only [List.map_nil, List.sum_nil, Nat.add_zero, List.nil_append, List.flatMap_nil]
    cases traceLoop os recurse fuel rest <;> rfl
  | cons c cs ih =>
    have hc := hcs c (List.mem_cons_self _ _)
    have hrest := fun x hx => hcs x (List.mem_cons_of_mem _ hx)
    have e : fuel + ((c :: cs).map (subtreeFuel os recurse d)).sum
        = (fuel + (cs.map (subtreeFuel os recurse d)).sum) + subtreeFuel os recurse d c := by
      simp only [List.map_cons, List.sum_cons]; omega
    rw [e, List.cons_append, single c hc, ih hrest, Option.map_map]
    congr 1
    funext items
    simp only [Function.comp, List.flatMap_cons, List.append_assoc]

/-- The depth-first property of the stack on the tree the traversal finds. -/
theorem traceLoop_yields (os : OS) (d : Nat) :
    ∀ dir, os.yields d dir = true → ∀ fuel rest,
      traceLoop os true (fuel + subtreeFuel os true d dir) (dir :: rest)
        = (traceLoop os true fuel rest).map
            fun items => subtreeItems os true d dir ++ items := by
  induction d with
  | zero =>
    intro dir hdir
    simp [OS.yields] at hdir
  | succ d ih =>
    intro dir hdir fuel rest
    cases hl : listing os dir with
    | none => simp [OS.yields, hl] at hdir
    | some visited =>
      simp only [OS.yields, hl, Bool.and_eq_true, List.all_eq_true] at hdir
      have hchildren : ∀ c ∈ (pushed true dir visited).reverse, os.yields d c = true :=
        fun c hc => hdir.2 c (List.mem_reverse.mp hc)
      have hseg := traceLoop_segment_of os true d (fun c => os.yields d c = true) ih _
        hchildren fuel rest
      rw [List.map_reverse, List.sum_reverse] at hseg
      have e : fuel + subtreeFuel os true (d + 1) dir
          = (fuel + ((pushed true dir visited).map (subtreeFuel os true d)).sum) + 1 := by
        simp only [subtreeFuel, hl]; omega
      rw [e]
      simp only [traceLoop, hl, hseg, Option.map_map, subtreeItems]
      congr 1
      funext items
      simp only [Function.comp, List.append_assoc]

/-- A call on a tree in which every directory opens and yields an entry returns the
stream fed with the items of the tree. -/
theorem direnum_yields (os : OS) (fuel d : Nat) (rootDir : List Nat)
    (stream : PagedBinaryStream)
    (hyields : os.yields d (normalizeDir rootDir) = true)
    (henough : traversalFuel os true d rootDir ≤ fuel) (hfuel : fuel ≤ 2 ^ 32) :
    direnum_NtQueryDirectory_toStream os fuel rootDir stream true
      = some ("", feed stream (subtreeItems os true d (normalizeDir rootDir))) := by
  have hopen : os.CreateFileW (normalizeDir rootDir) ≠ none := by
    intro hnone
    cases d with
    | zero => simp [OS.yields] at hyields
    | succ d => simp [OS.yields, (listing_eq_none_iff _ _).mpr hnone] at hyields
  rw [direnum_eq_summary os fuel rootDir stream true hfuel,
    direnumSummary_eq_trace os fuel rootDir stream true hopen]
  unfold traversalFuel at henough
  obtain ⟨k, rfl⟩ : ∃ k, fuel = (k + 1) + subtreeFuel os true d (normalizeDir rootDir) :=
    ⟨fuel - subtreeFuel os true d (normalizeDir rootDir) - 1, by omega⟩
  rw [traceLoop_yields os d _ hyields (k + 1) []]
  simp only [traceLoop, Option.map_some', List.append_nil]

/-! ## Proofs: the bytes of the error message -/

theorem stringBytes_append (s t : String) :
    stringBytes (s ++ t) = stringBytes s ++ stringBytes t := by
  simp only [stringBytes, String.data_append, List.flatMap_append]

/-- When the conversion of the operating system gives the UTF-8 of `wstr`, so does
`utf8_encode`. -/
theorem stringBytes_utf8_encode (os : OS) (wstr : List Nat)
    (hconv : stringBytes (os.WideCharToMultiByte wstr) = utf8OfUtf16 wstr) :
    stringBytes (utf8_encode os wstr) = utf8OfUtf16 wstr := by
  unfold utf8_encode
  cases wstr with
  | nil => simp [stringBytes, utf8OfUtf16, scalarsAfter]
  | cons u rest => simpa using hconv

/-! ## Proofs: the loop returns -/

/-- C1: for every sequence of `write` calls with byte strings `b1..bn` on a newly
constructed stream, `copyAndReset` stores exactly `b1 ++ ... ++ bn`, and the number
of bytes stored is `len()`. -/
theorem C1_copyAndReset_is_concatenation (bs : List (List Nat)) :
    (bs.foldl PagedBinaryStream.write PagedBinaryStream.new).copyAndReset = bs.flatten
      ∧ (bs.foldl PagedBinaryStream.write PagedBinaryStream.new).copyAndReset.length
          = (bs.foldl PagedBinaryStream.write PagedBinaryStream.new).len := by
  constructor
  · rw [PagedBinaryStream.copyAndReset_foldl_write _ PagedBinaryStream.inv_new]
    simp [PagedBinaryStream.copyAndReset, PagedBinaryStream.new, PagedBinaryStream.pPos]
  · exact (PagedBinaryStream.len_eq_length
      (PagedBinaryStream.inv_foldl_write _ PagedBinaryStream.inv_new bs)).symm

/-- C2: after any sequence of `write` calls on a newly constructed stream, `len()`
is the sum of the lengths written, and it is computed as the number of full pages
times `0x10000` plus the offset in the current page. -/
theorem C2_len_is_sum_of_lengths (bs : List (List Nat)) :
    (bs.foldl PagedBinaryStream.write PagedBinaryStream.new).len = (bs.map List.length).sum
      ∧ (bs.foldl PagedBinaryStream.write PagedBinaryStream.new).len
          = (bs.foldl PagedBinaryStream.write PagedBinaryStream.new).fullBuffers.length * 0x10000
            + (bs.foldl PagedBinaryStream.write PagedBinaryStream.new).pPos := by
  constructor
  · rw [PagedBinaryStream.len_eq_length
      (PagedBinaryStream.inv_foldl_write _ PagedBinaryStream.inv_new bs),
      PagedBinaryStream.copyAndReset_foldl_write _ PagedBinaryStream.inv_new]
    simp [PagedBinaryStream.copyAndReset, PagedBinaryStream.new, PagedBinaryStream.pPos,
      List.length_flatten]
  · rfl

/-- C3: round trip.  For every sequence of items fed to the encoders in order
(markers through `writeFullPathToStream`, file entries through `writeFileToStream`),
every file entry having attributes other than 0xFFFFFFFF (and all length and
attributes values fitting their 32-bit fields): whatever the stream holds already,
hence wherever its page boundaries fall, the encoders append the same bytes, and the
sequential decoder recovers from them exactly the sequence of records of the items
(kind, name or path bytes, attributes and the three 8-byte fields); in particular it
recovers it from the bytes `copyAndReset` stores for a newly constructed stream. -/
theorem C3_encode_decode_round_trip (items : List Item) (h : ∀ it ∈ items, it.Encodable)
    (stream : PagedBinaryStream) (hinv : stream.Inv) :
    (feed stream items).copyAndReset = stream.copyAndReset ++ items.flatMap Item.bytes
      ∧ decode (items.flatMap Item.bytes) = some (items.map Item.record)
      ∧ decode (feed PagedBinaryStream.new items).copyAndReset
          = some (items.map Item.record) := by
  refine ⟨copyAndReset_feed hinv items, decode_bytes items h, ?_⟩
  rw [copyAndReset_feed PagedBinaryStream.inv_new, copyAndReset_new, List.nil_append]
  exact decode_bytes items h

/-- Witness for C3: a marker and two file entries. -/
theorem C3_encode_decode_round_trip_witness :
    (∀ it ∈ [Item.dir (wstr "\\\\?\\C:\\t"), Item.file (sampleEntry "a.txt" 0x20 5 0),
        Item.file (sampleEntry "sub" 0x10 0 0)], it.Encodable) ∧
    PagedBinaryStream.new.Inv ∧
    decode (feed PagedBinaryStream.new [Item.dir (wstr "\\\\?\\C:\\t"),
        Item.file (sampleEntry "a.txt" 0x20 5 0), Item.file (sampleEntry "sub" 0x10 0 0)]).copyAndReset
      = some ([Item.dir (wstr "\\\\?\\C:\\t"), Item.file (sampleEntry "a.txt" 0x20 5 0),
        Item.file (sampleEntry "sub" 0x10 0 0)].map Item.record) :=
  ⟨by decide, PagedBinaryStream.inv_new,
    (C3_encode_decode_round_trip _ (by decide) PagedBinaryStream.new
      PagedBinaryStream.inv_new).2.2⟩

/-- C4: for every path `p`, `writeFullPathToStream` appends exactly the four
little-endian bytes of the byte length `2 * n` of `q`, the `n` code units of `q`
(two bytes each, no terminator) and the bytes FF FF FF FF, where `q` is `p` without
a leading `\\?\` and `n` its length; the record is `8 + 2 * n` bytes long. -/
theorem C4_writeFullPathToStream_record (p : List Nat) (stream : PagedBinaryStream)
    (h : stream.Inv) :
    let q := if [0x5C, 0x5C, 0x3F, 0x5C] <+: p then p.drop 4 else p
    let n := q.length
    let record :=
      [2 * n % 256, 2 * n / 256 % 256, 2 * n / 65536 % 256, 2 * n / 16777216 % 256]
        ++ q.flatMap (fun c => [c % 256, c / 256 % 256]) ++ [0xFF, 0xFF, 0xFF, 0xFF]
    (writeFullPathToStream p stream).copyAndReset = stream.copyAndReset ++ record
      ∧ record.length = 8 + 2 * n
      ∧ (writeFullPathToStream p stream).len = stream.len + (8 + 2 * n) := by
  intro q n record
  have hq : strippedPath p = q := strippedPath_eq p
  have hrec : (Item.dir p).bytes = record := by
    simp only [Item.bytes, hq, FILE_ATTRIBUTE_SPECIAL_FULLPATH_MASK]
    have e1 : leBytes 4 (2 * q.length)
        = [2 * n % 256, 2 * n / 256 % 256, 2 * n / 65536 % 256, 2 * n / 16777216 % 256] := by
      simp only [leBytes, n, List.cons.injEq, and_true, true_and]
      omega
    have e2 : wcharBytes q = q.flatMap (fun c => [c % 256, c / 256 % 256]) := rfl
    have e3 : leBytes 4 4294967295 = [0xFF, 0xFF, 0xFF, 0xFF] := by decide
    rw [e1, e2, e3]
  have hlen : record.length = 8 + 2 * n := by
    rw [← hrec]
    simp only [Item.bytes, hq, List.length_append, leBytes_length, wcharBytes_length]
    omega
  have hcopy := copyAndReset_writeToStream h (Item.dir p)
  simp only [Item.writeToStream, hrec] at hcopy
  refine ⟨hcopy, hlen, ?_⟩
  have hinv := inv_writeToStream h (Item.dir p)
  simp only [Item.writeToStream] at hinv
  rw [PagedBinaryStream.len_eq_length hinv, PagedBinaryStream.len_eq_length h, hcopy,
    List.length_append, hlen]

/-- Witness for C4: the marker of `\\?\C:\t` on a new stream is `C:\t`. -/
theorem C4_writeFullPathToStream_record_witness :
    PagedBinaryStream.new.Inv ∧
    (writeFullPathToStream (wstr "\\\\?\\C:\\t") PagedBinaryStream.new).copyAndReset
      = [8, 0, 0, 0, 0x43, 0, 0x3A, 0, 0x5C, 0, 0x74, 0, 0xFF, 0xFF, 0xFF, 0xFF] :=
  ⟨PagedBinaryStream.inv_new,
    (C4_writeFullPathToStream_record (wstr "\\\\?\\C:\\t") PagedBinaryStream.new
      PagedBinaryStream.inv_new).1.trans (by decide)⟩

/-- C5 (amended): for every raw entry whose name holds its `FileNameLength` bytes,
`writeFileToStream` appends exactly `FileNameLength + 32` bytes in the fixed order
4-byte `FileNameLength`, the name bytes, 4-byte `FileAttributes`, 8-byte size,
8-byte creation time, 8-byte last-write time; what it writes does not depend on
`LastAccessTime`, `ChangeTime`, `AllocationSize`, `FileIndex` or `NextEntryOffset`. -/
theorem C5_writeFileToStream_record (file : FILE_DIRECTORY_INFORMATION)
    (stream : PagedBinaryStream) (h : stream.Inv)
    (hname : file.FileNameLength ≤ 2 * file.FileName.length) :
    let nameLength := leBytes 4 file.FileNameLength
    let name := (wcharBytes file.FileName).take file.FileNameLength
    let attributes := leBytes 4 file.FileAttributes
    let size := doubleBytes (encodedLength file)
    let creationTime := doubleBytes (filetimeToUnixTimestampInMs file.CreationTime)
    let lastWriteTime := doubleBytes (filetimeToUnixTimestampInMs file.LastWriteTime)
    (writeFileToStream file stream).copyAndReset
        = stream.copyAndReset ++ (nameLength ++ name ++ attributes ++ size ++ creationTime
            ++ lastWriteTime)
      ∧ nameLength.length = 4 ∧ name.length = file.FileNameLength ∧ attributes.length = 4
      ∧ size.length = 8 ∧ creationTime.length = 8 ∧ lastWriteTime.length = 8
      ∧ (writeFileToStream file stream).len = stream.len + (file.FileNameLength + 32)
      ∧ ∀ (lastAccessTime changeTime allocationSize : Int) (fileIndex nextEntryOffset : Nat),
          writeFileToStream
              { file with
                LastAccessTime := lastAccessTime, ChangeTime := changeTime,
                AllocationSize := allocationSize, FileIndex := fileIndex,
                NextEntryOffset := nextEntryOffset } stream = writeFileToStream file stream := by
  intro nameLength name attributes size creationTime lastWriteTime
  have hcopy := copyAndReset_writeToStream h (Item.file file)
  simp only [Item.writeToStream, Item.bytes] at hcopy
  have hn : name.length = file.FileNameLength := by
    simp only [name, List.length_take, wcharBytes_length]; omega
  have hinv := inv_writeToStream h (Item.file file)
  simp only [Item.writeToStream] at hinv
  refine ⟨hcopy, leBytes_length _ _, hn, leBytes_length _ _, doubleBytes_length _,
    doubleBytes_length _, doubleBytes_length _, ?_, ?_⟩
  · rw [PagedBinaryStream.len_eq_length hinv, PagedBinaryStream.len_eq_length h, hcopy]
    have hn2 : ((wcharBytes file.FileName).take file.FileNameLength).length
        = file.FileNameLength := hn
    simp only [List.length_append, leBytes_length, doubleBytes_length, hn2]
    ring
  · intro _ _ _ _ _
    rfl

/-- C5 as stated fails: the record written for `a.txt` (`FileNameLength` = 10) on a
new stream is 42 bytes long, which is `FileNameLength + 32` and not
`FileNameLength + 36`. -/
theorem C5_record_length_is_not_plus_36 :
    (sampleEntry "a.txt" 0x20 5 0).FileNameLength = 10
      ∧ (writeFileToStream (sampleEntry "a.txt" 0x20 5 0) PagedBinaryStream.new).copyAndReset.length
          = 42
      ∧ ¬ ((writeFileToStream (sampleEntry "a.txt" 0x20 5 0) PagedBinaryStream.new).copyAndReset.length
          = PagedBinaryStream.new.copyAndReset.length
            + ((sampleEntry "a.txt" 0x20 5 0).FileNameLength + 36)) := by
  decide

/-- Witness for C5: the record of a 5-byte file `a.txt` on a new stream. -/
theorem C5_writeFileToStream_record_witness :
    PagedBinaryStream.new.Inv ∧
    (sampleEntry "a.txt" 0x20 5 0).FileNameLength ≤ 2 * (sampleEntry "a.txt" 0x20 5 0).FileName.length ∧
    (writeFileToStream (sampleEntry "a.txt" 0x20 5 0) PagedBinaryStream.new).len = 42 :=
  ⟨PagedBinaryStream.inv_new, by decide,
    (C5_writeFileToStream_record (sampleEntry "a.txt" 0x20 5 0) PagedBinaryStream.new
      PagedBinaryStream.inv_new (by decide)).2.2.2.2.2.2.2.1.trans (by decide)⟩

/-- C6 (the code departs from it): for a file whose `EndOfFile` is 5 the integer
converted to the `double` size is 4, and the eight size bytes written are those of
4.0 (`0x4010000000000000`), not those of 5.0 (`0x4014000000000000`); for an empty
file the size written is -1.0. -/
theorem C6_size_written_is_EndOfFile_minus_one :
    (sampleEntry "a.txt" 0x20 5 0).EndOfFile = 5
      ∧ encodedLength (sampleEntry "a.txt" 0x20 5 0) = 4
      ∧ (((writeFileToStream (sampleEntry "a.txt" 0x20 5 0) PagedBinaryStream.new).copyAndReset).drop
            18).take 8 = [0, 0, 0, 0, 0, 0, 0x10, 0x40]
      ∧ doubleBytes 5 = [0, 0, 0, 0, 0, 0, 0x14, 0x40]
      ∧ encodedLength (sampleEntry "empty" 0x20 0 0) = -1
      ∧ (((writeFileToStream (sampleEntry "empty" 0x20 0 0) PagedBinaryStream.new).copyAndReset).drop
            18).take 8 = [0, 0, 0, 0, 0, 0, 0xF0, 0xBF] := by
  decide

/-- C7: in a call whose outer loop runs fewer than `2^32` iterations, a non-empty
error message is returned if and only if opening the normalized root fails.  When
it fails the call returns (one iteration is enough) the message
`failed to open directory: ` followed by what `utf8_encode` gives for the normalized
root, with the stream untouched; when the conversion of the operating system gives
the UTF-8 of the normalized root, the bytes of the message are the ASCII bytes of
`failed to open directory: ` followed by the UTF-8 of the normalized root.  When the
root opens the message is empty whatever happens to the directories opened later. -/
theorem C7_error_iff_root_open_fails (os : OS) (fuel : Nat) (rootDir : List Nat)
    (stream : PagedBinaryStream) (recurse : Bool) (hfuel : fuel ≤ 2 ^ 32) :
    (os.CreateFileW (normalizeDir rootDir) = none → 0 < fuel →
        direnum_NtQueryDirectory_toStream os fuel rootDir stream recurse
          = some ("failed to open directory: " ++ utf8_encode os (normalizeDir rootDir), stream)
        ∧ (stringBytes (os.WideCharToMultiByte (normalizeDir rootDir))
              = utf8OfUtf16 (normalizeDir rootDir) →
            stringBytes ("failed to open directory: " ++ utf8_encode os (normalizeDir rootDir))
              = [0x66, 0x61, 0x69, 0x6C, 0x65, 0x64, 0x20, 0x74, 0x6F, 0x20, 0x6F, 0x70, 0x65,
                  0x6E, 0x20, 0x64, 0x69, 0x72, 0x65, 0x63, 0x74, 0x6F, 0x72, 0x79, 0x3A, 0x20]
                ++ utf8OfUtf16 (normalizeDir rootDir)))
    ∧ ∀ message out,
        direnum_NtQueryDirectory_toStream os fuel rootDir stream recurse = some (message, out) →
          ((message ≠ "" ↔ os.CreateFileW (normalizeDir rootDir) = none)
            ∧ (message ≠ "" →
                message = "failed to open directory: " ++ utf8_encode os (normalizeDir rootDir)
                  ∧ out = stream)) := by
  rw [direnum_eq_summary os fuel rootDir stream recurse hfuel]
  constructor
  · intro hfail hpos
    obtain ⟨n, rfl⟩ : ∃ n, fuel = n + 1 := ⟨fuel - 1, by omega⟩
    refine ⟨?_, fun hconv => ?_⟩
    · simp only [direnumSummary, (listing_eq_none_iff _ _).mpr hfail]
    · rw [stringBytes_append, stringBytes_utf8_encode os _ hconv]
      rfl
  · intro message out h
    rcases direnumSummary_result os fuel rootDir stream recurse message out h with
      ⟨h1, h2, h3⟩ | ⟨h1, h2, _⟩
    · refine ⟨⟨fun _ => h1, fun _ => ?_⟩, fun _ => ⟨h2, h3⟩⟩
      rw [h2]
      exact message_ne_empty _
    · refine ⟨⟨fun hm => absurd h2 hm, fun hf => absurd hf h1⟩, fun hm => absurd h2 hm⟩

/-- Witness for C7: a root that does not exist, on the sample tree. -/
theorem C7_error_iff_root_open_fails_witness :
    10 ≤ 2 ^ 32 ∧ sampleOS.CreateFileW (normalizeDir (wstr "C:/x")) = none ∧ 0 < 10
    ∧ stringBytes (sampleOS.WideCharToMultiByte (normalizeDir (wstr "C:/x")))
        = utf8OfUtf16 (normalizeDir (wstr "C:/x"))
    ∧ utf8OfUtf16 (normalizeDir (wstr "C:/x")) = [0x5C, 0x5C, 0x3F, 0x5C, 0x43, 0x3A, 0x5C, 0x78]
    ∧ direnum_NtQueryDirectory_toStream sampleOS 10 (wstr "C:/x") PagedBinaryStream.new true
        = some ("failed to open directory: " ++ utf8_encode sampleOS (normalizeDir (wstr "C:/x")),
            PagedBinaryStream.new)
    ∧ stringBytes
          ("failed to open directory: " ++ utf8_encode sampleOS (normalizeDir (wstr "C:/x")))
        = [0x66, 0x61, 0x69, 0x6C, 0x65, 0x64, 0x20, 0x74, 0x6F, 0x20, 0x6F, 0x70, 0x65,
            0x6E, 0x20, 0x64, 0x69, 0x72, 0x65, 0x63, 0x74, 0x6F, 0x72, 0x79, 0x3A, 0x20]
          ++ utf8OfUtf16 (normalizeDir (wstr "C:/x")) :=
  ⟨by decide, by decide, by decide, by decide, by decide,
    ((C7_error_iff_root_open_fails sampleOS 10 (wstr "C:/x") PagedBinaryStream.new true
      (by decide)).1 (by decide) (by decide)).1,
    ((C7_error_iff_root_open_fails sampleOS 10 (wstr "C:/x") PagedBinaryStream.new true
      (by decide)).1 (by decide) (by decide)).2 (by decide)⟩

/-- C8: let `D` be a directory other than the root whose open fails, and compare
with the same file system in which `D` opens but yields no entries (its first query
stores nothing, or its queries store only `.` and `..`).  In a call whose outer loop
runs fewer than `2^32` iterations both return or neither does, with the same
message, and the encoder calls with `D` unopenable are those of the other file
system, in the same order, less the markers of `D`; when the first query on `D`
stores nothing the two results are equal.  The output is a sequence of groups of a
marker and file records in which no group is for `D` and every group is for the
root or for a directory pushed for an entry of another group of the output: nothing
is reached through `D`. -/
theorem C8_unopenable_directory_is_skipped (os : OS) (fuel : Nat) (rootDir D : List Nat)
    (stream : PagedBinaryStream) (recurse : Bool) (handle : List QueryResult)
    (hfuel : fuel ≤ 2 ^ 32) (hD : D ≠ normalizeDir rootDir) (hfail : os.CreateFileW D = none)
    (hyield : yieldsNoEntries handle) :
    (∃ r : Option (String × List Item),
      direnum_NtQueryDirectory_toStream (os.withDir D (some handle)) fuel rootDir stream recurse
        = r.map (fun x => (x.1, feed stream x.2))
      ∧ direnum_NtQueryDirectory_toStream os fuel rootDir stream recurse
        = r.map (fun x => (x.1, feed stream (x.2.filter (notMarkerOf D)))))
    ∧ ((NtQueryDirectoryFileEx handle).1.Information = 0 →
        direnum_NtQueryDirectory_toStream os fuel rootDir stream recurse
          = direnum_NtQueryDirectory_toStream (os.withDir D (some handle)) fuel rootDir stream
              recurse)
    ∧ ∀ message out,
        direnum_NtQueryDirectory_toStream os fuel rootDir stream recurse = some (message, out) →
        ∃ groups : List (List Nat × List FILE_DIRECTORY_INFORMATION),
          out = feed stream (groupItems groups) ∧
          ∀ g ∈ groups, g.1 ≠ D ∧
            (g.1 = normalizeDir rootDir ∨ ∃ g' ∈ groups, ∃ file ∈ g'.2,
              file.FileAttributes &&& FILE_ATTRIBUTE_DIRECTORY ≠ 0 ∧ g.1 = nextDir g'.1 file) := by
  rw [direnum_eq_summary os fuel rootDir stream recurse hfuel,
    direnum_eq_summary _ fuel rootDir stream recurse hfuel]
  refine ⟨direnumSummary_withDir_filter os recurse D handle hfail hyield fuel rootDir stream hD,
    fun hempty =>
      (direnumSummary_withDir os recurse D handle hfail hempty fuel rootDir stream hD).symm, ?_⟩
  intro message out h
  rcases direnumSummary_result os fuel rootDir stream recurse message out h with
    ⟨_, _, h3⟩ | ⟨_, _, groups, hout, hg⟩
  · exact ⟨[], by rw [h3]; rfl, by simp⟩
  · refine ⟨groups, hout, fun g hgm => ⟨?_, ?_⟩⟩
    · obtain ⟨⟨hd, hopen, _⟩, _⟩ := hg g hgm
      intro heq
      rw [heq, hfail] at hopen
      simp at hopen
    · rcases (hg g hgm).2 with h1 | ⟨g', hg', file, hfile, hdir, _, hn⟩
      · exact Or.inl h1
      · exact Or.inr ⟨g', hg', file, hfile, hdir, hn⟩

/-- Witness for C8: in the sample tree the directory `bad` does not open; it is
compared with an empty directory `bad`, which lists `.` and `..`. -/
theorem C8_unopenable_directory_is_skipped_witness :
    10 ≤ 2 ^ 32 ∧ wstr "\\\\?\\C:\\t\\bad" ≠ normalizeDir (wstr "C:/t")
    ∧ sampleOS.CreateFileW (wstr "\\\\?\\C:\\t\\bad") = none
    ∧ yieldsNoEntries [sampleBatch [sampleEntry "." 0x10 0 0, sampleEntry ".." 0x10 0 0]]
    ∧ ∃ r : Option (String × List Item),
        direnum_NtQueryDirectory_toStream
            (sampleOS.withDir (wstr "\\\\?\\C:\\t\\bad")
              (some [sampleBatch [sampleEntry "." 0x10 0 0, sampleEntry ".." 0x10 0 0]]))
            10 (wstr "C:/t") PagedBinaryStream.new true
          = r.map (fun x => (x.1, feed PagedBinaryStream.new x.2))
        ∧ direnum_NtQueryDirectory_toStream sampleOS 10 (wstr "C:/t") PagedBinaryStream.new true
          = r.map (fun x => (x.1, feed PagedBinaryStream.new
              (x.2.filter (notMarkerOf (wstr "\\\\?\\C:\\t\\bad"))))) :=
  ⟨by decide, by decide, by decide, by decide,
    (C8_unopenable_directory_is_skipped sampleOS 10 (wstr "C:/t") (wstr "\\\\?\\C:\\t\\bad")
      PagedBinaryStream.new true
      [sampleBatch [sampleEntry "." 0x10 0 0, sampleEntry ".." 0x10 0 0]]
      (by decide) (by decide) (by decide) (by decide)).1⟩

/-- C9: on every finite tree, whichever opens fail and whichever query reports a
failure, with well-formed entries whose attributes are not 0xFFFFFFFF, a call (with
enough fuel, fewer than `2^32` iterations) on a new stream returns, and the bytes
produced are the concatenation of the complete records of a sequence of groups, each
group being the marker of a directory that opened followed by file records of
entries the operating system stored for that very directory; the decoder reads them
back, and the bytes are empty or begin with a marker. -/
theorem C9_output_is_a_sequence_of_complete_records (os : OS) (fuel d : Nat)
    (rootDir : List Nat) (recurse : Bool)
    (hdepth : os.depthAtMost d (normalizeDir rootDir) = true)
    (henough : traversalFuel os recurse d rootDir ≤ fuel) (hfuel : fuel ≤ 2 ^ 32)
    (hwf : os.WellFormed)
    (hattr : ∀ dir handle, os.CreateFileW dir = some handle →
      ∀ r ∈ handle, ∀ file ∈ r.entries, file.FileAttributes ≠ 0xFFFFFFFF) :
    ∃ (message : String) (out : PagedBinaryStream)
      (groups : List (List Nat × List FILE_DIRECTORY_INFORMATION)),
      direnum_NtQueryDirectory_toStream os fuel rootDir PagedBinaryStream.new recurse
        = some (message, out)
      ∧ out.copyAndReset = (groupItems groups).flatMap Item.bytes
      ∧ decode out.copyAndReset = some ((groupItems groups).map Item.record)
      ∧ (∀ g ∈ groups, ∃ handle, os.CreateFileW g.1 = some handle
          ∧ ∀ file ∈ g.2, ∃ r ∈ handle, file ∈ r.entries)
      ∧ ((groups = [] ∧ out.copyAndReset = [])
          ∨ ∃ g rest, groups = g :: rest
              ∧ out.copyAndReset = (Item.dir g.1).bytes
                  ++ (g.2.map Item.file ++ groupItems rest).flatMap Item.bytes) := by
  have hret := direnum_finite os hwf fuel d rootDir PagedBinaryStream.new recurse hdepth henough
    hfuel
  have hsum := direnum_eq_summary os fuel rootDir PagedBinaryStream.new recurse hfuel
  -- the groups of the returned stream
  have hgroups : ∃ (message : String) (out : PagedBinaryStream)
      (groups : List (List Nat × List FILE_DIRECTORY_INFORMATION)),
      direnum_NtQueryDirectory_toStream os fuel rootDir PagedBinaryStream.new recurse
        = some (message, out)
      ∧ out = feed PagedBinaryStream.new (groupItems groups)
      ∧ ∀ g ∈ groups, ∃ handle, os.CreateFileW g.1 = some handle
          ∧ ∀ file ∈ g.2, ∃ r ∈ handle, file ∈ r.entries := by
    generalize (if os.CreateFileW (normalizeDir rootDir) = none then
        ("failed to open directory: " ++ utf8_encode os (normalizeDir rootDir), PagedBinaryStream.new)
      else ("", feed PagedBinaryStream.new (subtreeItems os recurse d (normalizeDir rootDir))))
      = res at hret
    obtain ⟨message, out⟩ := res
    have hs : direnumSummary os fuel rootDir PagedBinaryStream.new recurse = some (message, out) :=
      hsum ▸ hret
    rcases direnumSummary_result os fuel rootDir PagedBinaryStream.new recurse message out hs with
      ⟨_, _, h3⟩ | ⟨_, _, groups, hout, hg⟩
    · exact ⟨message, out, [], hret, h3, by simp⟩
    · refine ⟨message, out, groups, hret, hout, fun g hgm => ?_⟩
      obtain ⟨⟨handle, hopen, hfiles⟩, _⟩ := hg g hgm
      exact ⟨handle, hopen, fun file hfile => (hfiles file hfile).2⟩
  obtain ⟨message, out, groups, hrun, hout, hg⟩ := hgroups
  have hbytes : out.copyAndReset = (groupItems groups).flatMap Item.bytes := by
    rw [hout, copyAndReset_feed PagedBinaryStream.inv_new, copyAndReset_new, List.nil_append]
  refine ⟨message, out, groups, hrun, hbytes, ?_, hg, ?_⟩
  · rw [hbytes]
    exact decode_bytes _ (groupItems_encodable os hwf hattr groups hg)
  · cases groups with
    | nil => exact Or.inl ⟨rfl, by rw [hbytes]; rfl⟩
    | cons g rest =>
      refine Or.inr ⟨g, rest, rfl, ?_⟩
      rw [hbytes]
      simp only [groupItems, List.flatMap_cons, List.cons_append, List.flatMap_append]

/-- Witness for C9: the sample tree, in which the directory `bad` does not open. -/
theorem C9_output_is_a_sequence_of_complete_records_witness :
    sampleOS.depthAtMost 2 (normalizeDir (wstr "C:/t")) = true
    ∧ traversalFuel sampleOS true 2 (wstr "C:/t") ≤ 10 ∧ 10 ≤ 2 ^ 32
    ∧ sampleOS.WellFormed
    ∧ (∀ dir handle, sampleOS.CreateFileW dir = some handle →
        ∀ r ∈ handle, ∀ file ∈ r.entries, file.FileAttributes ≠ 0xFFFFFFFF)
    ∧ ∃ (message : String) (out : PagedBinaryStream)
        (groups : List (List Nat × List FILE_DIRECTORY_INFORMATION)),
        direnum_NtQueryDirectory_toStream sampleOS 10 (wstr "C:/t") PagedBinaryStream.new true
          = some (message, out)
        ∧ out.copyAndReset = (groupItems groups).flatMap Item.bytes
        ∧ decode out.copyAndReset = some ((groupItems groups).map Item.record)
        ∧ (∀ g ∈ groups, ∃ handle, sampleOS.CreateFileW g.1 = some handle
            ∧ ∀ file ∈ g.2, ∃ r ∈ handle, file ∈ r.entries)
        ∧ ((groups = [] ∧ out.copyAndReset = [])
            ∨ ∃ g rest, groups = g :: rest
                ∧ out.copyAndReset = (Item.dir g.1).bytes
                    ++ (g.2.map Item.file ++ groupItems rest).flatMap Item.bytes) :=
  ⟨by decide, by decide, by decide,
    OS.ofTable_forall sampleTable
      (fun dir handle => 2 * dir.length < 2 ^ 32
        ∧ ∀ r ∈ handle, ∀ file ∈ r.entries, file.WellFormed) (by decide),
    OS.ofTable_forall sampleTable
      (fun _ handle => ∀ r ∈ handle, ∀ file ∈ r.entries, file.FileAttributes ≠ 0xFFFFFFFF)
      (by decide),
    C9_output_is_a_sequence_of_complete_records sampleOS 10 2 (wstr "C:/t") true
      (by decide) (by decide) (by decide)
      (OS.ofTable_forall sampleTable
        (fun dir handle => 2 * dir.length < 2 ^ 32
          ∧ ∀ r ∈ handle, ∀ file ∈ r.entries, file.WellFormed) (by decide))
      (OS.ofTable_forall sampleTable
        (fun _ handle => ∀ r ∈ handle, ∀ file ∈ r.entries, file.FileAttributes ≠ 0xFFFFFFFF)
        (by decide))⟩

/-- C10: with `recurse = true`, on every finite tree of well-formed entries in which
every directory opens, no query fails and every successful query stores at least
one entry, a call (with enough fuel, fewer than `2^32` iterations) on a new stream
returns without error, and its bytes are the records of the expected groups: for
every directory reachable from the root exactly one marker, followed by exactly
that directory's entries other than the directories `.` and `..`, each once, in
enumeration order, with the attributes reported.  When no attributes value is
0xFFFFFFFF, decoding the bytes and grouping the file records under the most recent
marker gives these groups back and nothing else. -/
theorem C10_recursive_listing_is_complete (os : OS) (fuel d : Nat) (rootDir : List Nat)
    (hhealthy : os.healthy d (normalizeDir rootDir) = true) (hwf : os.WellFormed)
    (henough : traversalFuel os true d rootDir ≤ fuel) (hfuel : fuel ≤ 2 ^ 32) :
    ∃ out : PagedBinaryStream,
      direnum_NtQueryDirectory_toStream os fuel rootDir PagedBinaryStream.new true
        = some ("", out)
      ∧ out.copyAndReset
          = (groupItems (expectedGroups os d (normalizeDir rootDir))).flatMap Item.bytes
      ∧ (∀ g ∈ expectedGroups os d (normalizeDir rootDir),
          ∃ handle, os.CreateFileW g.1 = some handle ∧ g.2 = realEntries handle)
      ∧ ((∀ dir handle, os.CreateFileW dir = some handle →
            ∀ r ∈ handle, ∀ file ∈ r.entries, file.FileAttributes ≠ 0xFFFFFFFF) →
          (decode out.copyAndReset).map splitGroups
            = some ([], (expectedGroups os d (normalizeDir rootDir)).map fun g =>
                (wcharBytes (strippedPath g.1), (g.2.map Item.file).map Item.record))) := by
  have hret := direnum_finite os hwf fuel d rootDir PagedBinaryStream.new true
    (healthy_depthAtMost os d _ hhealthy) henough hfuel
  rw [if_neg (healthy_opens os d _ hhealthy), subtreeItems_healthy os hwf d _ hhealthy] at hret
  have hbytes : (feed PagedBinaryStream.new
      (groupItems (expectedGroups os d (normalizeDir rootDir)))).copyAndReset
        = (groupItems (expectedGroups os d (normalizeDir rootDir))).flatMap Item.bytes := by
    rw [copyAndReset_feed PagedBinaryStream.inv_new, copyAndReset_new, List.nil_append]
  refine ⟨_, hret, hbytes, expectedGroups_sound os d _, fun hattr => ?_⟩
  rw [hbytes, decode_bytes _ (groupItems_encodable os hwf hattr _ (fun g hg => ?_)),
    Option.map_some', splitGroups_groupItems]
  obtain ⟨handle, hopen, hfiles⟩ := expectedGroups_sound os d _ g hg
  refine ⟨handle, hopen, fun file hfile => ?_⟩
  rw [hfiles] at hfile
  exact mem_allEntries.mp (List.mem_filter.mp hfile).1

/-- Witness for C10: the tree in which every directory opens. -/
theorem C10_recursive_listing_is_complete_witness :
    healthyOS.healthy 2 (normalizeDir (wstr "C:/t")) = true ∧ healthyOS.WellFormed
    ∧ traversalFuel healthyOS true 2 (wstr "C:/t") ≤ 10 ∧ 10 ≤ 2 ^ 32
    ∧ ∃ out : PagedBinaryStream,
        direnum_NtQueryDirectory_toStream healthyOS 10 (wstr "C:/t") PagedBinaryStream.new true
          = some ("", out)
        ∧ out.copyAndReset
            = (groupItems (expectedGroups healthyOS 2 (normalizeDir (wstr "C:/t")))).flatMap
                Item.bytes
        ∧ (∀ g ∈ expectedGroups healthyOS 2 (normalizeDir (wstr "C:/t")),
            ∃ handle, healthyOS.CreateFileW g.1 = some handle ∧ g.2 = realEntries handle)
        ∧ ((∀ dir handle, healthyOS.CreateFileW dir = some handle →
              ∀ r ∈ handle, ∀ file ∈ r.entries, file.FileAttributes ≠ 0xFFFFFFFF) →
            (decode out.copyAndReset).map splitGroups
              = some ([], (expectedGroups healthyOS 2 (normalizeDir (wstr "C:/t"))).map fun g =>
                  (wcharBytes (strippedPath g.1), (g.2.map Item.file).map Item.record))) :=
  ⟨by decide,
    OS.ofTable_forall healthyTable
      (fun dir handle => 2 * dir.length < 2 ^ 32
        ∧ ∀ r ∈ handle, ∀ file ∈ r.entries, file.WellFormed) (by decide),
    by decide, by decide,
    C10_recursive_listing_is_complete healthyOS 10 2 (wstr "C:/t") (by decide)
      (OS.ofTable_forall healthyTable
        (fun dir handle => 2 * dir.length < 2 ^ 32
          ∧ ∀ r ∈ handle, ∀ file ∈ r.entries, file.WellFormed) (by decide))
      (by decide) (by decide)⟩

/-- C13 (the code departs from it): for the input `\\?\` and for `\\?\` followed
by separators, `normalizeDir` returns the three code units `\\?`, which do not begin
with the prefix `\\?\`; the empty path and a path made of separators do get the
prefix. -/
theorem C13_normalizeDir_loses_prefix_of_bare_prefix :
    normalizeDir [0x5C, 0x5C, 0x3F, 0x5C] = [0x5C, 0x5C, 0x3F]
      ∧ ¬ ([0x5C, 0x5C, 0x3F, 0x5C] <+: normalizeDir [0x5C, 0x5C, 0x3F, 0x5C])
      ∧ normalizeDir [0x5C, 0x5C, 0x3F, 0x5C, 0x2F, 0x5C] = [0x5C, 0x5C, 0x3F]
      ∧ normalizeDir [] = [0x5C, 0x5C, 0x3F, 0x5C]
      ∧ normalizeDir [0x2F, 0x2F, 0x2F] = [0x5C, 0x5C, 0x3F, 0x5C, 0x5C] := by
  decide

/-- C14: for every path `p` that does not start with `\\?\` and holds a code unit
other than a separator, `normalizeDir p` is `\\?\` followed by `p` without its
trailing `\` and `/`, every remaining `/` replaced by `\`; the result holds no `/`
and does not end with a separator.  For a path that starts with `\\?\` no prefix is
added: the result is the path without its trailing separators, every `/` from the
fifth code unit on replaced by `\`, and it is not longer than the path. -/
theorem C14_normalizeDir_adds_prefix_and_normalizes (p : List Nat) :
    (¬ [0x5C, 0x5C, 0x3F, 0x5C] <+: p → (∃ c ∈ p, c ≠ 0x5C ∧ c ≠ 0x2F) →
      normalizeDir p
          = [0x5C, 0x5C, 0x3F, 0x5C]
            ++ (p.rdropWhile isSeparator).map (fun c => if c = 0x2F then 0x5C else c)
        ∧ 0x2F ∉ normalizeDir p
        ∧ ∃ last, (normalizeDir p).getLast? = some last ∧ last ≠ 0x5C ∧ last ≠ 0x2F)
    ∧ ([0x5C, 0x5C, 0x3F, 0x5C] <+: p →
      normalizeDir p
          = (p.rdropWhile isSeparator).take 4
            ++ ((p.rdropWhile isSeparator).drop 4).map (fun c => if c = 0x2F then 0x5C else c)
        ∧ (normalizeDir p).length ≤ p.length) := by
  constructor
  · intro hp hsome
    have heq := normalizeDir_eq p hsome
    rw [if_neg hp] at heq
    refine ⟨heq, ?_, ?_⟩
    · rw [heq]
      intro hmem
      rcases List.mem_append.mp hmem with h1 | h1
      · revert h1; decide
      · obtain ⟨c, _, hc⟩ := List.mem_map.mp h1
        by_cases h2 : c = 0x2F
        · rw [if_pos h2] at hc; omega
        · rw [if_neg h2] at hc; exact h2 hc
    · -- the trimmed path is not empty and its last code unit is not a separator
      have hne : p.rdropWhile isSeparator ≠ [] := by
        intro hnil
        obtain ⟨c, hc, hcs⟩ := hsome
        have hall := (List.rdropWhile_eq_nil_iff).mp hnil c hc
        rw [(isSeparator_eq_false_iff c).mpr hcs] at hall
        simp at hall
      have hlast := List.rdropWhile_last_not isSeparator p hne
      have hl : isSeparator ((p.rdropWhile isSeparator).getLast hne) = false := by
        simpa using hlast
      obtain ⟨h5c, h2f⟩ := (isSeparator_eq_false_iff _).mp hl
      refine ⟨(p.rdropWhile isSeparator).getLast hne, ?_, h5c, h2f⟩
      rw [heq, List.getLast?_append, List.getLast?_map, List.getLast?_eq_getLast _ hne]
      simp only [Option.map_some', if_neg h2f]
      rfl
  · intro hp
    have hsome : ∃ c ∈ p, c ≠ 0x5C ∧ c ≠ 0x2F := by
      obtain ⟨t, rfl⟩ := hp
      exact ⟨0x3F, by simp, by decide, by decide⟩
    have heq := normalizeDir_eq p hsome
    rw [if_pos hp] at heq
    refine ⟨heq, ?_⟩
    rw [heq]
    have hpre := (List.rdropWhile_prefix isSeparator p).length_le
    simp only [List.length_append, List.length_take, List.length_map, List.length_drop]
    omega

/-- Witness for C14: `C:/a\b/` becomes `\\?\C:\a\b`. -/
theorem C14_normalizeDir_adds_prefix_and_normalizes_witness :
    ¬ [0x5C, 0x5C, 0x3F, 0x5C] <+: wstr "C:/a\\b/" ∧ (∃ c ∈ wstr "C:/a\\b/", c ≠ 0x5C ∧ c ≠ 0x2F)
    ∧ normalizeDir (wstr "C:/a\\b/") = wstr "\\\\?\\C:\\a\\b" :=
  ⟨by decide, by decide,
    ((C14_normalizeDir_adds_prefix_and_normalizes (wstr "C:/a\\b/")).1 (by decide)
      (by decide)).1.trans (by decide)⟩

/-- C15: the epoch offset 116444736000000000 is 134774 days of 86400 s of `10^7`
ticks and is mapped to 0; for every 64-bit `v` from the offset on, the result `r` of
`filetimeToUnixTimestampInMs` is the number of whole milliseconds elapsed,
`10000 * r ≤ v - offset < 10000 * (r + 1)`; and the function is monotone on the
64-bit values for which the subtraction does not overflow. -/
theorem C15_filetime_to_unix_milliseconds :
    (116444736000000000 : Int) = 134774 * 86400 * 10 ^ 7
      ∧ filetimeToUnixTimestampInMs 116444736000000000 = 0
      ∧ (∀ v : Int, 116444736000000000 ≤ v → v < 2 ^ 63 →
          10000 * filetimeToUnixTimestampInMs v ≤ v - 116444736000000000
            ∧ v - 116444736000000000 < 10000 * (filetimeToUnixTimestampInMs v + 1))
      ∧ (∀ v w : Int, -2 ^ 63 + 116444736000000000 ≤ v → v ≤ w → w < 2 ^ 63 →
          filetimeToUnixTimestampInMs v ≤ filetimeToUnixTimestampInMs w) := by
  refine ⟨by norm_num, by decide, ?_, ?_⟩
  · intro v h1 h2
    unfold filetimeToUnixTimestampInMs
    rw [wrapInt64_of_range _ (by omega) (by omega)]
    exact (tdiv_bounds (v - 116444736000000000)).1 (by omega)
  · intro v w h1 h2 h3
    unfold filetimeToUnixTimestampInMs
    rw [wrapInt64_of_range _ (by omega) (by omega), wrapInt64_of_range _ (by omega) (by omega)]
    obtain ⟨a2, a3⟩ := tdiv_bounds (v - 116444736000000000)
    obtain ⟨b2, b3⟩ := tdiv_bounds (w - 116444736000000000)
    by_cases hv : 0 ≤ v - 116444736000000000
    · have := a2 hv; have := b2 (by omega); omega
    · have := a3 (by omega)
      by_cases hw : 0 ≤ w - 116444736000000000
      · have := b2 hw; omega
      · have := b3 (by omega); omega

/-- Witness for C15: 2024-01-01T00:00:00.0005Z is 1704067200000 ms, and a time
before 1970 is not after a time in 2024. -/
theorem C15_filetime_to_unix_milliseconds_witness :
    (116444736000000000 : Int) ≤ 133485408000005000 ∧ (133485408000005000 : Int) < 2 ^ 63
      ∧ (-2 ^ 63 + 116444736000000000 : Int) ≤ 0 ∧ (0 : Int) ≤ 133485408000005000
      ∧ (10000 * filetimeToUnixTimestampInMs 133485408000005000
            ≤ 133485408000005000 - 116444736000000000
          ∧ 133485408000005000 - 116444736000000000
            < 10000 * (filetimeToUnixTimestampInMs 133485408000005000 + 1))
      ∧ filetimeToUnixTimestampInMs 0 ≤ filetimeToUnixTimestampInMs 133485408000005000 :=
  ⟨by decide, by decide, by decide, by decide,
    C15_filetime_to_unix_milliseconds.2.2.1 133485408000005000 (by decide) (by decide),
    C15_filetime_to_unix_milliseconds.2.2.2 0 133485408000005000 (by decide) (by decide)
      (by decide)⟩

/-- C16 as stated fails: for a raw entry whose `FileAttributes` is 0xFFFFFFFF the
attributes field of the file record `writeFileToStream` writes is FF FF FF FF, the
very bytes of the attributes field of a marker. -/
theorem C16_sentinel_attributes_are_written :
    (sampleEntry "x" 0xFFFFFFFF 0 0).FileAttributes = 0xFFFFFFFF
      ∧ ((writeFileToStream (sampleEntry "x" 0xFFFFFFFF 0 0) PagedBinaryStream.new).copyAndReset.drop
          (4 + (sampleEntry "x" 0xFFFFFFFF 0 0).FileNameLength)).take 4 = [0xFF, 0xFF, 0xFF, 0xFF]
      ∧ ((writeFullPathToStream (wstr "x") PagedBinaryStream.new).copyAndReset.drop
          (4 + 2 * (wstr "x").length)).take 4 = [0xFF, 0xFF, 0xFF, 0xFF] := by
  decide

/-- C16 (amended): `writeFileToStream` enforces nothing and writes the attributes
unchanged: the attributes field of the record is the four little-endian bytes of
`FileAttributes`, and for a 32-bit value it equals the sentinel FF FF FF FF exactly
when `FileAttributes` is 0xFFFFFFFF; so for every raw entry whose `FileAttributes`
is not 0xFFFFFFFF the attributes field is not the sentinel. -/
theorem C16_attributes_field_is_FileAttributes (file : FILE_DIRECTORY_INFORMATION)
    (stream : PagedBinaryStream) (hinv : stream.Inv)
    (hname : file.FileNameLength ≤ 2 * file.FileName.length)
    (hattr : file.FileAttributes < 2 ^ 32) :
    ((writeFileToStream file stream).copyAndReset.drop
        (stream.copyAndReset.length + (4 + file.FileNameLength))).take 4
      = leBytes 4 file.FileAttributes
    ∧ (((writeFileToStream file stream).copyAndReset.drop
          (stream.copyAndReset.length + (4 + file.FileNameLength))).take 4
        = [0xFF, 0xFF, 0xFF, 0xFF] ↔ file.FileAttributes = 0xFFFFFFFF) := by
  have h := attributes_field file stream hinv hname
  exact ⟨h, by rw [h]; exact leBytes_four_eq_sentinel _ hattr⟩

/-- Witness for C16: the attributes field of the record of `a.txt` is 20 00 00 00. -/
theorem C16_attributes_field_is_FileAttributes_witness :
    PagedBinaryStream.new.Inv
      ∧ (sampleEntry "a.txt" 0x20 5 0).FileNameLength
          ≤ 2 * (sampleEntry "a.txt" 0x20 5 0).FileName.length
      ∧ (sampleEntry "a.txt" 0x20 5 0).FileAttributes < 2 ^ 32
      ∧ ((writeFileToStream (sampleEntry "a.txt" 0x20 5 0) PagedBinaryStream.new).copyAndReset.drop
          (PagedBinaryStream.new.copyAndReset.length
            + (4 + (sampleEntry "a.txt" 0x20 5 0).FileNameLength))).take 4 = [0x20, 0, 0, 0] :=
  ⟨PagedBinaryStream.inv_new, by decide, by decide,
    (C16_attributes_field_is_FileAttributes (sampleEntry "a.txt" 0x20 5 0) PagedBinaryStream.new
      PagedBinaryStream.inv_new (by decide) (by decide)).1.trans (by decide)⟩

set_option maxRecDepth 100000 in
/-- C11 as stated fails: the root `C:\t` opens and its first query stores `a.txt` and
`sub`, its second query fails, and a third would store `b.txt`.  The call with
`recurse = false` returns without error the marker and the records of `a.txt` and
`sub` only: `b.txt`, an immediate entry of the root, gets no record. -/
theorem C11_failing_query_omits_an_entry :
    failingOS.CreateFileW (normalizeDir (wstr "C:\\t"))
        = some [sampleBatch [sampleEntry "a.txt" 0x20 5 0, sampleEntry "sub" 0x10 0 0],
            { status := 0xC0000001 - 2 ^ 32, Information := 0, entries := [] },
            sampleBatch [sampleEntry "b.txt" 0x20 7 0]]
    ∧ (direnum_NtQueryDirectory_toStream failingOS 10 (wstr "C:\\t") PagedBinaryStream.new
        false).map (fun x => (x.1, x.2.copyAndReset))
      = some ("", (Item.dir (wstr "\\\\?\\C:\\t")).bytes
          ++ (Item.file (sampleEntry "a.txt" 0x20 5 0)).bytes
          ++ (Item.file (sampleEntry "sub" 0x10 0 0)).bytes)
    ∧ (realEntries [sampleBatch [sampleEntry "a.txt" 0x20 5 0, sampleEntry "sub" 0x10 0 0],
            { status := 0xC0000001 - 2 ^ 32, Information := 0, entries := [] },
            sampleBatch [sampleEntry "b.txt" 0x20 7 0]]).map (fun file => file.FileName)
        = [wstr "a.txt", wstr "sub", wstr "b.txt"] := by
  decide

/-- C11 (amended): with `recurse = false`, when the root opens and its listing runs to the end
(every query succeeds and stores at least one well-formed entry), a call of at least
one iteration (fewer than `2^32`) returns without error and makes exactly these
encoder calls: the marker of the root first, then the root's entries other than the
directories `.` and `..`, in enumeration order, and nothing else.  The result is the
same whatever the other directories of the file system are, and one iteration is
enough: no subdirectory is opened and no entry of a subdirectory appears. -/
theorem C11_non_recursive_call_lists_the_root_only (os : OS) (fuel : Nat) (rootDir : List Nat)
    (stream : PagedBinaryStream) (handle : List QueryResult)
    (hfuel2 : 2 ≤ fuel) (hfuel : fuel ≤ 2 ^ 32)
    (hopen : os.CreateFileW (normalizeDir rootDir) = some handle)
    (hne : handle.isEmpty = false) (hh : ∀ r ∈ handle, r.healthy = true)
    (hwf : ∀ file ∈ allEntries handle, file.WellFormed) :
    direnum_NtQueryDirectory_toStream os fuel rootDir stream false
        = some ("", feed stream
            (Item.dir (normalizeDir rootDir) :: (realEntries handle).map Item.file))
    ∧ (∀ os' : OS, os'.CreateFileW (normalizeDir rootDir) = some handle →
        direnum_NtQueryDirectory_toStream os' fuel rootDir stream false
          = direnum_NtQueryDirectory_toStream os fuel rootDir stream false)
    ∧ (stream.Inv →
        (feed stream (Item.dir (normalizeDir rootDir)
            :: (realEntries handle).map Item.file)).copyAndReset
          = stream.copyAndReset ++ ((Item.dir (normalizeDir rootDir)).bytes
              ++ ((realEntries handle).map Item.file).flatMap Item.bytes)) := by
  have key : ∀ os' : OS, os'.CreateFileW (normalizeDir rootDir) = some handle →
      direnum_NtQueryDirectory_toStream os' fuel rootDir stream false
        = some ("", feed stream
            (Item.dir (normalizeDir rootDir) :: (realEntries handle).map Item.file)) := by
    intro os' hopen'
    obtain ⟨hl, hall⟩ := listing_healthy os' _ handle hopen' hne hh
    rw [direnum_eq_summary os' fuel rootDir stream false hfuel,
      direnumSummary_no_push os' fuel rootDir stream false _ hl (pushed_false _ _) hfuel2,
      dirItems, if_neg hall, kept_eq_filter_isDotDir _ hwf, realEntries]
  refine ⟨key os hopen, fun os' hopen' => (key os' hopen').trans (key os hopen).symm, ?_⟩
  intro hinv
  rw [copyAndReset_feed hinv, List.flatMap_cons]

/-- Witness for C11: the tree in which every directory opens, listed without
recursion. -/
theorem C11_non_recursive_call_lists_the_root_only_witness :
    2 ≤ 2 ∧ 2 ≤ 2 ^ 32
    ∧ healthyOS.CreateFileW (normalizeDir (wstr "C:/t"))
        = some [sampleBatch [sampleEntry "." 0x10 0 0, sampleEntry ".." 0x10 0 0,
            sampleEntry "a.txt" 0x20 5 0, sampleEntry "sub" 0x10 0 0, sampleEntry "new" 0x10 0 0]]
    ∧ direnum_NtQueryDirectory_toStream healthyOS 2 (wstr "C:/t") PagedBinaryStream.new false
        = some ("", feed PagedBinaryStream.new
            (Item.dir (normalizeDir (wstr "C:/t")) ::
              (realEntries [sampleBatch [sampleEntry "." 0x10 0 0, sampleEntry ".." 0x10 0 0,
                sampleEntry "a.txt" 0x20 5 0, sampleEntry "sub" 0x10 0 0,
                sampleEntry "new" 0x10 0 0]]).map Item.file)) :=
  ⟨by decide, by decide, by decide,
    (C11_non_recursive_call_lists_the_root_only healthyOS 2 (wstr "C:/t") PagedBinaryStream.new
      [sampleBatch [sampleEntry "." 0x10 0 0, sampleEntry ".." 0x10 0 0,
        sampleEntry "a.txt" 0x20 5 0, sampleEntry "sub" 0x10 0 0, sampleEntry "new" 0x10 0 0]]
      (by decide) (by decide) (by decide) (by decide) (by decide) (by decide)).1⟩

/-- C12 as stated fails: enumerating a root that holds nothing but `.` and `..` with
`recurse = true` returns a buffer of 16 bytes, the marker of the root, not a buffer
of length 0. -/
theorem C12_dot_only_root_gets_a_marker :
    (∀ q ∈ [sampleBatch [sampleEntry "." 0x10 0 0, sampleEntry ".." 0x10 0 0]],
        ∀ file ∈ q.entries, isDotEntry file = true)
      ∧ (direnum_NtQueryDirectory_toStream dotOnlyOS 10 (wstr "C:\\t") PagedBinaryStream.new
            true).map (fun x => (x.1, x.2.len, x.2.copyAndReset))
          = some ("", 16,
              [8, 0, 0, 0, 0x43, 0, 0x3A, 0, 0x5C, 0, 0x74, 0, 0xFF, 0xFF, 0xFF, 0xFF]) := by
  decide

/-- C12 (amended): for a directory whose first query stores at least one entry and
whose raw entries are only directories `.` and `..`, the listing loop writes exactly
the marker, no file record, and pushes nothing: the marker is written on the first
raw entry, skipped or not.  So a call (of at least one iteration, fewer than `2^32`)
on a root that holds nothing else returns without error a buffer with exactly one
record, the marker of the root, `8 + 2 * n` bytes long. -/
theorem C12_marker_is_written_for_a_dot_only_directory (os : OS) (fuel : Nat)
    (rootDir : List Nat) (stream : PagedBinaryStream) (recurse : Bool) (r : QueryResult)
    (handle : List QueryResult) (hfuel2 : 2 ≤ fuel) (hfuel : fuel ≤ 2 ^ 32)
    (hopen : os.CreateFileW (normalizeDir rootDir) = some (r :: handle))
    (hstored : r.Information ≠ 0 ∧ r.status ≠ STATUS_NO_SUCH_FILE ∧ r.entries ≠ [])
    (hdots : ∀ q ∈ r :: handle, ∀ file ∈ q.entries, isDotEntry file = true) :
    direnum_NtQueryDirectory_toStream os fuel rootDir stream recurse
        = some ("", writeFullPathToStream (normalizeDir rootDir) stream)
    ∧ (stream.Inv →
        (writeFullPathToStream (normalizeDir rootDir) stream).len
          = stream.len + (8 + 2 * (strippedPath (normalizeDir rootDir)).length))
    ∧ ∀ (dir : List Nat) (dirs : List (List Nat)) (s : PagedBinaryStream),
        (listLoop recurse dir handle r.entries
            { bWroteFullPath := false, dirs := dirs, stream := s }).2.dirs = dirs
          ∧ (listLoop recurse dir handle r.entries
            { bWroteFullPath := false, dirs := dirs, stream := s }).2.stream
              = writeFullPathToStream dir s := by
  have hbd : ∀ file ∈ r.entries, isDotEntry file = true :=
    hdots r (List.mem_cons_self _ _)
  have hhd : ∀ q ∈ handle, ∀ file ∈ q.entries, isDotEntry file = true :=
    fun q hq => hdots q (List.mem_cons_of_mem _ hq)
  refine ⟨?_, len_writeFullPathToStream _ stream,
    fun dir dirs s => listLoop_dots recurse dir handle r.entries dirs s hstored.2.2 hbd hhd⟩
  have hl := listing_of_stored os _ r handle hopen hstored.1 hstored.2.1
  have hk : kept (listed handle r.entries) = [] := by
    apply kept_eq_nil_of_dots
    intro file hfile
    rcases listed_subset handle r.entries file hfile with h | ⟨q, hq, h⟩
    · exact hbd file h
    · exact hhd q hq file h
  rw [direnum_eq_summary os fuel rootDir stream recurse hfuel,
    direnumSummary_no_push os fuel rootDir stream recurse _ hl
      (pushed_of_kept_nil recurse _ _ hk) hfuel2,
    dirItems, if_neg (listed_ne_nil handle r.entries hstored.2.2), hk]
  simp only [List.map_nil, feed, List.foldl_cons, List.foldl_nil, Item.writeToStream]

/-- Witness for C12: the root that holds nothing but `.` and `..`. -/
theorem C12_marker_is_written_for_a_dot_only_directory_witness :
    2 ≤ 10 ∧ 10 ≤ 2 ^ 32
    ∧ dotOnlyOS.CreateFileW (normalizeDir (wstr "C:\\t"))
        = some (sampleBatch [sampleEntry "." 0x10 0 0, sampleEntry ".." 0x10 0 0] :: [])
    ∧ direnum_NtQueryDirectory_toStream dotOnlyOS 10 (wstr "C:\\t") PagedBinaryStream.new true
        = some ("", writeFullPathToStream (normalizeDir (wstr "C:\\t")) PagedBinaryStream.new) :=
  ⟨by decide, by decide, by decide,
    (C12_marker_is_written_for_a_dot_only_directory dotOnlyOS 10 (wstr "C:\\t")
      PagedBinaryStream.new true
      (sampleBatch [sampleEntry "." 0x10 0 0, sampleEntry ".." 0x10 0 0]) []
      (by decide) (by decide) (by decide) (by decide) (by decide)).1⟩

set_option maxRecDepth 100000 in
/-- C20 (the code departs from it): when the listing of the root is the batch
`a.txt` followed by a query that succeeds and stores nothing, the call re-reads the
buffer the first batch left and writes the record of `a.txt` twice: the output is
the marker of the root and two records of `a.txt`, 100 bytes, where one record of
`a.txt` gives 58 bytes. -/
theorem C20_empty_batch_repeats_the_previous_batch :
    (direnum_NtQueryDirectory_toStream staleOS 10 (wstr "C:\\t") PagedBinaryStream.new
        true).map (fun x => (x.1, x.2.copyAndReset))
      = some ("", (Item.dir (wstr "\\\\?\\C:\\t")).bytes
          ++ (Item.file (sampleEntry "a.txt" 0x20 5 0)).bytes
          ++ (Item.file (sampleEntry "a.txt" 0x20 5 0)).bytes)
    ∧ ((Item.dir (wstr "\\\\?\\C:\\t")).bytes
          ++ (Item.file (sampleEntry "a.txt" 0x20 5 0)).bytes
          ++ (Item.file (sampleEntry "a.txt" 0x20 5 0)).bytes).length = 100
    ∧ ((Item.dir (wstr "\\\\?\\C:\\t")).bytes
          ++ (Item.file (sampleEntry "a.txt" 0x20 5 0)).bytes).length = 58 := by
  decide

set_option maxRecDepth 100000 in
/-- C17 as stated fails: in the tree of `hideOS` every directory opens and its first
query stores entries, but the second query on the root fails before the directory
`s2` is reported.  The markers of the output are `C:\t`, `C:\t\s1`, while the
pre-order traversal of the tree, last enumerated subdirectory first, is
`C:\t`, `C:\t\s2`, `C:\t\s1`. -/
theorem C17_failed_query_hides_a_subtree :
    hideOS.depthAtMost 2 (normalizeDir (wstr "C:\\t")) = true
    ∧ (preorderReversed hideOS 2 (normalizeDir (wstr "C:\\t"))).all (fun dir =>
          match hideOS.CreateFileW dir with
          | some (r :: _) => r.healthy
          | _ => false) = true
    ∧ (direnum_NtQueryDirectory_toStream hideOS 10 (wstr "C:\\t") PagedBinaryStream.new
        true).map (fun x => (x.1, (decode x.2.copyAndReset).map recordMarkers))
      = some ("", some [wcharBytes (wstr "C:\\t"), wcharBytes (wstr "C:\\t\\s1")])
    ∧ preorderReversed hideOS 2 (normalizeDir (wstr "C:\\t"))
        = [wstr "\\\\?\\C:\\t", wstr "\\\\?\\C:\\t\\s2", wstr "\\\\?\\C:\\t\\s1"] := by
  decide

/-- C17 (amended): the worklist is a stack.  With `recurse = true`, on every finite
tree of well-formed entries in which every directory opens, no query fails and every
successful query stores at least one entry, a call (with enough fuel, fewer than
`2^32` iterations) on a new stream returns without error, and the markers among the
encoder calls it makes are, in order, the pre-order depth-first traversal of the tree
from the root in which the subdirectories of each directory are visited in the
reverse of the order of their enumeration: a directory, then the whole subtree of its
last subdirectory, then that of the one before, and so on.  When no attributes value
is 0xFFFFFFFF, the markers decoded from the output bytes are the stripped paths of
that traversal, in that order. -/
theorem C17_markers_follow_the_stack (os : OS) (fuel d : Nat) (rootDir : List Nat)
    (hhealthy : os.healthy d (normalizeDir rootDir) = true) (hwf : os.WellFormed)
    (henough : traversalFuel os true d rootDir ≤ fuel) (hfuel : fuel ≤ 2 ^ 32) :
    ∃ items : List Item,
      direnum_NtQueryDirectory_toStream os fuel rootDir PagedBinaryStream.new true
        = some ("", feed PagedBinaryStream.new items)
      ∧ markerPaths items = preorderReversed os d (normalizeDir rootDir)
      ∧ ((∀ dir handle, os.CreateFileW dir = some handle →
            ∀ r ∈ handle, ∀ file ∈ r.entries, file.FileAttributes ≠ 0xFFFFFFFF) →
          (decode (feed PagedBinaryStream.new items).copyAndReset).map recordMarkers
            = some ((preorderReversed os d (normalizeDir rootDir)).map
                fun fullPath => wcharBytes (strippedPath fullPath))) := by
  have hret := direnum_finite os hwf fuel d rootDir PagedBinaryStream.new true
    (healthy_depthAtMost os d _ hhealthy) henough hfuel
  rw [if_neg (healthy_opens os d _ hhealthy), subtreeItems_healthy os hwf d _ hhealthy] at hret
  have hmarkers : markerPaths (groupItems (expectedGroups os d (normalizeDir rootDir)))
      = preorderReversed os d (normalizeDir rootDir) := by
    rw [markerPaths_groupItems, expectedGroups_map_fst]
  refine ⟨_, hret, hmarkers, fun hattr => ?_⟩
  rw [copyAndReset_feed PagedBinaryStream.inv_new, copyAndReset_new, List.nil_append,
    decode_bytes _ (groupItems_encodable os hwf hattr _ (fun g hg => ?_)),
    Option.map_some', recordMarkers_map_record, hmarkers]
  obtain ⟨handle, hopen, hfiles⟩ := expectedGroups_sound os d _ g hg
  refine ⟨handle, hopen, fun file hfile => ?_⟩
  rw [hfiles] at hfile
  exact mem_allEntries.mp (List.mem_filter.mp hfile).1

/-- Witness for C17: the tree in which every directory opens. -/
theorem C17_markers_follow_the_stack_witness :
    healthyOS.healthy 2 (normalizeDir (wstr "C:/t")) = true ∧ healthyOS.WellFormed
    ∧ traversalFuel healthyOS true 2 (wstr "C:/t") ≤ 10 ∧ 10 ≤ 2 ^ 32
    ∧ preorderReversed healthyOS 2 (normalizeDir (wstr "C:/t"))
        = [wstr "\\\\?\\C:\\t", wstr "\\\\?\\C:\\t\\new", wstr "\\\\?\\C:\\t\\sub"]
    ∧ ∃ items : List Item,
        direnum_NtQueryDirectory_toStream healthyOS 10 (wstr "C:/t") PagedBinaryStream.new true
          = some ("", feed PagedBinaryStream.new items)
        ∧ markerPaths items = preorderReversed healthyOS 2 (normalizeDir (wstr "C:/t"))
        ∧ ((∀ dir handle, healthyOS.CreateFileW dir = some handle →
              ∀ r ∈ handle, ∀ file ∈ r.entries, file.FileAttributes ≠ 0xFFFFFFFF) →
            (decode (feed PagedBinaryStream.new items).copyAndReset).map recordMarkers
              = some ((preorderReversed healthyOS 2 (normalizeDir (wstr "C:/t"))).map
                  fun fullPath => wcharBytes (strippedPath fullPath))) :=
  ⟨by decide,
    OS.ofTable_forall healthyTable
      (fun dir handle => 2 * dir.length < 2 ^ 32
        ∧ ∀ r ∈ handle, ∀ file ∈ r.entries, file.WellFormed) (by decide),
    by decide, by decide, by decide,
    C17_markers_follow_the_stack healthyOS 10 2 (wstr "C:/t") (by decide)
      (OS.ofTable_forall healthyTable
        (fun dir handle => 2 * dir.length < 2 ^ 32
          ∧ ∀ r ∈ handle, ∀ file ∈ r.entries, file.WellFormed) (by decide))
      (by decide) (by decide)⟩

/-- C18: when the normalized root begins with `\\?\`, the output of a call that
returns is the stream fed with a sequence of groups (a marker and the file records
under it) in which the first group is the root's and every other group has the path
`P ++ '\' ++ N`, with and without the prefix, where `P` is the path of an earlier
group and `N` is the name, of `FileNameLength / 2` code units, of an entry with the
directory attribute written under that earlier group; for a well-formed entry `N` is
the whole name.  With `recurse = false` the listing of a directory leaves the
worklist as it was. -/
theorem C18_marker_paths_extend_earlier_markers (os : OS) (fuel : Nat) (rootDir : List Nat)
    (stream : PagedBinaryStream) (recurse : Bool) (message : String)
    (out : PagedBinaryStream) (hfuel : fuel ≤ 2 ^ 32)
    (hstarts : [0x5C, 0x5C, 0x3F, 0x5C] <+: normalizeDir rootDir)
    (hrun : direnum_NtQueryDirectory_toStream os fuel rootDir stream recurse
      = some (message, out)) :
    (∃ groups : List (List Nat × List FILE_DIRECTORY_INFORMATION),
      out = feed stream (groupItems groups) ∧
      ∀ pre g post, groups = pre ++ g :: post →
        (pre = [] ∧ g.1 = normalizeDir rootDir)
        ∨ ∃ g' ∈ pre, ∃ file ∈ g'.2, isDirectory file = true
            ∧ g.1 = g'.1 ++ [0x5C] ++ file.FileName.take (file.FileNameLength / 2)
            ∧ strippedPath g.1
                = strippedPath g'.1 ++ [0x5C] ++ file.FileName.take (file.FileNameLength / 2)
            ∧ (file.WellFormed →
                file.FileName.take (file.FileNameLength / 2) = file.FileName))
    ∧ ∀ dir handle buffer v, (listLoop false dir handle buffer v).2.dirs = v.dirs := by
  rw [direnum_eq_summary os fuel rootDir stream recurse hfuel] at hrun
  obtain ⟨groups, hout, hQ, hord⟩ := direnumSummary_ordered os fuel rootDir stream recurse
    message out (fun dir => [0x5C, 0x5C, 0x3F, 0x5C] <+: dir) prefix_nextDir hstarts hrun
  refine ⟨⟨groups, hout, fun pre g post hsplit => ?_⟩, listLoop_false_dirs⟩
  rcases hord pre g post hsplit with h1 | ⟨g', hg', file, hfile, hdir, hnext⟩
  · exact Or.inl h1
  · have hQg : [0x5C, 0x5C, 0x3F, 0x5C] <+: g'.1 :=
      hQ g' (by rw [hsplit]; exact List.mem_append_left _ hg')
    refine Or.inr ⟨g', hg', file, hfile, hdir, hnext, ?_, fun hwf => ?_⟩
    · rw [hnext, nextDir, List.append_assoc, strippedPath_append _ _ hQg, List.append_assoc]
    · obtain ⟨_, _, _, _, h5, _⟩ := hwf
      rw [List.take_of_length_le (by omega)]

/-- Witness for C18: the recursive listing of the tree in which every directory
opens. -/
theorem C18_marker_paths_extend_earlier_markers_witness :
    10 ≤ 2 ^ 32 ∧ [0x5C, 0x5C, 0x3F, 0x5C] <+: normalizeDir (wstr "C:/t")
    ∧ direnum_NtQueryDirectory_toStream healthyOS 10 (wstr "C:/t") PagedBinaryStream.new true
        = some ("", feed PagedBinaryStream.new
            (subtreeItems healthyOS true 2 (normalizeDir (wstr "C:/t"))))
    ∧ (∃ groups : List (List Nat × List FILE_DIRECTORY_INFORMATION),
        feed PagedBinaryStream.new (subtreeItems healthyOS true 2 (normalizeDir (wstr "C:/t")))
          = feed PagedBinaryStream.new (groupItems groups) ∧
        ∀ pre g post, groups = pre ++ g :: post →
          (pre = [] ∧ g.1 = normalizeDir (wstr "C:/t"))
          ∨ ∃ g' ∈ pre, ∃ file ∈ g'.2, isDirectory file = true
              ∧ g.1 = g'.1 ++ [0x5C] ++ file.FileName.take (file.FileNameLength / 2)
              ∧ strippedPath g.1
                  = strippedPath g'.1 ++ [0x5C] ++ file.FileName.take (file.FileNameLength / 2)
              ∧ (file.WellFormed →
                  file.FileName.take (file.FileNameLength / 2) = file.FileName))
    ∧ ∀ dir handle buffer v, (listLoop false dir handle buffer v).2.dirs = v.dirs :=
  ⟨by decide, by decide,
    direnum_yields healthyOS 10 2 (wstr "C:/t") _ (by decide) (by decide) (by decide),
    C18_marker_paths_extend_earlier_markers healthyOS 10 (wstr "C:/t") PagedBinaryStream.new
      true "" _ (by decide) (by decide)
      (direnum_yields healthyOS 10 2 (wstr "C:/t") _ (by decide) (by decide) (by decide))⟩

end ReaddirFast
